import Mathlib

/-!
Verification of the claude-fleet native computation core.

Shallow embedding of the Rust crates (metrics, swarm, ringbus, logstream,
compound, dag) as executable Lean definitions, followed by theorems that
settle the frozen claims about them.

Modelling conventions:
* Rust `HashMap` / `VecDeque` become insertion-ordered association lists /
  plain lists (front = oldest).  The Rust iteration order over a `HashMap`
  is unspecified; the association-list model fixes one admissible order.
* Rust `f64` arithmetic is modelled over `ℚ`; the numeric literals of the
  source (`0.667`, `0.001`, …) become the corresponding rationals.
* `i64` timestamps become `ℤ`, unsigned counters become `ℕ`.
* A Rust panic (integer division by zero) is modelled by `Option`/`none`.
* Calls into `serde_json` (an external library) are modelled by an abstract
  decoder parameter, or — for `#[serde(rename_all = "camelCase", default)]`
  structs — by key lookup with a default, which is serde's documented
  behaviour (unknown keys ignored, absent fields defaulted).
-/

set_option linter.unusedVariables false
set_option linter.unnecessarySimpa false
set_option linter.dupNamespace false

/-! # Part 1 — Definitions (shallow embedding of the source) -/

namespace Fleet

/-! ## Generic ring-buffer push

All four bounded buffers of the repository share the pattern
`if len >= CAP { pop_front() }; push_back(x)`.  `ringPush` is that pattern
on lists (head = oldest); each concrete site below is defined from its own
source and then related to `ringPush`.

The association lists model Rust's `HashMap` as used by the repository:
`lookupA` = `get`, `setA` = write through `get_mut`, `insertRepA` =
`insert` (replace value, keep position), `insertOrA` =
`entry(k).or_insert(v)` (keep if present, append otherwise). -/

def ringPush (cap : Nat) (buf : List α) (x : α) : List α :=
  (if cap ≤ buf.length then buf.tail else buf) ++ [x]

def lookupA (m : List (String × α)) (k : String) : Option α :=
  match m with
  | [] => none
  | (k', v) :: rest => if k' = k then some v else lookupA rest k

def setA (m : List (String × α)) (k : String) (v : α) : List (String × α) :=
  match m with
  | [] => []
  | (k', v') :: rest => if k' = k then (k', v) :: rest else (k', v') :: setA rest k v

def insertRepA (m : List (String × α)) (k : String) (v : α) : List (String × α) :=
  match m with
  | [] => [(k, v)]
  | (k', v') :: rest => if k' = k then (k', v) :: rest else (k', v') :: insertRepA rest k v

def insertOrA (m : List (String × α)) (k : String) (v : α) : List (String × α) :=
  match lookupA m k with
  | some _ => m
  | none => m ++ [(k, v)]

end Fleet

namespace Metrics

/-! ## Sliding window counter (crates/metrics/src/lib.rs)

Translation of `SlidingWindowCounter`.  `new` keeps the source's
`bucket_count.max(1)` guard; `bucket_duration_ms` is the truncating
integer division `window_seconds * 1000 / bc`.  `advance_to` reaches the
expression `elapsed / self.bucket_duration_ms`, an `i64` division that
panics in Rust when `bucket_duration_ms = 0`; the model returns `none`
there.  Bucket counts are `ℕ`, timestamps `ℤ`. -/

structure SlidingWindowCounter where
  bucket_duration_ms : Nat
  bucket_count : Nat
  buckets : List Nat
  timestamps : List Int
  head : Nat
deriving Repr, DecidableEq

namespace SlidingWindowCounter

def new (window_seconds bucket_count : Nat) : SlidingWindowCounter :=
  let bc := max bucket_count 1
  { bucket_duration_ms := window_seconds * 1000 / bc
    bucket_count := bc
    buckets := List.replicate bc 0
    timestamps := List.replicate bc 0
    head := 0 }

def advanceLoop (now : Int) : Nat → SlidingWindowCounter → SlidingWindowCounter
  | 0, s => s
  | k + 1, s =>
      let h := (s.head + 1) % s.bucket_count
      advanceLoop now k
        { s with head := h, buckets := s.buckets.set h 0, timestamps := s.timestamps.set h now }

def advance_to (s : SlidingWindowCounter) (now_ms : Int) : Option SlidingWindowCounter :=
  let current_bucket_ts := s.timestamps.getD s.head 0
  if current_bucket_ts = 0 then
    some { s with timestamps := s.timestamps.set s.head now_ms }
  else
    let elapsed := now_ms - current_bucket_ts
    if elapsed < (s.bucket_duration_ms : Int) then
      some s
    else if s.bucket_duration_ms = 0 then
      none
    else
      let buckets_to_advance := min (elapsed / (s.bucket_duration_ms : Int)).toNat s.bucket_count
      some (advanceLoop now_ms buckets_to_advance s)

def increment (s : SlidingWindowCounter) (now_ms : Int) : Option SlidingWindowCounter :=
  (s.advance_to now_ms).map fun s' =>
    { s' with buckets := s'.buckets.set s'.head (s'.buckets.getD s'.head 0 + 1) }

def windowSum (s : SlidingWindowCounter) (now_ms : Int) : Nat :=
  let window_ms := (s.bucket_duration_ms : Int) * s.bucket_count
  let cutoff := now_ms - window_ms
  (List.range s.bucket_count).foldl
    (fun total i => if cutoff ≤ s.timestamps.getD i 0 then total + s.buckets.getD i 0 else total) 0

def get_count (s : SlidingWindowCounter) (now_ms : Int) : Option Nat :=
  (s.advance_to now_ms).map fun s' => s'.windowSum now_ms

def get_rate (s : SlidingWindowCounter) (now_ms : Int) : Option ℚ :=
  (s.advance_to now_ms).map fun s' =>
    let window_ms := (s'.bucket_duration_ms : ℚ) * s'.bucket_count
    let window_seconds := window_ms / 1000
    if 0 < window_seconds then (s'.windowSum now_ms : ℚ) / window_seconds else 0

def incrementN (s : SlidingWindowCounter) (now_ms : Int) : Nat → Option SlidingWindowCounter
  | 0 => some s
  | k + 1 => (s.incrementN now_ms k).bind fun s' => s'.increment now_ms


/-- The counter state after `k` increments at time `t` on a fresh
counter with `bucket_count = bc ≥ 1`: everything landed in bucket 0. -/
def chargedState (ws bc : Nat) (t : Int) (k : Nat) : SlidingWindowCounter :=
  { bucket_duration_ms := ws * 1000 / bc
    bucket_count := bc
    buckets := (List.replicate bc 0).set 0 k
    timestamps := (List.replicate bc 0).set 0 t
    head := 0 }

end SlidingWindowCounter

end Metrics


namespace Swarm

/-! ## Vote tallying (crates/swarm/src/lib.rs, `SwarmEngine::tally_votes`)

`decode` abstracts `serde_json::from_str::<Vec<String>>` used by the
"ranked" branch (an external library call).  The tally `HashMap` is an
insertion-ordered association list; `0.667` and the other `f64` literals
become the corresponding rationals. -/

structure VoteData where
  voter_handle : String
  vote_value : String
  vote_weight : ℚ
deriving Repr, DecidableEq

structure ConsensusResult where
  winner : Option String
  tally : List (String × ℚ)
  quorum_met : Bool
  total_votes : Nat
  weighted_total : ℚ
  participation_rate : ℚ
deriving Repr, DecidableEq

/-- `tally.insert(opt, 0.0)` for every option. -/
def tallyInit (options : List String) : List (String × ℚ) :=
  options.foldl (fun t opt => Fleet.insertRepA t opt 0) []

/-- `*tally.entry(key).or_insert(0.0) += p`. -/
def tallyAdd (t : List (String × ℚ)) (key : String) (p : ℚ) : List (String × ℚ) :=
  match Fleet.lookupA t key with
  | some v => Fleet.setA t key (v + p)
  | none => t ++ [(key, p)]

/-- One iteration of the vote loop: Borda scoring for "ranked" (skipping
votes whose value does not decode), plain weight addition otherwise; the
second component accumulates `total_weight`. -/
def voteStep (decode : String → Option (List String)) (method : String)
    (acc : List (String × ℚ) × ℚ) (vote : VoteData) : List (String × ℚ) × ℚ :=
  if method = "ranked" then
    match decode vote.vote_value with
    | some rankings =>
        let n := rankings.length
        let t := rankings.enum.foldl
          (fun t iopt => tallyAdd t iopt.2 (((n : ℚ) - (iopt.1 : ℚ)) * vote.vote_weight)) acc.1
        (t, acc.2 + vote.vote_weight)
    | none => acc
  else
    (tallyAdd acc.1 vote.vote_value vote.vote_weight, acc.2 + vote.vote_weight)

/-- The winner-selection loop: running `(winner, max_votes)` pair updated
whenever `count > max_votes`, starting from `(None, 0.0)`. -/
def winnerFold (t : List (String × ℚ)) : Option String × ℚ :=
  t.foldl (fun wm p => if wm.2 < p.2 then (some p.1, p.2) else wm) (none, 0)

def tally_votes (decode : String → Option (List String)) (votes : List VoteData)
    (options : List String) (method : String) (quorum_value : ℚ) : ConsensusResult :=
  let init := tallyInit options
  let tw := votes.foldl (voteStep decode method) (init, 0)
  let tally := tw.1
  let total_weight := tw.2
  let wm := winnerFold tally
  let quorum_met : Bool :=
    if 0 < total_weight then
      let winner_frac := wm.2 / total_weight
      if method = "supermajority" then decide ((667 : ℚ)/1000 ≤ winner_frac)
      else if method = "unanimous" then decide ((1 : ℚ) ≤ winner_frac)
      else decide ((1 : ℚ)/2 < winner_frac) || decide (options.length ≤ 2)
    else false
  let participation_rate : ℚ :=
    if 0 < total_weight then (votes.length : ℚ) / total_weight else 0
  { winner := if quorum_met then wm.1 else none
    tally := tally
    quorum_met := quorum_met
    total_votes := votes.length
    weighted_total := total_weight
    participation_rate := participation_rate }

/-- The keys of an association list, in order, with multiplicity. -/
def keysOf (t : List (String × α)) : List String := t.map Prod.fst

end Swarm


namespace Compound

/-! ## Compound accumulator (crates/compound/src/lib.rs)

`SnapshotInput` is decoded by serde with
`#[serde(rename_all = "camelCase")]` and `#[serde(default)]` on every
field: each field is read from its camelCase key, absent keys default
(`0` / empty), and unknown keys are ignored.  `decodeSnapshotCounters`
models exactly that for the numeric fields, taking the JSON object's
numeric key/value pairs as an association list (`workers` / `swarms`
are passed already decoded).  `push_snapshot` then derives the stored
`TimeSeriesPoint` and appends it to the capacity-720 ring buffer. -/

structure WorkerInfo where
  handle : String
  state : String
  health : String
  swarm_id : Option String
  depth_level : Option Nat
  team_name : Option String
deriving Repr, DecidableEq

structure SwarmInfo where
  id : String
  name : String
  agents : List WorkerInfo
deriving Repr, DecidableEq

structure SnapshotInput where
  workers : List WorkerInfo
  swarms : List SwarmInfo
  tasks_total : Nat
  tasks_completed : Nat
  knowledge_entries : Nat
  credits_total : Nat
  blackboard_messages : Nat
  pheromone_trails : Nat
deriving Repr, DecidableEq

structure TimeSeriesPoint where
  timestamp : Int
  tasks_completed : Nat
  knowledge_entries : Nat
  credits_earned : Nat
  active_workers : Nat
  healthy_workers : Nat
  total_swarms : Nat
  blackboard_messages : Nat
  pheromone_trails : Nat
deriving Repr, DecidableEq

def MAX_POINTS : Nat := 720

def decodeSnapshotCounters (kvs : List (String × Nat)) (workers : List WorkerInfo)
    (swarms : List SwarmInfo) : SnapshotInput :=
  { workers := workers
    swarms := swarms
    tasks_total := (Fleet.lookupA kvs "tasksTotal").getD 0
    tasks_completed := (Fleet.lookupA kvs "tasksCompleted").getD 0
    knowledge_entries := (Fleet.lookupA kvs "knowledgeEntries").getD 0
    credits_total := (Fleet.lookupA kvs "creditsTotal").getD 0
    blackboard_messages := (Fleet.lookupA kvs "blackboardMessages").getD 0
    pheromone_trails := (Fleet.lookupA kvs "pheromoneTrails").getD 0 }

def mkPoint (snapshot : SnapshotInput) (now : Int) : TimeSeriesPoint :=
  { timestamp := now
    tasks_completed := snapshot.tasks_completed
    knowledge_entries := snapshot.knowledge_entries
    credits_earned := snapshot.credits_total
    active_workers := (snapshot.workers.filter (fun w => w.state != "stopped")).length
    healthy_workers := (snapshot.workers.filter (fun w => w.health == "healthy")).length
    total_swarms := snapshot.swarms.length
    blackboard_messages := snapshot.blackboard_messages
    pheromone_trails := snapshot.pheromone_trails }

def push_snapshot (points : List TimeSeriesPoint) (kvs : List (String × Nat))
    (workers : List WorkerInfo) (swarms : List SwarmInfo) (now : Int) : List TimeSeriesPoint :=
  let snapshot := decodeSnapshotCounters kvs workers swarms
  let point := mkPoint snapshot now
  (if MAX_POINTS ≤ points.length then points.tail else points) ++ [point]

end Compound


namespace LogStream

/-! ## LogStream parser (crates/logstream/src/lib.rs)

Lines and text are `List Char` (Rust `String` viewed as a character
sequence); `splitNl` is `str::split('\\n')` (which yields `[""]` on the
empty string), `trimChars` is `str::trim`.  `decode` abstracts
`serde_json::from_str::<RawEvent>` (external library).  `now` is the
wall-clock value `chrono::Utc::now().timestamp_millis()` observed by a
call, passed as a parameter. -/

def MAX_OUTPUT_LINES : Nat := 1000

def MAX_EVENTS : Nat := 500

structure RawContent where
  content_type : Option (List Char)
  text : Option (List Char)
deriving Repr, DecidableEq

structure RawMessage where
  content : Option (List RawContent)
deriving Repr, DecidableEq

structure RawEvent where
  event_type : Option (List Char)
  subtype : Option (List Char)
  session_id : Option (List Char)
  message : Option RawMessage
deriving Repr, DecidableEq

structure ParsedEvent where
  event_type : List Char
  subtype : List Char
  session_id : List Char
  text : List Char
  is_error : Bool
  timestamp : Int
deriving Repr, DecidableEq

structure LogStreamParser where
  events : List ParsedEvent
  output_lines : List (List Char)
  line_buffer : List Char
  session_id : List Char
  state : List Char
  last_event_at : Int
  error_count : Nat
  total_events : Nat
deriving Repr, DecidableEq

def newParser : LogStreamParser :=
  { events := []
    output_lines := []
    line_buffer := []
    session_id := []
    state := "idle".toList
    last_event_at := 0
    error_count := 0
    total_events := 0 }

def push_event (p : LogStreamParser) (event : ParsedEvent) : LogStreamParser :=
  { p with events := (if MAX_EVENTS ≤ p.events.length then p.events.tail else p.events) ++ [event] }

def push_output (p : LogStreamParser) (line : List Char) : LogStreamParser :=
  { p with output_lines :=
      (if MAX_OUTPUT_LINES ≤ p.output_lines.length then p.output_lines.tail
       else p.output_lines) ++ [line] }

def trimChars (l : List Char) : List Char :=
  ((l.dropWhile Char.isWhitespace).reverse.dropWhile Char.isWhitespace).reverse

/-- One step of the `for c in content` loop of `process_raw_event`:
accumulate the text of `type == "text"` elements and push each to the
output buffer. -/
def contentStep (acc : List Char × LogStreamParser) (c : RawContent) :
    List Char × LogStreamParser :=
  if c.content_type = some "text".toList then
    match c.text with
    | some t => (acc.1 ++ t, push_output acc.2 t)
    | none => acc
  else acc

/-- The session-extraction block of `process_raw_event`. -/
def initStep (p : LogStreamParser) (event_type subtype session_id : List Char) :
    LogStreamParser :=
  if event_type = "system".toList ∧ subtype = "init".toList ∧ session_id ≠ [] then
    { p with session_id := session_id, state := "ready".toList }
  else p

/-- The assistant-text-extraction block of `process_raw_event`. -/
def assistantStep (p : LogStreamParser) (event_type : List Char)
    (message : Option RawMessage) : List Char × LogStreamParser :=
  if event_type = "assistant".toList then
    let p2 := { p with state := "working".toList }
    match message with
    | some msg =>
        match msg.content with
        | some content => content.foldl contentStep ([], p2)
        | none => ([], p2)
    | none => ([], p2)
  else ([], p)

/-- The error-counting block of `process_raw_event`. -/
def errorStep (p : LogStreamParser) (is_error : Bool) : LogStreamParser :=
  if is_error then { p with error_count := p.error_count + 1 } else p

def process_raw_event (p : LogStreamParser) (raw : RawEvent) (now : Int) :
    ParsedEvent × LogStreamParser :=
  let event_type := raw.event_type.getD []
  let subtype := raw.subtype.getD []
  let session_id := raw.session_id.getD []
  let p1 := initStep p event_type subtype session_id
  let tp := assistantStep p1 event_type raw.message
  let is_error : Bool :=
    if event_type = "result".toList ∨ subtype = "error".toList then
      decide (subtype = "error".toList)
    else false
  let p4 := errorStep tp.2 is_error
  let p5 := { p4 with total_events := p4.total_events + 1 }
  (⟨event_type, subtype, session_id, tp.1, is_error, now⟩, p5)

def parse_line (decode : List Char → Option RawEvent) (now : Int)
    (p : LogStreamParser) (line : List Char) : Option ParsedEvent × LogStreamParser :=
  let trimmed := trimChars line
  if trimmed = [] then (none, p)
  else
    let pt := { p with last_event_at := now }
    match decode trimmed with
    | some raw =>
        let ep := process_raw_event pt raw now
        (some ep.1, push_event ep.2 ep.1)
    | none => (none, push_output pt trimmed)

/-- Rust `data.split('\\n')` on character lists. -/
def splitNl : List Char → List (List Char)
  | [] => [[]]
  | c :: cs =>
      if c = '\n' then [] :: splitNl cs
      else
        match splitNl cs with
        | [] => [[c]]
        | s :: rest => (c :: s) :: rest

/-- `splitNl` split into the complete lines and the trailing fragment:
`splitNl x = (splitFrag x).1 ++ [(splitFrag x).2]`. -/
def splitFrag : List Char → List (List Char) × List Char
  | [] => ([], [])
  | c :: cs =>
      let r := splitFrag cs
      if c = '\n' then ([] :: r.1, r.2)
      else
        match r with
        | ([], t) => ([], c :: t)
        | (l :: ls, t) => ((c :: l) :: ls, t)

def batchStep (decode : List Char → Option RawEvent) (now : Int)
    (acc : List ParsedEvent × LogStreamParser) (line : List Char) :
    List ParsedEvent × LogStreamParser :=
  let r := parse_line decode now acc.2 line
  (acc.1 ++ r.1.toList, r.2)

def parse_batch (decode : List Char → Option RawEvent) (now : Int)
    (p : LogStreamParser) (chunk : List Char) : List ParsedEvent × LogStreamParser :=
  let data := p.line_buffer ++ chunk
  let p1 := { p with line_buffer := [] }
  let lines := splitNl data
  let lastLine := lines.getLast?.getD []
  let p2 := if lastLine ≠ [] then { p1 with line_buffer := lastLine } else p1
  lines.dropLast.foldl (batchStep decode now) ([], p2)

end LogStream


namespace RingBus

/-! ## Ringbus (crates/ringbus/src/lib.rs)

`channels` and `subscribers` are insertion-ordered association lists
(`HashMap` models); a subscriber's topic set is a duplicate-free list in
insertion order (`HashSet` model).  `read_by` is the comma-joined reader
string kept as `List Char`; the unread check is Rust's
`String::contains(&handle)`, i.e. a substring test, modelled by
`List.IsInfix` on the characters.  `publish` takes the wall-clock value
as a parameter.  The `sort_by` comparator (priority descending, then
timestamp ascending) is modelled by `List.insertionSort` with the
corresponding total preorder; like Rust's `sort_by` it is a stable sort,
and only the permutation property is used below. -/

def MAX_MESSAGES_PER_TOPIC : Nat := 10000

structure BusMessage where
  id : String
  topic : String
  sender : String
  priority : Nat
  payload : String
  timestamp : Int
  read_by : List Char
deriving Repr, DecidableEq

structure RingBus where
  channels : List (String × List BusMessage)
  subscribers : List (String × List String)
  next_id : Nat
deriving Repr, DecidableEq

def new : RingBus := { channels := [], subscribers := [], next_id := 1 }

def publish (bus : RingBus) (topic sender : String) (priority : Nat) (payload : String)
    (now : Int) : String × RingBus :=
  let id := "msg_" ++ toString bus.next_id
  let msg : BusMessage :=
    { id := id, topic := topic, sender := sender, priority := min priority 3,
      payload := payload, timestamp := now, read_by := [] }
  let channel := (Fleet.lookupA bus.channels topic).getD []
  let channel' :=
    (if MAX_MESSAGES_PER_TOPIC ≤ channel.length then channel.tail else channel) ++ [msg]
  (id, { bus with
      channels := Fleet.insertRepA bus.channels topic channel'
      next_id := bus.next_id + 1 })

def subscribe (bus : RingBus) (handle topic : String) : RingBus :=
  let topics := (Fleet.lookupA bus.subscribers handle).getD []
  let topics' := if topic ∈ topics then topics else topics ++ [topic]
  { bus with subscribers := Fleet.insertRepA bus.subscribers handle topics' }

/-- Rust `msg.read_by.contains(&handle)`: substring containment. -/
def readByContains (read_by : List Char) (handle : String) : Bool :=
  decide (handle.toList <:+: read_by)

/-- Append the handle to a message's comma-joined `read_by`. -/
def markMsg (m : BusMessage) (handle : String) : BusMessage :=
  { m with read_by :=
      (if m.read_by ≠ [] then m.read_by ++ [','] else m.read_by) ++ handle.toList }

/-- Mark the first channel entry whose id matches. -/
def updateFirst (channel : List BusMessage) (id : String) (handle : String) :
    List BusMessage :=
  match channel with
  | [] => []
  | m :: rest =>
      if m.id = id then markMsg m handle :: rest else m :: updateFirst rest id handle

/-- The newest-first collection loop over one channel, with the
cross-topic `limit` check and the unread filter. -/
def collectChannel (handle : String) (unread_only : Bool) (limit : Nat)
    (acc : List BusMessage) (channel : List BusMessage) : List BusMessage :=
  channel.reverse.foldl
    (fun acc m =>
      if limit ≤ acc.length then acc
      else if unread_only && readByContains m.read_by handle then acc
      else acc ++ [m]) acc

/-- The sort order of `read`: priority descending, then timestamp
ascending. -/
def readLE (a b : BusMessage) : Prop :=
  b.priority < a.priority ∨ (a.priority = b.priority ∧ a.timestamp ≤ b.timestamp)

instance : DecidableRel readLE := fun a b => by
  rw [readLE]
  infer_instance

/-- The per-topic step of the collection loop of `read`. -/
def topicStep (bus : RingBus) (handle : String) (unread_only : Bool) (limit : Nat)
    (acc : List BusMessage) (t : String) : List BusMessage :=
  match Fleet.lookupA bus.channels t with
  | some channel => collectChannel handle unread_only limit acc channel
  | none => acc

/-- The mark-as-read step of `read`: find the first channel entry with
the returned message's id and append the handle. -/
def markStep (handle : String) (chs : List (String × List BusMessage)) (m : BusMessage) :
    List (String × List BusMessage) :=
  match Fleet.lookupA chs m.topic with
  | some channel => Fleet.setA chs m.topic (updateFirst channel m.id handle)
  | none => chs

def read (bus : RingBus) (handle : String) (limit : Nat) (unread_only : Bool) :
    List BusMessage × RingBus :=
  let topics := (Fleet.lookupA bus.subscribers handle).getD []
  let collected := topics.foldl (topicStep bus handle unread_only limit) []
  let sorted := List.insertionSort readLE collected
  let messages := sorted.take limit
  let channels' := messages.foldl (markStep handle) bus.channels
  (messages, { bus with channels := channels' })

/-- The message minted by the `i`-th publish of `inputs`
(`(sender, priority, payload, now)` tuples) to `topic`, starting from
id counter `startId`. -/
def mintedMsgs (topic : String) (startId : Nat) :
    List (String × Nat × String × Int) → List BusMessage
  | [] => []
  | (sender, priority, payload, now) :: rest =>
      { id := "msg_" ++ toString startId, topic := topic, sender := sender,
        priority := min priority 3, payload := payload, timestamp := now,
        read_by := [] } :: mintedMsgs topic (startId + 1) rest

def publishFold (bus : RingBus) (topic : String)
    (inputs : List (String × Nat × String × Int)) : RingBus :=
  inputs.foldl (fun b i => (publish b topic i.1 i.2.1 i.2.2.1 i.2.2.2).2) bus

end RingBus


namespace RingBus

/-- Channel-key consistency: every message stored under a topic key
carries that topic in its `topic` field.  This holds for every bus built
through `publish` (which stores the message under `msg.topic`). -/
def TopicConsistent (bus : RingBus) : Prop :=
  ∀ p ∈ bus.channels, ∀ m ∈ p.2, m.topic = p.1

instance (bus : RingBus) : Decidable (TopicConsistent bus) := by
  rw [TopicConsistent]
  infer_instance

/-- Modelled from the spec's data model wording — `read_by` is a
"comma-joined list of reader handles": the list of handles obtained by
splitting `read_by` at commas.  Used only to state what the original
claim predicted (`read_by` treated as a list of handles); the code
itself performs a substring test instead. -/
def readersOfSpec : List Char → List (List Char)
  | [] => [[]]
  | c :: cs =>
      if c = ',' then [] :: readersOfSpec cs
      else
        match readersOfSpec cs with
        | [] => [[c]]
        | s :: rest => (c :: s) :: rest

/-- The channel map has some entry under the message's topic holding a
message with the same id. -/
def IdPresent (chs : List (String × List BusMessage)) (m : BusMessage) : Prop :=
  ∃ ch, Fleet.lookupA chs m.topic = some ch ∧ ∃ m' ∈ ch, m'.id = m.id

/-- The channel map has, under the message's topic, a message with the
same id whose `read_by` contains the handle as a substring. -/
def MarkedBy (handle : String) (chs : List (String × List BusMessage))
    (m : BusMessage) : Prop :=
  ∃ ch, Fleet.lookupA chs m.topic = some ch ∧
    ∃ m' ∈ ch, m'.id = m.id ∧ handle.toList <:+: m'.read_by

end RingBus


namespace Dag

/-! ## DAG solver (crates/dag/src/lib.rs)

All three `build_graph` maps are insertion-ordered association lists.
The Kahn loop is written with explicit fuel (the Rust `while` loop);
`topological_sort` passes provably sufficient fuel
(`queue.length + degSum in_degree + 1`), and the loop is shown below to
drain the queue within it.  In-degrees are `ℕ`; the Rust decrement
`*deg -= 1` with its `if *deg == 0` test is modelled as `deg - 1` with
push condition `deg = 1`, which agrees with the `u64` wrapping
semantics on every state (a wrapped value is never 0).  The level sort
(`sort_by` on priority descending) is a stable sort modelled by
`List.insertionSort`; only the permutation property is used.
Durations are `ℚ`; `0.001` becomes `1/1000`. -/

structure DagNode where
  id : String
  priority : Option Int
  estimated_duration : Option ℚ
  depends_on : Option (List String)
deriving Repr, DecidableEq

structure TopologicalResult where
  order : List String
  levels : List (List String)
  is_valid : Bool
  node_count : Nat
deriving Repr, DecidableEq

/-- `adj.entry(dep).or_default().push(node.id)`. -/
def pushAdj (adj : List (String × List String)) (dep id : String) :
    List (String × List String) :=
  match Fleet.lookupA adj dep with
  | some lst => Fleet.setA adj dep (lst ++ [id])
  | none => adj ++ [(dep, [id])]

/-- `*in_degree.entry(node.id).or_insert(0) += 1`. -/
def bumpIndeg (ind : List (String × Nat)) (id : String) : List (String × Nat) :=
  match Fleet.lookupA ind id with
  | some d => Fleet.setA ind id (d + 1)
  | none => ind ++ [(id, 1)]

def build_graph (nodes : List DagNode) :
    List (String × List String) × List (String × Nat) × List (String × DagNode) :=
  let init := nodes.foldl
    (fun maps n =>
      (Fleet.insertOrA maps.1 n.id [], Fleet.insertOrA maps.2.1 n.id 0,
        Fleet.insertRepA maps.2.2 n.id n))
    ([], [], [])
  nodes.foldl
    (fun maps n =>
      (n.depends_on.getD []).foldl
        (fun maps dep =>
          (pushAdj maps.1 dep n.id, bumpIndeg maps.2.1 n.id, maps.2.2)) maps)
    init

/-- `node_map.get(a).and_then(|n| n.priority).unwrap_or(0)`. -/
def prioOf (node_map : List (String × DagNode)) (id : String) : Int :=
  ((Fleet.lookupA node_map id).bind (fun n => n.priority)).getD 0

/-- The level sort order: priority descending. -/
def levelLE (node_map : List (String × DagNode)) (a b : String) : Prop :=
  prioOf node_map b ≤ prioOf node_map a

instance (node_map : List (String × DagNode)) : DecidableRel (levelLE node_map) :=
  fun a b => by rw [levelLE]; infer_instance

/-- Processing one id of a level: append to the order, then decrement
each neighbor's in-degree, enqueuing those that reach zero.  State is
`(order, in_degree, next queue)`. -/
def stepNode (adj : List (String × List String))
    (st : List String × List (String × Nat) × List String) (id : String) :
    List String × List (String × Nat) × List String :=
  ((Fleet.lookupA adj id).getD []).foldl
    (fun st nb =>
      match Fleet.lookupA st.2.1 nb with
      | some deg =>
          (st.1, Fleet.setA st.2.1 nb (deg - 1),
            if deg = 1 then st.2.2 ++ [nb] else st.2.2)
      | none => st)
    (st.1 ++ [id], st.2.1, st.2.2)

def degSum (ind : List (String × Nat)) : Nat := (ind.map Prod.snd).sum

def kahnLoop (adj : List (String × List String)) (node_map : List (String × DagNode)) :
    Nat → List String → List (String × Nat) → List String → List (List String) →
      List String × List (List String)
  | 0, _, _, order, levels => (order, levels)
  | fuel + 1, queue, indeg, order, levels =>
      if queue = [] then (order, levels)
      else
        let level := List.insertionSort (levelLE node_map) queue
        let st := level.foldl (stepNode adj) (order, indeg, [])
        kahnLoop adj node_map fuel st.2.2 st.2.1 st.1 (levels ++ [level])

def topological_sort (nodes : List DagNode) : TopologicalResult :=
  let g := build_graph nodes
  let adj := g.1
  let in_degree := g.2.1
  let node_map := g.2.2
  let queue := (in_degree.filter (fun p => p.2 == 0)).map Prod.fst
  let r := kahnLoop adj node_map (queue.length + degSum in_degree + 1) queue in_degree [] []
  { order := r.1
    levels := r.2
    is_valid := decide (r.1.length = nodes.length)
    node_count := nodes.length }

structure NodeSlack where
  id : String
  slack : ℚ
  earliest_start : ℚ
  latest_start : ℚ
deriving Repr, DecidableEq

structure CriticalPathResult where
  path : List String
  total_duration : ℚ
  slack : List NodeSlack
deriving Repr, DecidableEq

/-- `node_map.get(id).and_then(|n| n.estimated_duration).unwrap_or(1.0)`. -/
def durOf (node_map : List (String × DagNode)) (id : String) : ℚ :=
  ((Fleet.lookupA node_map id).bind (fun n => n.estimated_duration)).getD 1

/-- The forward pass of `critical_path` for one id of the topo order:
state `(earliest_start, earliest_finish)`. -/
def forwardStep (adj : List (String × List String)) (node_map : List (String × DagNode))
    (st : List (String × ℚ) × List (String × ℚ)) (id : String) :
    List (String × ℚ) × List (String × ℚ) :=
  let duration := durOf node_map id
  let es1 := Fleet.insertOrA st.1 id 0
  let esv := (Fleet.lookupA es1 id).getD 0
  let ef1 := Fleet.insertRepA st.2 id (esv + duration)
  let es2 := ((Fleet.lookupA adj id).getD []).foldl
    (fun es nb =>
      let es' := Fleet.insertOrA es nb 0
      let nbes := (Fleet.lookupA es' nb).getD 0
      if nbes < esv + duration then Fleet.setA es' nb (esv + duration) else es') es1
  (es2, ef1)

/-- The backward pass of `critical_path` for one id of the reversed topo
order: state `(latest_finish, latest_start)`. -/
def backwardStep (adj : List (String × List String)) (node_map : List (String × DagNode))
    (total_duration : ℚ) (st : List (String × ℚ) × List (String × ℚ)) (id : String) :
    List (String × ℚ) × List (String × ℚ) :=
  let duration := durOf node_map id
  let lf1 := Fleet.insertOrA st.1 id total_duration
  let lf2 := ((Fleet.lookupA adj id).getD []).foldl
    (fun lf nb =>
      let neighbor_ls := (Fleet.lookupA st.2 nb).getD total_duration
      let lf' := Fleet.insertOrA lf id total_duration
      let cur := (Fleet.lookupA lf' id).getD total_duration
      if neighbor_ls < cur then Fleet.setA lf' id neighbor_ls else lf') lf1
  let lf_val := (Fleet.lookupA lf2 id).getD total_duration
  (lf2, Fleet.insertRepA st.2 id (lf_val - duration))

/-- The slack/critical-path extraction pass: state `(path, slack)`. -/
def slackStep (earliest_start latest_start : List (String × ℚ))
    (acc : List String × List NodeSlack) (id : String) :
    List String × List NodeSlack :=
  let es := (Fleet.lookupA earliest_start id).getD 0
  let ls := (Fleet.lookupA latest_start id).getD 0
  let slack := ls - es
  ((if |slack| < 1/1000 then acc.1 ++ [id] else acc.1),
    acc.2 ++ [{ id := id, slack := slack, earliest_start := es, latest_start := ls }])

def critical_path (nodes : List DagNode) : Except String CriticalPathResult :=
  let g := build_graph nodes
  let adj := g.1
  let node_map := g.2.2
  let topo := topological_sort nodes
  if topo.is_valid then
    let fw := topo.order.foldl (forwardStep adj node_map) ([], [])
    let total_duration := ((fw.2.map Prod.snd).foldl max 0 : ℚ)
    let bw := topo.order.reverse.foldl (backwardStep adj node_map total_duration) ([], [])
    let sp := topo.order.foldl (slackStep fw.1 bw.2) ([], [])
    Except.ok { path := sp.1, total_duration := total_duration, slack := sp.2 }
  else
    Except.error "Graph contains cycles; cannot compute critical path"

/-- The ids of the input nodes. -/
def idsOf (nodes : List DagNode) : List String := nodes.map (fun n => n.id)

/-- The dependency edges, with multiplicity, in declaration order:
`(dep, node.id)` for every `dep` listed by a node. -/
def edgesList (nodes : List DagNode) : List (String × String) :=
  nodes.flatMap (fun n => (n.depends_on.getD []).map (fun d => (d, n.id)))

/-- There is a dependency edge from `u` to `v`. -/
def EdgeIn (nodes : List DagNode) (u v : String) : Prop :=
  ∃ n ∈ nodes, n.id = v ∧ u ∈ n.depends_on.getD []

/-- The input graph contains a directed cycle. -/
def HasCycle (nodes : List DagNode) : Prop :=
  ∃ id, Relation.TransGen (EdgeIn nodes) id id


/-- The adjacency list of `u`: `adj.get(u)` with missing keys read as `[]`
(the neighbor loop iterates nothing for an absent key). -/
def adjL (adj : List (String × List String)) (u : String) : List String :=
  (Fleet.lookupA adj u).getD []

/-- Number of edges `u → v` recorded in the adjacency map. -/
def occ (adj : List (String × List String)) (u v : String) : Nat :=
  (adjL adj u).count v

/-- Number of edges into `v` whose source lies in `S` (with multiplicity). -/
def sumOcc (adj : List (String × List String)) (S : List String) (v : String) : Nat :=
  (S.map (fun u => occ adj u v)).sum

/-- The in-degree map is coherent with the adjacency map: no duplicate-free
set of sources accounts for more edges into `v` than its total in-degree. -/
def Coh (adj : List (String × List String)) (tot : String → Nat) : Prop :=
  ∀ (v : String) (S : List String), S.Nodup → sumOcc adj S v ≤ tot v

/-- One neighbor visit of the Kahn inner loop (the body of the `for nb`
loop): decrement the neighbor's in-degree and enqueue it at zero. -/
def nbStep (st : List String × List (String × Nat) × List String) (nb : String) :
    List String × List (String × Nat) × List String :=
  match Fleet.lookupA st.2.1 nb with
  | some deg =>
      (st.1, Fleet.setA st.2.1 nb (deg - 1),
        if deg = 1 then st.2.2 ++ [nb] else st.2.2)
  | none => st

/-- The Kahn loop invariant, between levels: `order` is the output so far,
`queue` the pending zero-degree frontier, `ind` the current in-degree map. -/
structure KahnInv (adj : List (String × List String)) (tot : String → Nat)
    (dom : List String) (order queue : List String)
    (ind : List (String × Nat)) : Prop where
  ind_keys : ∀ v, v ∈ Swarm.keysOf ind ↔ v ∈ dom
  ind_nodup : (Swarm.keysOf ind).Nodup
  order_nodup : order.Nodup
  queue_nodup : queue.Nodup
  disj : ∀ v ∈ queue, v ∉ order
  order_dom : ∀ v ∈ order, v ∈ dom
  queue_dom : ∀ v ∈ queue, v ∈ dom
  deg_eq : ∀ v d, Fleet.lookupA ind v = some d → d + sumOcc adj order v = tot v
  queue_zero : ∀ v ∈ queue, Fleet.lookupA ind v = some 0
  order_pos : ∀ v ∈ order, ∀ u, v ∈ adjL adj u →
    u ∈ order ∧ order.indexOf u < order.indexOf v
  queue_preds : ∀ v ∈ queue, ∀ u, v ∈ adjL adj u → u ∈ order
  zero_placed : ∀ v ∈ dom, Fleet.lookupA ind v = some 0 → v ∈ order ∨ v ∈ queue

/-- The invariant inside one level: `pending` is the unprocessed tail of the
sorted level, `nq` the next queue being accumulated. -/
structure LoopInv (adj : List (String × List String)) (tot : String → Nat)
    (dom : List String) (order pending : List String)
    (ind : List (String × Nat)) (nq : List String) : Prop where
  ind_keys : ∀ v, v ∈ Swarm.keysOf ind ↔ v ∈ dom
  ind_nodup : (Swarm.keysOf ind).Nodup
  order_nodup : order.Nodup
  pending_nodup : pending.Nodup
  nq_nodup : nq.Nodup
  pending_order : ∀ v ∈ pending, v ∉ order
  nq_order : ∀ v ∈ nq, v ∉ order
  nq_pending : ∀ v ∈ nq, v ∉ pending
  order_dom : ∀ v ∈ order, v ∈ dom
  pending_dom : ∀ v ∈ pending, v ∈ dom
  nq_dom : ∀ v ∈ nq, v ∈ dom
  deg_eq : ∀ v d, Fleet.lookupA ind v = some d → d + sumOcc adj order v = tot v
  pending_zero : ∀ v ∈ pending, Fleet.lookupA ind v = some 0
  nq_zero : ∀ v ∈ nq, Fleet.lookupA ind v = some 0
  order_pos : ∀ v ∈ order, ∀ u, v ∈ adjL adj u →
    u ∈ order ∧ order.indexOf u < order.indexOf v
  pending_preds : ∀ v ∈ pending, ∀ u, v ∈ adjL adj u → u ∈ order
  nq_preds : ∀ v ∈ nq, ∀ u, v ∈ adjL adj u → u ∈ order
  zero_placed : ∀ v ∈ dom, Fleet.lookupA ind v = some 0 →
    v ∈ order ∨ v ∈ pending ∨ v ∈ nq

/-- The invariant inside the neighbor loop of one processed node `u`:
`pre` is the prefix of `u`'s adjacency list already visited. -/
structure NbInv (adj : List (String × List String)) (tot : String → Nat)
    (dom : List String) (order : List String) (u : String)
    (pending pre : List String)
    (ind : List (String × Nat)) (nq : List String) : Prop where
  ind_keys : ∀ v, v ∈ Swarm.keysOf ind ↔ v ∈ dom
  ind_nodup : (Swarm.keysOf ind).Nodup
  u_zero : Fleet.lookupA ind u = some 0
  pending_nodup : pending.Nodup
  nq_nodup : nq.Nodup
  pending_order : ∀ v ∈ pending, v ∉ order ∧ v ≠ u
  nq_order : ∀ v ∈ nq, v ∉ order ∧ v ≠ u
  nq_pending : ∀ v ∈ nq, v ∉ pending
  pending_dom : ∀ v ∈ pending, v ∈ dom
  nq_dom : ∀ v ∈ nq, v ∈ dom
  deg_eq : ∀ v d, Fleet.lookupA ind v = some d →
    d + sumOcc adj order v + pre.count v = tot v
  pending_zero : ∀ v ∈ pending, Fleet.lookupA ind v = some 0
  nq_zero : ∀ v ∈ nq, Fleet.lookupA ind v = some 0
  pending_preds : ∀ v ∈ pending, ∀ w, v ∈ adjL adj w → w ∈ order
  nq_preds : ∀ v ∈ nq, ∀ w, v ∈ adjL adj w → w ∈ order ∨ w = u
  zero_placed : ∀ v ∈ dom, Fleet.lookupA ind v = some 0 →
    v ∈ order ∨ v = u ∨ v ∈ pending ∨ v ∈ nq

/-- The three `build_graph` maps, named. -/
def gAdj (nodes : List DagNode) : List (String × List String) := (build_graph nodes).1

def gInd (nodes : List DagNode) : List (String × Nat) := (build_graph nodes).2.1

def gMap (nodes : List DagNode) : List (String × DagNode) := (build_graph nodes).2.2

/-- The total in-degree of `v`: the number of dependency edges into it. -/
def gTot (nodes : List DagNode) (v : String) : Nat :=
  (edgesList nodes).countP (fun e => e.2 == v)

/-- Every listed dependency names an id present in the node list. -/
def DepsClosed (nodes : List DagNode) : Prop :=
  ∀ n ∈ nodes, ∀ d ∈ n.depends_on.getD [], d ∈ idsOf nodes

/-- The forward pass of `critical_path`, run on the topological order. -/
def forwardPass (nodes : List DagNode) : List (String × ℚ) × List (String × ℚ) :=
  (topological_sort nodes).order.foldl
    (forwardStep (build_graph nodes).1 (build_graph nodes).2.2) ([], [])

/-- The backward pass of `critical_path`. -/
def backwardPass (nodes : List DagNode) (total : ℚ) :
    List (String × ℚ) × List (String × ℚ) :=
  (topological_sort nodes).order.reverse.foldl
    (backwardStep (build_graph nodes).1 (build_graph nodes).2.2 total) ([], [])

/-- The reported total duration: the fold of `max` over the earliest-finish
values, started at 0. -/
def totalDur (nodes : List DagNode) : ℚ :=
  ((forwardPass nodes).2.map Prod.snd).foldl max 0

/-- The slack pass of `critical_path`, run on the topological order. -/
def slackPass (nodes : List DagNode) : List String × List NodeSlack :=
  (topological_sort nodes).order.foldl
    (slackStep (forwardPass nodes).1 (backwardPass nodes (totalDur nodes)).2) ([], [])

/-- The critical-path membership test applied by the slack pass. -/
def nearCritical (es ls : List (String × ℚ)) (id : String) : Bool :=
  decide (|(Fleet.lookupA ls id).getD 0 - (Fleet.lookupA es id).getD 0| < 1/1000)

/-- The slack record built by the slack pass for `id`. -/
def slackRec (es ls : List (String × ℚ)) (id : String) : NodeSlack :=
  { id := id
    slack := (Fleet.lookupA ls id).getD 0 - (Fleet.lookupA es id).getD 0
    earliest_start := (Fleet.lookupA es id).getD 0
    latest_start := (Fleet.lookupA ls id).getD 0 }


end Dag

/-! # Part 2 — Theorems -/

namespace Fleet

theorem ringPush_foldl (cap : Nat) (hcap : 1 ≤ cap) (xs : List α) :
    List.foldl (ringPush cap) [] xs = xs.drop (xs.length - cap) := by
  induction xs using List.reverseRecOn with
  | nil => simp
  | append_singleton xs x ih =>
      rw [List.foldl_append, ih]
      simp only [ringPush, List.foldl_cons, List.foldl_nil]
      rcases le_or_lt cap xs.length with h | h
      · have hlen : (xs.drop (xs.length - cap)).length = cap := by
          rw [List.length_drop]; omega
        rw [if_pos (by rw [hlen])]
        have h1 : (xs ++ [x]).length - cap = (xs.length - cap) + 1 := by
          simp; omega
        rw [h1, ← List.drop_drop]
        have h2 : (xs ++ [x]).drop (xs.length - cap) = xs.drop (xs.length - cap) ++ [x] := by
          rw [List.drop_append_of_le_length (by omega)]
        rw [h2]
        rcases List.exists_cons_of_ne_nil (l := xs.drop (xs.length - cap))
          (by intro hn; rw [hn] at hlen; simp at hlen; omega) with ⟨a, t, hat⟩
        rw [hat]; simp
      · have hlen : (xs.drop (xs.length - cap)).length = xs.length := by
          rw [List.length_drop]; omega
        rw [if_neg (by rw [hlen]; omega)]
        have h1 : xs.length - cap = 0 := by omega
        have h2 : (xs ++ [x]).length - cap = 0 := by simp; omega
        rw [h1, h2]; simp

theorem ringPush_foldl_length (cap : Nat) (hcap : 1 ≤ cap) (xs : List α) :
    (List.foldl (ringPush cap) [] xs).length = min xs.length cap := by
  rw [ringPush_foldl cap hcap xs, List.length_drop]; omega

theorem lookupA_setA_self (m : List (String × α)) (k : String) (v : α) :
    lookupA m k = none ∨ lookupA (setA m k v) k = some v := by
  induction m with
  | nil => left; rfl
  | cons p rest ih =>
      obtain ⟨k', v'⟩ := p
      by_cases h : k' = k
      · right; simp [setA, h, lookupA]
      · simp only [lookupA, setA, if_neg h]
        exact ih

theorem lookupA_insertRepA_self (m : List (String × α)) (k : String) (v : α) :
    lookupA (insertRepA m k v) k = some v := by
  induction m with
  | nil => simp [insertRepA, lookupA]
  | cons p rest ih =>
      obtain ⟨k', v'⟩ := p
      by_cases h : k' = k
      · simp [insertRepA, h, lookupA]
      · simp [insertRepA, h, lookupA, ih]

theorem lookupA_insertRepA_ne (m : List (String × α)) (k k' : String) (v : α)
    (h : k ≠ k') : lookupA (insertRepA m k v) k' = lookupA m k' := by
  induction m with
  | nil => simp [insertRepA, lookupA, h]
  | cons p rest ih =>
      obtain ⟨k1, v1⟩ := p
      by_cases h1 : k1 = k
      · subst h1; simp [insertRepA, lookupA, h, ih]
      · simp only [insertRepA, if_neg h1, lookupA]
        by_cases h2 : k1 = k'
        · simp [h2]
        · simp [h2, ih]


theorem getD_set_self (l : List α) (i : Nat) (a d : α) (h : i < l.length) :
    (l.set i a).getD i d = a := by
  induction l generalizing i with
  | nil => simp at h
  | cons x xs ih =>
      cases i with
      | zero => simp
      | succ j => simpa using ih j (by simpa using h)

theorem getD_set_ne (l : List α) (i j : Nat) (a d : α) (h : i ≠ j) :
    (l.set i a).getD j d = l.getD j d := by
  induction l generalizing i j with
  | nil => simp
  | cons x xs ih =>
      cases i with
      | zero => cases j with
          | zero => exact absurd rfl h
          | succ j' => simp
      | succ i' => cases j with
          | zero => simp
          | succ j' => simpa using ih i' j' (by omega)

theorem getD_replicate (n i : Nat) (c : α) : (List.replicate n c).getD i c = c := by
  induction n generalizing i with
  | zero => simp
  | succ m ih =>
      cases i with
      | zero => simp [List.replicate_succ]
      | succ j => simpa [List.replicate_succ] using ih j



theorem lookupA_setA_ne (m : List (String × α)) (k k' : String) (v : α) (h : k ≠ k') :
    lookupA (setA m k v) k' = lookupA m k' := by
  induction m with
  | nil => rfl
  | cons p rest ih =>
      obtain ⟨k1, v1⟩ := p
      by_cases h1 : k1 = k
      · subst h1
        rw [setA, if_pos rfl, lookupA, lookupA, if_neg (fun he => h he), if_neg (fun he => h he)]
      · rw [setA, if_neg h1, lookupA, lookupA]
        by_cases h2 : k1 = k'
        · rw [if_pos h2, if_pos h2]
        · rw [if_neg h2, if_neg h2, ih]

theorem lookupA_setA_some (m : List (String × α)) (k : String) (v w : α)
    (h : lookupA m k = some w) : lookupA (setA m k v) k = some v := by
  rcases lookupA_setA_self m k v with h' | h'
  · rw [h] at h'
    exact absurd h' (by simp)
  · exact h'

end Fleet

namespace Metrics

namespace SlidingWindowCounter

open Fleet

section Exact

variable {ws bc : Nat} {t : Int}

theorem bucket_duration_pos (hws : 1 ≤ ws) (hbc : 1 ≤ bc) (hdvd : bc ∣ ws * 1000) :
    1 ≤ ws * 1000 / bc := by
  have hmul : ws * 1000 / bc * bc = ws * 1000 := Nat.div_mul_cancel hdvd
  rcases Nat.eq_zero_or_pos (ws * 1000 / bc) with h0 | h1
  · rw [h0, Nat.zero_mul] at hmul
    omega
  · exact h1

theorem advance_charged (hws : 1 ≤ ws) (hbc : 1 ≤ bc) (hdvd : bc ∣ ws * 1000) (k : Nat) :
    (chargedState ws bc t k).advance_to t = some (chargedState ws bc t k) := by
  have hbd := bucket_duration_pos hws hbc hdvd
  have hts : ((List.replicate bc (0 : Int)).set 0 t).getD 0 0 = t :=
    getD_set_self _ 0 t 0 (by simpa using hbc)
  have hbd' : (1 : Int) ≤ ((ws * 1000 / bc : Nat) : Int) := by exact_mod_cast hbd
  unfold advance_to
  simp only [chargedState] at hts ⊢
  rw [hts]
  by_cases ht : t = 0
  · subst ht
    simp [List.set_set]
  · rw [if_neg ht, if_pos (by linarith)]

theorem increment_charged (hws : 1 ≤ ws) (hbc : 1 ≤ bc) (hdvd : bc ∣ ws * 1000) (k : Nat) :
    (chargedState ws bc t k).increment t = some (chargedState ws bc t (k + 1)) := by
  rw [increment, advance_charged hws hbc hdvd k, Option.map_some']
  have hb : ((List.replicate bc (0 : Nat)).set 0 k).getD 0 0 = k :=
    getD_set_self _ 0 k 0 (by simpa using hbc)
  simp only [chargedState] at hb ⊢
  rw [hb, List.set_set]

theorem increment_fresh (hbc : 1 ≤ bc) :
    (new ws bc).increment t = some (chargedState ws bc t 1) := by
  have hmax : max bc 1 = bc := Nat.max_eq_left hbc
  rw [increment, new]
  simp only [hmax]
  rw [advance_to]
  have hts : (List.replicate bc (0 : Int)).getD 0 0 = 0 := getD_replicate bc 0 0
  have hb : (List.replicate bc (0 : Nat)).getD 0 0 = 0 := getD_replicate bc 0 0
  simp only [hts, if_pos, Option.map_some', chargedState, hb, if_true]

theorem incrementN_charged (hws : 1 ≤ ws) (hbc : 1 ≤ bc) (hdvd : bc ∣ ws * 1000) :
    ∀ k, 1 ≤ k → (new ws bc).incrementN t k = some (chargedState ws bc t k) := by
  intro k hk
  induction k with
  | zero => omega
  | succ m ih =>
      rcases Nat.eq_zero_or_pos m with hm | hm
      · subst hm
        simpa [incrementN] using increment_fresh hbc
      · rw [incrementN, ih hm, Option.some_bind]
        exact increment_charged hws hbc hdvd m

theorem windowSum_charged (hws : 1 ≤ ws) (hbc : 1 ≤ bc) (hdvd : bc ∣ ws * 1000) (k : Nat) :
    (chargedState ws bc t k).windowSum t = k := by
  have hmul : ws * 1000 / bc * bc = ws * 1000 := Nat.div_mul_cancel hdvd
  rw [windowSum]
  simp only [chargedState]
  have hcut : t - (((ws * 1000 / bc : Nat) : Int) * (bc : Nat)) ≤ t := by
    have : (0 : Int) ≤ ((ws * 1000 / bc : Nat) : Int) * (bc : Nat) := by positivity
    omega
  set cutoff := t - (((ws * 1000 / bc : Nat) : Int) * (bc : Nat)) with hc
  have hfold : ∀ (l : List Nat) (init : Nat),
      l.foldl (fun total i =>
        if cutoff ≤ ((List.replicate bc (0 : Int)).set 0 t).getD i 0 then
          total + ((List.replicate bc (0 : Nat)).set 0 k).getD i 0 else total) init
      = init + (l.map (fun i =>
          if cutoff ≤ ((List.replicate bc (0 : Int)).set 0 t).getD i 0 then
            ((List.replicate bc (0 : Nat)).set 0 k).getD i 0 else 0)).sum := by
    intro l
    induction l with
    | nil => simp
    | cons x xs ih =>
        intro init
        simp only [List.foldl_cons, List.map_cons, List.sum_cons]
        rw [ih]
        by_cases hx : cutoff ≤ ((List.replicate bc (0 : Int)).set 0 t).getD x 0
        · rw [if_pos hx, if_pos hx]; omega
        · rw [if_neg hx, if_neg hx]; omega
  rw [hfold]
  obtain ⟨m, hm⟩ : ∃ m, bc = m + 1 := ⟨bc - 1, by omega⟩
  subst hm
  rw [List.range_succ_eq_map]
  simp only [List.map_cons, List.sum_cons, List.map_map]
  have h0ts : ((List.replicate (m + 1) (0 : Int)).set 0 t).getD 0 0 = t :=
    getD_set_self _ 0 t 0 (by simp)
  have h0b : ((List.replicate (m + 1) (0 : Nat)).set 0 k).getD 0 0 = k :=
    getD_set_self _ 0 k 0 (by simp)
  rw [h0ts, if_pos hcut, h0b]
  have hrest : ((List.range m).map ((fun i =>
      if cutoff ≤ ((List.replicate (m + 1) (0 : Int)).set 0 t).getD i 0 then
        ((List.replicate (m + 1) (0 : Nat)).set 0 k).getD i 0 else 0) ∘ Nat.succ)).sum = 0 := by
    apply List.sum_eq_zero
    intro x hx
    rcases List.mem_map.mp hx with ⟨j, _, hj⟩
    have hbj : ((List.replicate (m + 1) (0 : Nat)).set 0 k).getD (j + 1) 0 = 0 := by
      rw [getD_set_ne _ 0 (j + 1) k 0 (by omega)]
      exact getD_replicate _ _ _
    simp only [Function.comp] at hj
    rw [hbj] at hj
    simp at hj
    omega
  rw [hrest]
  omega

theorem get_count_charged (hws : 1 ≤ ws) (hbc : 1 ≤ bc) (hdvd : bc ∣ ws * 1000) (k : Nat) :
    (chargedState ws bc t k).get_count t = some k := by
  rw [get_count, advance_charged hws hbc hdvd k, Option.map_some',
    windowSum_charged hws hbc hdvd k]

set_option maxRecDepth 4096 in
theorem get_rate_charged (hws : 1 ≤ ws) (hbc : 1 ≤ bc) (hdvd : bc ∣ ws * 1000) (k : Nat) :
    (chargedState ws bc t k).get_rate t = some ((k : ℚ) / ws) := by
  have hmul : ws * 1000 / bc * bc = ws * 1000 := Nat.div_mul_cancel hdvd
  rw [get_rate, advance_charged hws hbc hdvd k, Option.map_some',
    windowSum_charged hws hbc hdvd k]
  show some (if 0 < ((ws * 1000 / bc : Nat) : ℚ) * (bc : ℚ) / 1000 then
      (k : ℚ) / (((ws * 1000 / bc : Nat) : ℚ) * (bc : ℚ) / 1000) else 0)
    = some ((k : ℚ) / (ws : ℚ))
  have hwm : ((ws * 1000 / bc : Nat) : ℚ) * (bc : ℚ) = (ws : ℚ) * 1000 := by
    have h1 : ((ws * 1000 / bc * bc : Nat) : ℚ) = ((ws * 1000 / bc : Nat) : ℚ) * (bc : ℚ) := by
      push_cast
      ring
    rw [← h1, hmul]
    push_cast
    ring
  rw [hwm]
  have hpos : (0 : ℚ) < (ws : ℚ) * 1000 / 1000 := by
    have hq : (0 : ℚ) < (ws : ℚ) := by exact_mod_cast hws
    positivity
  rw [if_pos hpos]
  have hws1000 : (ws : ℚ) * 1000 / 1000 = (ws : ℚ) := by field_simp
  rw [hws1000]

end Exact

end SlidingWindowCounter

end Metrics

/-! # Claim theorems -/

/-- C1: the spec's propagation policy says no engine operation panics on
caller-supplied input; the sliding-window counter violates it.  With
`window_seconds = 0` (any `bucket_count`), `bucket_duration_ms = 0`, and
the second `increment` at the same timestamp reaches the `i64` division
`elapsed / bucket_duration_ms` with a zero divisor, which panics in Rust
(modelled as `none`).  This evaluates the embedded code at the failing
input `new(0, 1); increment(5); increment(5)`. -/
theorem c1_sliding_window_divide_by_zero_panic :
    ((Metrics.SlidingWindowCounter.new 0 1).increment 5).bind
      (fun s => s.increment 5) = none := by
  decide

/-- C6 counterexample: the claim asserts `get_rate(t) = k / window_seconds`
for every `window_seconds ≥ 1` and `bucket_count ≥ 1`.  At
`window_seconds = 1`, `bucket_count = 3`, one increment at `t = 1000`:
`bucket_duration_ms = 333` truncates, the window is `999 ms`, and the rate
is `1000/999 ≠ 1 = k / window_seconds`. -/
theorem c6_rate_truncation_counterexample :
    ((Metrics.SlidingWindowCounter.new 1 3).increment 1000).bind
      (fun s => s.get_rate 1000) = some ((1000 : ℚ) / 999) ∧
    ((1000 : ℚ) / 999) ≠ (1 : ℚ) / 1 := by
  constructor
  · norm_num [Metrics.SlidingWindowCounter.new, Metrics.SlidingWindowCounter.increment,
      Metrics.SlidingWindowCounter.advance_to, Metrics.SlidingWindowCounter.get_rate,
      Metrics.SlidingWindowCounter.windowSum, List.range_succ]
  · norm_num

/-- C6 (amended): for a fresh counter with `window_seconds ≥ 1`,
`bucket_count ≥ 1` and `bucket_count` dividing `window_seconds * 1000`
(so the bucket duration is exact and positive), after `k ≥ 1` increments
at any timestamp `t`, `get_count t` returns `k` and `get_rate t` returns
exactly `k / window_seconds`. -/
theorem c6_sliding_window_exact_count_and_rate (ws bc : Nat) (t : Int) (k : Nat)
    (hws : 1 ≤ ws) (hbc : 1 ≤ bc) (hdvd : bc ∣ ws * 1000) (hk : 1 ≤ k) :
    ∃ s, (Metrics.SlidingWindowCounter.new ws bc).incrementN t k = some s ∧
      s.get_count t = some k ∧ s.get_rate t = some ((k : ℚ) / ws) := by
  refine ⟨Metrics.SlidingWindowCounter.chargedState ws bc t k,
    Metrics.SlidingWindowCounter.incrementN_charged hws hbc hdvd k hk,
    Metrics.SlidingWindowCounter.get_count_charged hws hbc hdvd k,
    Metrics.SlidingWindowCounter.get_rate_charged hws hbc hdvd k⟩

/-- C6 witness: the amended theorem applied at the concrete input
`window_seconds = 60`, `bucket_count = 60`, `t = 1000`, `k = 3`. -/
theorem c6_sliding_window_witness :
    ((1 : Nat) ≤ 60 ∧ (1 : Nat) ≤ 60 ∧ 60 ∣ 60 * 1000 ∧ (1 : Nat) ≤ 3) ∧
    ∃ s, (Metrics.SlidingWindowCounter.new 60 60).incrementN 1000 3 = some s ∧
      s.get_count 1000 = some 3 ∧ s.get_rate 1000 = some ((3 : ℚ) / 60) :=
  ⟨⟨by norm_num, by norm_num, by norm_num, by norm_num⟩,
    c6_sliding_window_exact_count_and_rate 60 60 1000 3
      (by norm_num) (by norm_num) (by norm_num) (by norm_num)⟩

namespace Swarm

open Fleet

theorem winnerFold_aux (t : List (String × ℚ)) :
    ∀ acc : Option String × ℚ,
      acc.2 ≤ (t.foldl (fun wm p => if wm.2 < p.2 then (some p.1, p.2) else wm) acc).2 ∧
      (∀ p ∈ t, p.2 ≤ (t.foldl (fun wm p => if wm.2 < p.2 then (some p.1, p.2) else wm) acc).2) ∧
      ((t.foldl (fun wm p => if wm.2 < p.2 then (some p.1, p.2) else wm) acc) = acc ∨
        ∃ x, (t.foldl (fun wm p => if wm.2 < p.2 then (some p.1, p.2) else wm) acc).1 = some x ∧
          (x, (t.foldl (fun wm p => if wm.2 < p.2 then (some p.1, p.2) else wm) acc).2) ∈ t) := by
  induction t with
  | nil => intro acc; exact ⟨le_refl _, by simp, Or.inl rfl⟩
  | cons p t ih =>
      intro acc
      simp only [List.foldl_cons]
      obtain ⟨h1, h2, h3⟩ := ih (if acc.2 < p.2 then (some p.1, p.2) else acc)
      have hstep : acc.2 ≤ (if acc.2 < p.2 then (some p.1, p.2) else acc).2 := by
        by_cases hc : acc.2 < p.2
        · rw [if_pos hc]; exact le_of_lt hc
        · rw [if_neg hc]
      have hp : p.2 ≤ (if acc.2 < p.2 then (some p.1, p.2) else acc).2 := by
        by_cases hc : acc.2 < p.2
        · rw [if_pos hc]
        · rw [if_neg hc]; exact le_of_not_lt hc
      refine ⟨le_trans hstep h1, ?_, ?_⟩
      · intro q hq
        rcases List.mem_cons.mp hq with hq | hq
        · subst hq; exact le_trans hp h1
        · exact h2 q hq
      · rcases h3 with h3 | ⟨x, hx1, hx2⟩
        · by_cases hc : acc.2 < p.2
          · right
            refine ⟨p.1, ?_, ?_⟩
            · rw [h3, if_pos hc]
            · rw [h3, if_pos hc]; simp
          · left; rw [h3, if_neg hc]
        · right; exact ⟨x, hx1, List.mem_cons_of_mem p hx2⟩

/-- Keys of an association list. -/

theorem lookupA_eq_none_iff (m : List (String × α)) (k : String) :
    lookupA m k = none ↔ k ∉ keysOf m := by
  induction m with
  | nil => simp [lookupA, keysOf]
  | cons p rest ih =>
      obtain ⟨k1, v1⟩ := p
      by_cases h : k1 = k
      · subst h; simp [lookupA, keysOf]
      · rw [lookupA, if_neg h, ih]
        simp only [keysOf, List.map_cons, List.mem_cons]
        constructor
        · intro hn hor
          rcases hor with hor | hor
          · exact h hor.symm
          · exact hn hor
        · intro hn hmem
          exact hn (Or.inr hmem)

theorem keysOf_setA (m : List (String × α)) (k : String) (v : α) :
    keysOf (setA m k v) = keysOf m := by
  induction m with
  | nil => rfl
  | cons p rest ih =>
      obtain ⟨k1, v1⟩ := p
      by_cases h : k1 = k
      · simp [setA, h, keysOf]
      · simp only [setA, if_neg h, keysOf, List.map_cons]
        simp only [keysOf] at ih
        rw [ih]

theorem mem_keysOf_insertRepA (m : List (String × α)) (k x : String) (v : α)
    (hx : x ∈ keysOf (insertRepA m k v)) : x = k ∨ x ∈ keysOf m := by
  induction m with
  | nil => simpa [insertRepA, keysOf] using hx
  | cons p rest ih =>
      obtain ⟨k1, v1⟩ := p
      by_cases h : k1 = k
      · subst h
        simp only [insertRepA, if_pos rfl, keysOf, List.map_cons] at hx
        rcases List.mem_cons.mp hx with hx | hx
        · right; simp [keysOf, hx]
        · right; simp [keysOf]; right; simpa [keysOf] using hx
      · simp only [insertRepA, if_neg h, keysOf, List.map_cons] at hx
        rcases List.mem_cons.mp hx with hx | hx
        · right; simp [keysOf, hx]
        · rcases ih (by simpa [keysOf] using hx) with hx' | hx'
          · left; exact hx'
          · right; simp [keysOf]; right; simpa [keysOf] using hx'

theorem nodup_keysOf_insertRepA (m : List (String × α)) (k : String) (v : α)
    (hm : (keysOf m).Nodup) : (keysOf (insertRepA m k v)).Nodup := by
  induction m with
  | nil => simp [insertRepA, keysOf]
  | cons p rest ih =>
      obtain ⟨k1, v1⟩ := p
      simp only [keysOf, List.map_cons, List.nodup_cons] at hm
      by_cases h : k1 = k
      · subst h
        rw [insertRepA, if_pos rfl]
        simp only [keysOf, List.map_cons, List.nodup_cons]
        exact hm
      · rw [insertRepA, if_neg h]
        simp only [keysOf, List.map_cons, List.nodup_cons]
        refine ⟨?_, ih hm.2⟩
        intro hmem
        rcases mem_keysOf_insertRepA rest k k1 v (by simpa [keysOf] using hmem) with h' | h'
        · exact h h'
        · exact hm.1 (by simpa [keysOf] using h')

theorem nodup_keysOf_tallyAdd (t : List (String × ℚ)) (k : String) (p : ℚ)
    (ht : (keysOf t).Nodup) : (keysOf (tallyAdd t k p)).Nodup := by
  rw [tallyAdd]
  cases hl : lookupA t k with
  | some v => rw [show keysOf (setA t k (v + p)) = keysOf t from keysOf_setA t k _]; exact ht
  | none =>
      have hk : k ∉ keysOf t := (lookupA_eq_none_iff t k).mp hl
      have heq : keysOf (t ++ [(k, p)]) = keysOf t ++ [k] := by simp [keysOf]
      rw [heq]
      rw [List.nodup_append]
      refine ⟨ht, by simp, ?_⟩
      intro a ha hb
      simp only [List.mem_singleton] at hb
      subst hb
      exact hk ha

theorem nodup_keysOf_tallyInit (options : List String) :
    (keysOf (tallyInit options)).Nodup := by
  rw [tallyInit]
  have h : ∀ (opts : List String) (t : List (String × ℚ)), (keysOf t).Nodup →
      (keysOf (opts.foldl (fun t opt => insertRepA t opt 0) t)).Nodup := by
    intro opts
    induction opts with
    | nil => intro t ht; exact ht
    | cons o os ih =>
        intro t ht
        exact ih _ (nodup_keysOf_insertRepA t o 0 ht)
  exact h options [] (by simp [keysOf])

theorem nodup_keysOf_voteStep (decode : String → Option (List String)) (method : String)
    (acc : List (String × ℚ) × ℚ) (vote : VoteData)
    (h : (keysOf acc.1).Nodup) : (keysOf (voteStep decode method acc vote).1).Nodup := by
  rw [voteStep]
  by_cases hm : method = "ranked"
  · rw [if_pos hm]
    cases hdec : decode vote.vote_value with
    | some rankings =>
        simp only
        have haux : ∀ (l : List (Nat × String)) (t : List (String × ℚ)), (keysOf t).Nodup →
            (keysOf (l.foldl (fun t iopt =>
              tallyAdd t iopt.2 (((rankings.length : ℚ) - (iopt.1 : ℚ)) * vote.vote_weight)) t)).Nodup := by
          intro l
          induction l with
          | nil => intro t ht; exact ht
          | cons x xs ih => intro t ht; exact ih _ (nodup_keysOf_tallyAdd t x.2 _ ht)
        exact haux rankings.enum acc.1 h
    | none => exact h
  · rw [if_neg hm]
    exact nodup_keysOf_tallyAdd acc.1 vote.vote_value vote.vote_weight h

theorem nodup_keysOf_voteFold (decode : String → Option (List String)) (method : String)
    (votes : List VoteData) (acc : List (String × ℚ) × ℚ)
    (h : (keysOf acc.1).Nodup) :
    (keysOf (votes.foldl (voteStep decode method) acc).1).Nodup := by
  induction votes generalizing acc with
  | nil => exact h
  | cons v vs ih => exact ih _ (nodup_keysOf_voteStep decode method acc v h)

theorem winnerFold_spec (t : List (String × ℚ)) :
    (∀ p ∈ t, p.2 ≤ (winnerFold t).2) ∧ (0 : ℚ) ≤ (winnerFold t).2 ∧
    ((winnerFold t).2 ≠ 0 → ∃ x, (winnerFold t).1 = some x ∧ (x, (winnerFold t).2) ∈ t) := by
  obtain ⟨h1, h2, h3⟩ := winnerFold_aux t (none, 0)
  refine ⟨h2, h1, ?_⟩
  intro hne
  rcases h3 with h3 | h3
  · exfalso
    apply hne
    show (t.foldl (fun wm p => if wm.2 < p.2 then (some p.1, p.2) else wm) (none, 0)).2 = 0
    rw [h3]
  · exact h3

theorem lookupA_of_mem_nodup (t : List (String × α)) (k : String) (v : α)
    (hmem : (k, v) ∈ t) (hnd : (keysOf t).Nodup) : lookupA t k = some v := by
  induction t with
  | nil => simp at hmem
  | cons p rest ih =>
      obtain ⟨k1, v1⟩ := p
      simp only [keysOf, List.map_cons, List.nodup_cons] at hnd
      rcases List.mem_cons.mp hmem with heq | hmem
      · injection heq with h1 h2
        subst h1; subst h2
        rw [lookupA, if_pos rfl]
      · have hk1 : k1 ≠ k := by
          intro he
          subst he
          exact hnd.1 (by simpa [keysOf] using List.mem_map_of_mem Prod.fst hmem)
        rw [lookupA, if_neg hk1]
        exact ih hmem hnd.2

end Swarm

/-- C2 counterexample: with votes yes/yes/no of weight 1 each under the
"supermajority" method, the winner holds exactly 2/3 of the counted
weight, yet `quorum_met` is false, because the code compares the ratio
against the literal `0.667`, which is strictly greater than `2/3`.  The
claim predicts `quorum_met = true` here. -/
theorem c2_supermajority_two_thirds_counterexample :
    (Swarm.tally_votes (fun _ => none)
      [⟨"a1", "yes", 1⟩, ⟨"a2", "yes", 1⟩, ⟨"a3", "no", 1⟩]
      ["yes", "no"] "supermajority" (2/3)).quorum_met = false ∧
    (Swarm.winnerFold (Swarm.tally_votes (fun _ => none)
      [⟨"a1", "yes", 1⟩, ⟨"a2", "yes", 1⟩, ⟨"a3", "no", 1⟩]
      ["yes", "no"] "supermajority" (2/3)).tally).2 /
    (Swarm.tally_votes (fun _ => none)
      [⟨"a1", "yes", 1⟩, ⟨"a2", "yes", 1⟩, ⟨"a3", "no", 1⟩]
      ["yes", "no"] "supermajority" (2/3)).weighted_total = 2/3 := by
  constructor
  · simp only [Swarm.tally_votes, Swarm.tallyInit, Swarm.tallyAdd, Swarm.voteStep,
      Swarm.winnerFold, Fleet.insertRepA, Fleet.lookupA, Fleet.setA, List.foldl_cons,
      List.foldl_nil, String.reduceEq]
    norm_num
  · simp only [Swarm.tally_votes, Swarm.tallyInit, Swarm.tallyAdd, Swarm.voteStep,
      Swarm.winnerFold, Fleet.insertRepA, Fleet.lookupA, Fleet.setA, List.foldl_cons,
      List.foldl_nil, String.reduceEq]
    norm_num

/-- C2 (amended): in `tally_votes` with method "supermajority" and
positive total counted weight, `quorum_met` holds iff the maximal tally
divided by the total counted weight is at least `0.667` (the code's
literal, strictly above 2/3); and when quorum is met the reported winner
is an option whose tally is that maximum. -/
theorem c2_supermajority_threshold (decode : String → Option (List String))
    (votes : List Swarm.VoteData) (options : List String) (qv : ℚ)
    (hpos : 0 < (Swarm.tally_votes decode votes options "supermajority" qv).weighted_total) :
    ((Swarm.tally_votes decode votes options "supermajority" qv).quorum_met = true ↔
      (667 : ℚ) / 1000 ≤
        (Swarm.winnerFold (Swarm.tally_votes decode votes options "supermajority" qv).tally).2 /
          (Swarm.tally_votes decode votes options "supermajority" qv).weighted_total) ∧
    ((Swarm.tally_votes decode votes options "supermajority" qv).quorum_met = true →
      ∃ w, (Swarm.tally_votes decode votes options "supermajority" qv).winner = some w ∧
        Fleet.lookupA (Swarm.tally_votes decode votes options "supermajority" qv).tally w =
          some (Swarm.winnerFold
            (Swarm.tally_votes decode votes options "supermajority" qv).tally).2 ∧
        ∀ p ∈ (Swarm.tally_votes decode votes options "supermajority" qv).tally,
          p.2 ≤ (Swarm.winnerFold
            (Swarm.tally_votes decode votes options "supermajority" qv).tally).2) := by
  have hposW : 0 < (votes.foldl (Swarm.voteStep decode "supermajority")
      (Swarm.tallyInit options, 0)).2 := hpos
  have hq : (Swarm.tally_votes decode votes options "supermajority" qv).quorum_met =
      decide ((667 : ℚ)/1000 ≤
        (Swarm.winnerFold (votes.foldl (Swarm.voteStep decode "supermajority")
          (Swarm.tallyInit options, 0)).1).2 /
        (votes.foldl (Swarm.voteStep decode "supermajority") (Swarm.tallyInit options, 0)).2) := by
    show (if 0 < (votes.foldl (Swarm.voteStep decode "supermajority")
        (Swarm.tallyInit options, 0)).2 then _ else false) = _
    rw [if_pos hposW, if_pos rfl]
  have htally : (Swarm.tally_votes decode votes options "supermajority" qv).tally =
      (votes.foldl (Swarm.voteStep decode "supermajority") (Swarm.tallyInit options, 0)).1 := rfl
  have hwt : (Swarm.tally_votes decode votes options "supermajority" qv).weighted_total =
      (votes.foldl (Swarm.voteStep decode "supermajority") (Swarm.tallyInit options, 0)).2 := rfl
  constructor
  · rw [hq, htally, hwt]
    exact decide_eq_true_iff
  · intro hqt
    have hle : (667 : ℚ)/1000 ≤
        (Swarm.winnerFold (votes.foldl (Swarm.voteStep decode "supermajority")
          (Swarm.tallyInit options, 0)).1).2 /
        (votes.foldl (Swarm.voteStep decode "supermajority") (Swarm.tallyInit options, 0)).2 := by
      rw [hq] at hqt
      exact of_decide_eq_true hqt
    set tl := (votes.foldl (Swarm.voteStep decode "supermajority")
      (Swarm.tallyInit options, 0)).1 with htl
    obtain ⟨hall, hnn, hex⟩ := Swarm.winnerFold_spec tl
    have hpos2 : (0 : ℚ) < (Swarm.winnerFold tl).2 := by
      by_contra hc
      push_neg at hc
      have hz : (Swarm.winnerFold tl).2 / (votes.foldl (Swarm.voteStep decode "supermajority")
          (Swarm.tallyInit options, 0)).2 ≤ 0 :=
        div_nonpos_of_nonpos_of_nonneg hc (le_of_lt hposW)
      linarith
    obtain ⟨x, hx1, hx2⟩ := hex (ne_of_gt hpos2)
    have hnd : (Swarm.keysOf tl).Nodup :=
      Swarm.nodup_keysOf_voteFold decode "supermajority" votes (Swarm.tallyInit options, 0)
        (Swarm.nodup_keysOf_tallyInit options)
    refine ⟨x, ?_, ?_, ?_⟩
    · show (if (Swarm.tally_votes decode votes options "supermajority" qv).quorum_met then
        (Swarm.winnerFold tl).1 else none) = some x
      rw [if_pos hqt]
      exact hx1
    · rw [htally]
      exact Swarm.lookupA_of_mem_nodup tl x _ hx2 hnd
    · rw [htally]
      exact hall

/-- C2 witness: the amended theorem applied at a concrete vote list
(one "yes" vote of weight 3 among options yes/no) whose counted weight
is positive. -/
theorem c2_supermajority_witness :
    (0 < (Swarm.tally_votes (fun _ => none) [⟨"a1", "yes", 3⟩]
      ["yes", "no"] "supermajority" (1/2)).weighted_total) ∧
    (((Swarm.tally_votes (fun _ => none) [⟨"a1", "yes", 3⟩]
        ["yes", "no"] "supermajority" (1/2)).quorum_met = true ↔
      (667 : ℚ) / 1000 ≤
        (Swarm.winnerFold (Swarm.tally_votes (fun _ => none) [⟨"a1", "yes", 3⟩]
          ["yes", "no"] "supermajority" (1/2)).tally).2 /
          (Swarm.tally_votes (fun _ => none) [⟨"a1", "yes", 3⟩]
            ["yes", "no"] "supermajority" (1/2)).weighted_total) ∧
    ((Swarm.tally_votes (fun _ => none) [⟨"a1", "yes", 3⟩]
        ["yes", "no"] "supermajority" (1/2)).quorum_met = true →
      ∃ w, (Swarm.tally_votes (fun _ => none) [⟨"a1", "yes", 3⟩]
          ["yes", "no"] "supermajority" (1/2)).winner = some w ∧
        Fleet.lookupA (Swarm.tally_votes (fun _ => none) [⟨"a1", "yes", 3⟩]
            ["yes", "no"] "supermajority" (1/2)).tally w =
          some (Swarm.winnerFold (Swarm.tally_votes (fun _ => none) [⟨"a1", "yes", 3⟩]
            ["yes", "no"] "supermajority" (1/2)).tally).2 ∧
        ∀ p ∈ (Swarm.tally_votes (fun _ => none) [⟨"a1", "yes", 3⟩]
            ["yes", "no"] "supermajority" (1/2)).tally,
          p.2 ≤ (Swarm.winnerFold (Swarm.tally_votes (fun _ => none) [⟨"a1", "yes", 3⟩]
            ["yes", "no"] "supermajority" (1/2)).tally).2)) :=
  have hpos : 0 < (Swarm.tally_votes (fun _ => none) [⟨"a1", "yes", 3⟩]
      ["yes", "no"] "supermajority" (1/2)).weighted_total := by
    simp only [Swarm.tally_votes, Swarm.tallyInit, Swarm.tallyAdd, Swarm.voteStep,
      Fleet.insertRepA, Fleet.lookupA, Fleet.setA, List.foldl_cons, List.foldl_nil,
      String.reduceEq]
    norm_num
  ⟨hpos, c2_supermajority_threshold (fun _ => none) [⟨"a1", "yes", 3⟩] ["yes", "no"] (1/2) hpos⟩

/-- C5 counterexample: the identical snapshot spelled in snake_case does
not store the same point as the camelCase spelling — serde's
`rename_all = "camelCase"` (with `default`) reads only camelCase keys,
so the snake_case counters are ignored and default to `0`. -/
theorem c5_snake_case_counterexample :
    Compound.push_snapshot []
      [("tasksCompleted", 3), ("knowledgeEntries", 10), ("creditsTotal", 100)] [] [] 7 ≠
    Compound.push_snapshot []
      [("tasks_completed", 3), ("knowledge_entries", 10), ("credits_total", 100)] [] [] 7 := by
  decide

/-- C5 (amended): `push_snapshot` accepts only camelCase counter names.
For every snapshot whose keys avoid all the camelCase field spellings —
in particular one spelled entirely in snake_case — the stored point is
the one stored for a snapshot with no counter keys at all (every counter
defaulted to 0). -/
theorem c5_push_snapshot_camel_case_only (points : List Compound.TimeSeriesPoint)
    (kvs : List (String × Nat)) (workers : List Compound.WorkerInfo)
    (swarms : List Compound.SwarmInfo) (now : Int)
    (h : ∀ k ∈ kvs.map Prod.fst,
      k ∉ ["tasksTotal", "tasksCompleted", "knowledgeEntries", "creditsTotal",
           "blackboardMessages", "pheromoneTrails"]) :
    Compound.push_snapshot points kvs workers swarms now =
      Compound.push_snapshot points [] workers swarms now := by
  have hnone : ∀ key ∈ ["tasksTotal", "tasksCompleted", "knowledgeEntries", "creditsTotal",
      "blackboardMessages", "pheromoneTrails"], Fleet.lookupA kvs key = none := by
    intro key hkey
    rw [Swarm.lookupA_eq_none_iff]
    intro hmem
    exact h key hmem hkey
  have hdec : Compound.decodeSnapshotCounters kvs workers swarms =
      Compound.decodeSnapshotCounters [] workers swarms := by
    rw [Compound.decodeSnapshotCounters, Compound.decodeSnapshotCounters]
    rw [hnone "tasksTotal" (by simp), hnone "tasksCompleted" (by simp),
      hnone "knowledgeEntries" (by simp), hnone "creditsTotal" (by simp),
      hnone "blackboardMessages" (by simp), hnone "pheromoneTrails" (by simp)]
    rfl
  rw [Compound.push_snapshot, Compound.push_snapshot, hdec]

/-- C5 witness: the amended theorem applied to a concrete snake_case
snapshot. -/
theorem c5_push_snapshot_witness :
    (∀ k ∈ ([("tasks_completed", 3), ("knowledge_entries", 10),
        ("credits_total", 100)] : List (String × Nat)).map Prod.fst,
      k ∉ ["tasksTotal", "tasksCompleted", "knowledgeEntries", "creditsTotal",
           "blackboardMessages", "pheromoneTrails"]) ∧
    Compound.push_snapshot []
      [("tasks_completed", 3), ("knowledge_entries", 10), ("credits_total", 100)] [] [] 7 =
      Compound.push_snapshot [] [] [] [] 7 :=
  ⟨by decide,
    c5_push_snapshot_camel_case_only []
      [("tasks_completed", 3), ("knowledge_entries", 10), ("credits_total", 100)] [] [] 7
      (by decide)⟩

namespace LogStream

theorem push_output_lb (p : LogStreamParser) (x : List Char) (l : List Char) :
    push_output { p with line_buffer := x } l = { push_output p l with line_buffer := x } := rfl

theorem push_event_lb (p : LogStreamParser) (x : List Char) (e : ParsedEvent) :
    push_event { p with line_buffer := x } e = { push_event p e with line_buffer := x } := rfl

theorem contentFold_lb (content : List RawContent) :
    ∀ (a : List Char) (p : LogStreamParser) (x : List Char),
      content.foldl contentStep (a, { p with line_buffer := x }) =
        ((content.foldl contentStep (a, p)).1,
          { (content.foldl contentStep (a, p)).2 with line_buffer := x }) := by
  induction content with
  | nil => intro a p x; rfl
  | cons c cs ih =>
      intro a p x
      simp only [List.foldl_cons]
      by_cases hc : c.content_type = some "text".toList
      · cases ht : c.text with
        | some t =>
            have hstep : contentStep (a, { p with line_buffer := x }) c =
                (a ++ t, push_output { p with line_buffer := x } t) := by
              rw [contentStep, if_pos hc, ht]
            have hstep' : contentStep (a, p) c = (a ++ t, push_output p t) := by
              rw [contentStep, if_pos hc, ht]
            rw [hstep, hstep', push_output_lb]
            exact ih (a ++ t) (push_output p t) x
        | none =>
            have hstep : contentStep (a, { p with line_buffer := x }) c =
                (a, { p with line_buffer := x }) := by
              rw [contentStep, if_pos hc, ht]
            have hstep' : contentStep (a, p) c = (a, p) := by
              rw [contentStep, if_pos hc, ht]
            rw [hstep, hstep']
            exact ih a p x
      · have hstep : contentStep (a, { p with line_buffer := x }) c =
            (a, { p with line_buffer := x }) := by
          rw [contentStep, if_neg hc]
        have hstep' : contentStep (a, p) c = (a, p) := by
          rw [contentStep, if_neg hc]
        rw [hstep, hstep']
        exact ih a p x

theorem initStep_lb (p : LogStreamParser) (x : List Char)
    (event_type subtype session_id : List Char) :
    initStep { p with line_buffer := x } event_type subtype session_id =
      { initStep p event_type subtype session_id with line_buffer := x } := by
  rw [initStep, initStep]
  by_cases h : event_type = "system".toList ∧ subtype = "init".toList ∧ session_id ≠ []
  · rw [if_pos h, if_pos h]
  · rw [if_neg h, if_neg h]

theorem assistantStep_lb (p : LogStreamParser) (x : List Char) (event_type : List Char)
    (message : Option RawMessage) :
    assistantStep { p with line_buffer := x } event_type message =
      ((assistantStep p event_type message).1,
        { (assistantStep p event_type message).2 with line_buffer := x }) := by
  rw [assistantStep, assistantStep]
  by_cases h : event_type = "assistant".toList
  · rw [if_pos h, if_pos h]
    cases message with
    | none => rfl
    | some msg =>
        obtain ⟨mcontent⟩ := msg
        cases mcontent with
        | none => rfl
        | some content =>
            show content.foldl contentStep
              ([], { ({ p with state := "working".toList }) with line_buffer := x }) = _
            rw [contentFold_lb]
  · rw [if_neg h, if_neg h]

theorem errorStep_lb (p : LogStreamParser) (x : List Char) (b : Bool) :
    errorStep { p with line_buffer := x } b = { errorStep p b with line_buffer := x } := by
  cases b <;> rfl

theorem process_raw_event_lb (p : LogStreamParser) (x : List Char) (raw : RawEvent)
    (now : Int) :
    process_raw_event { p with line_buffer := x } raw now =
      ((process_raw_event p raw now).1,
        { (process_raw_event p raw now).2 with line_buffer := x }) := by
  rw [process_raw_event, process_raw_event]
  simp only [initStep_lb, assistantStep_lb, errorStep_lb]

theorem process_raw_event_lb_fields (ev : List ParsedEvent) (out : List (List Char))
    (sid st : List Char) (lat : Int) (ec te : Nat) (x y : List Char) (raw : RawEvent)
    (now : Int) :
    process_raw_event ⟨ev, out, x, sid, st, lat, ec, te⟩ raw now =
      ((process_raw_event ⟨ev, out, y, sid, st, lat, ec, te⟩ raw now).1,
        { (process_raw_event ⟨ev, out, y, sid, st, lat, ec, te⟩ raw now).2 with
            line_buffer := x }) :=
  process_raw_event_lb ⟨ev, out, y, sid, st, lat, ec, te⟩ x raw now

theorem push_output_lb_fields (ev : List ParsedEvent) (out : List (List Char))
    (sid st : List Char) (lat : Int) (ec te : Nat) (x y : List Char) (l : List Char) :
    push_output ⟨ev, out, x, sid, st, lat, ec, te⟩ l =
      { push_output ⟨ev, out, y, sid, st, lat, ec, te⟩ l with line_buffer := x } := rfl

theorem parse_line_lb (decode : List Char → Option RawEvent) (now : Int)
    (p : LogStreamParser) (x : List Char) (line : List Char) :
    parse_line decode now { p with line_buffer := x } line =
      ((parse_line decode now p line).1,
        { (parse_line decode now p line).2 with line_buffer := x }) := by
  rw [parse_line, parse_line]
  by_cases ht : trimChars line = []
  · rw [if_pos ht, if_pos ht]
  · rw [if_neg ht, if_neg ht]
    cases hdec : decode (trimChars line) with
    | some raw =>
        simp only []
        rw [process_raw_event_lb_fields p.events p.output_lines p.session_id p.state now
          p.error_count p.total_events x p.line_buffer raw now]
        rw [push_event_lb]
    | none =>
        simp only []
        rw [push_output_lb_fields p.events p.output_lines p.session_id p.state now
          p.error_count p.total_events x p.line_buffer (trimChars line)]

theorem batchFold_lb (decode : List Char → Option RawEvent) (now : Int)
    (lines : List (List Char)) :
    ∀ (es : List ParsedEvent) (p : LogStreamParser) (x : List Char),
      lines.foldl (batchStep decode now) (es, { p with line_buffer := x }) =
        ((lines.foldl (batchStep decode now) (es, p)).1,
          { (lines.foldl (batchStep decode now) (es, p)).2 with line_buffer := x }) := by
  induction lines with
  | nil => intro es p x; rfl
  | cons l ls ih =>
      intro es p x
      simp only [List.foldl_cons]
      have hstep : batchStep decode now (es, { p with line_buffer := x }) l =
          ((batchStep decode now (es, p) l).1,
            { (batchStep decode now (es, p) l).2 with line_buffer := x }) := by
        rw [batchStep, batchStep, parse_line_lb]
      rw [hstep]
      have hsplit : batchStep decode now (es, p) l =
          ((batchStep decode now (es, p) l).1, (batchStep decode now (es, p) l).2) := rfl
      rw [hsplit]
      exact ih (batchStep decode now (es, p) l).1 (batchStep decode now (es, p) l).2 x

theorem batchFold_events (decode : List Char → Option RawEvent) (now : Int)
    (lines : List (List Char)) :
    ∀ (es : List ParsedEvent) (p : LogStreamParser),
      lines.foldl (batchStep decode now) (es, p) =
        (es ++ (lines.foldl (batchStep decode now) ([], p)).1,
          (lines.foldl (batchStep decode now) ([], p)).2) := by
  induction lines with
  | nil => intro es p; simp
  | cons l ls ih =>
      intro es p
      simp only [List.foldl_cons]
      have h1 : batchStep decode now (es, p) l =
          (es ++ (parse_line decode now p l).1.toList, (parse_line decode now p l).2) := rfl
      have h2 : batchStep decode now ([], p) l =
          ([] ++ (parse_line decode now p l).1.toList, (parse_line decode now p l).2) := rfl
      rw [h1, h2, List.nil_append]
      rw [ih (es ++ (parse_line decode now p l).1.toList) (parse_line decode now p l).2,
        ih (parse_line decode now p l).1.toList (parse_line decode now p l).2]
      simp [List.append_assoc]

theorem splitNl_eq_splitFrag (x : List Char) :
    splitNl x = (splitFrag x).1 ++ [(splitFrag x).2] := by
  induction x with
  | nil => rfl
  | cons c cs ih =>
      cases hcs : splitFrag cs with
      | mk L t =>
          rw [hcs] at ih
          by_cases hc : c = '\n'
          · rw [splitNl, splitFrag, if_pos hc, if_pos hc, hcs, ih]
            rfl
          · rw [splitNl, splitFrag, if_neg hc, if_neg hc, hcs, ih]
            cases L with
            | nil => rfl
            | cons l ls => rfl

theorem splitFrag_append (x y : List Char) :
    splitFrag (x ++ y) =
      ((splitFrag x).1 ++ (splitFrag ((splitFrag x).2 ++ y)).1,
        (splitFrag ((splitFrag x).2 ++ y)).2) := by
  induction x with
  | nil => simp [splitFrag]
  | cons c cs ih =>
      cases hcs : splitFrag cs with
      | mk L t =>
          rw [hcs] at ih
          by_cases hc : c = '\n'
          · rw [List.cons_append, splitFrag, splitFrag, if_pos hc, if_pos hc, hcs, ih]
            rfl
          · rw [List.cons_append, splitFrag, splitFrag, if_neg hc, if_neg hc, hcs]
            cases L with
            | nil =>
                simp only [List.nil_append] at ih ⊢
                cases hty : splitFrag (t ++ y) with
                | mk M u =>
                    rw [hty] at ih
                    simp only at ih
                    rw [ih]
                    rw [List.cons_append, splitFrag, hty, if_neg hc]
            | cons l ls =>
                simp only at ih ⊢
                cases hty : splitFrag (t ++ y) with
                | mk M u =>
                    rw [hty] at ih
                    simp only at ih
                    rw [ih]
                    rfl

theorem parser_lb_override (q : LogStreamParser) (y z : List Char) :
    { ({ q with line_buffer := y }) with line_buffer := z } = { q with line_buffer := z } := rfl

theorem parse_batch_frag (decode : List Char → Option RawEvent) (now : Int)
    (p : LogStreamParser) (chunk : List Char) :
    parse_batch decode now p chunk =
      (splitFrag (p.line_buffer ++ chunk)).1.foldl (batchStep decode now)
        ([], { p with line_buffer := (splitFrag (p.line_buffer ++ chunk)).2 }) := by
  rw [parse_batch]
  simp only [splitNl_eq_splitFrag, List.getLast?_concat, Option.getD_some,
    List.dropLast_concat]
  by_cases hf : (splitFrag (p.line_buffer ++ chunk)).2 = []
  · rw [if_neg (by simp [hf]), hf]
  · rw [if_pos hf]


end LogStream

/-- C10: `parse_batch` is chunking-invariant.  For every parser state
`p`, every pair of chunks `a`, `b`, and every decoder and wall-clock
value (the time source is held fixed, which renders the claim's "up to
timestamps"): running `parse_batch a` then `parse_batch b` yields,
concatenated, the same parsed events as the single call
`parse_batch (a ++ b)`, and leaves the parser in the same state —
events, output_lines, line_buffer, session_id, state and counters all
included.  In particular a JSON line split mid-chunk is parsed exactly
once. -/
theorem c10_parse_batch_chunking_invariant
    (decode : List Char → Option LogStream.RawEvent) (now : Int)
    (p : LogStream.LogStreamParser) (a b : List Char) :
    LogStream.parse_batch decode now p (a ++ b) =
      ((LogStream.parse_batch decode now p a).1 ++
          (LogStream.parse_batch decode now (LogStream.parse_batch decode now p a).2 b).1,
        (LogStream.parse_batch decode now (LogStream.parse_batch decode now p a).2 b).2) := by
  rw [LogStream.parse_batch_frag decode now p (a ++ b),
    LogStream.parse_batch_frag decode now p a]
  rw [LogStream.parse_batch_frag decode now _ b]
  have hassoc : p.line_buffer ++ (a ++ b) = (p.line_buffer ++ a) ++ b :=
    (List.append_assoc _ _ _).symm
  rw [hassoc, LogStream.splitFrag_append (p.line_buffer ++ a) b]
  simp only
  rw [List.foldl_append]
  rw [LogStream.batchFold_lb decode now (LogStream.splitFrag (p.line_buffer ++ a)).1 [] p
    (LogStream.splitFrag ((LogStream.splitFrag (p.line_buffer ++ a)).2 ++ b)).2]
  rw [LogStream.batchFold_lb decode now (LogStream.splitFrag (p.line_buffer ++ a)).1 [] p
    (LogStream.splitFrag (p.line_buffer ++ a)).2]
  simp only
  rw [LogStream.parser_lb_override]
  rw [LogStream.batchFold_events decode now
    (LogStream.splitFrag ((LogStream.splitFrag (p.line_buffer ++ a)).2 ++ b)).1]

namespace RingBus

theorem publishFold_channel (topic : String) :
    ∀ (inputs : List (String × Nat × String × Int)) (bus : RingBus),
      ((Fleet.lookupA (publishFold bus topic inputs).channels topic).getD [] =
        List.foldl (Fleet.ringPush MAX_MESSAGES_PER_TOPIC)
          ((Fleet.lookupA bus.channels topic).getD [])
          (mintedMsgs topic bus.next_id inputs)) ∧
      (publishFold bus topic inputs).next_id = bus.next_id + inputs.length := by
  intro inputs
  induction inputs with
  | nil => intro bus; exact ⟨rfl, rfl⟩
  | cons i rest ih =>
      intro bus
      obtain ⟨sender, priority, payload, now⟩ := i
      have hstep : publishFold bus topic ((sender, priority, payload, now) :: rest) =
          publishFold (publish bus topic sender priority payload now).2 topic rest := rfl
      rw [hstep]
      obtain ⟨ih1, ih2⟩ := ih (publish bus topic sender priority payload now).2
      have hch : (Fleet.lookupA
          (publish bus topic sender priority payload now).2.channels topic).getD [] =
          Fleet.ringPush MAX_MESSAGES_PER_TOPIC ((Fleet.lookupA bus.channels topic).getD [])
            { id := "msg_" ++ toString bus.next_id, topic := topic, sender := sender,
              priority := min priority 3, payload := payload, timestamp := now,
              read_by := [] } := by
        show (Fleet.lookupA (Fleet.insertRepA bus.channels topic _) topic).getD [] = _
        rw [Fleet.lookupA_insertRepA_self]
        rfl
      have hnid : (publish bus topic sender priority payload now).2.next_id =
          bus.next_id + 1 := rfl
      constructor
      · rw [ih1, hch, hnid]
        rfl
      · rw [ih2, hnid]
        simp only [List.length_cons]
        omega

theorem mintedMsgs_length (topic : String) :
    ∀ (inputs : List (String × Nat × String × Int)) (startId : Nat),
      (mintedMsgs topic startId inputs).length = inputs.length := by
  intro inputs
  induction inputs with
  | nil => intro startId; rfl
  | cons i rest ih =>
      intro startId
      obtain ⟨sender, priority, payload, now⟩ := i
      simp only [mintedMsgs, List.length_cons, ih]

end RingBus

namespace LogStream

theorem foldl_push_output_lines (lines : List (List Char)) :
    ∀ p : LogStreamParser,
      (lines.foldl push_output p).output_lines =
        lines.foldl (Fleet.ringPush MAX_OUTPUT_LINES) p.output_lines := by
  induction lines with
  | nil => intro p; rfl
  | cons l ls ih =>
      intro p
      simp only [List.foldl_cons]
      rw [ih (push_output p l)]
      rfl

theorem foldl_push_events (events : List ParsedEvent) :
    ∀ p : LogStreamParser,
      (events.foldl push_event p).events =
        events.foldl (Fleet.ringPush MAX_EVENTS) p.events := by
  induction events with
  | nil => intro p; rfl
  | cons e es ih =>
      intro p
      simp only [List.foldl_cons]
      rw [ih (push_event p e)]
      rfl

end LogStream

theorem push_snapshot_ringPush (points : List Compound.TimeSeriesPoint)
    (kvs : List (String × Nat)) (workers : List Compound.WorkerInfo)
    (swarms : List Compound.SwarmInfo) (now : Int) :
    Compound.push_snapshot points kvs workers swarms now =
      Fleet.ringPush Compound.MAX_POINTS points
        (Compound.mkPoint (Compound.decodeSnapshotCounters kvs workers swarms) now) := rfl

/-- C9: every ring buffer of the repository — logstream `output_lines`
(capacity 1000) and `events` (capacity 500), a ringbus per-topic channel
(capacity 10000, across `publish` which mints ids and clamps priority),
and the compound accumulator (capacity 720, across `push_snapshot`) —
satisfies: after N pushes from empty, the observed length is
`min(N, C)` and the buffer holds exactly the most recent `min(N, C)`
pushed items in insertion order (the oldest evicted first). -/
theorem c9_ring_buffer_eviction :
    (∀ lines : List (List Char),
      (lines.foldl LogStream.push_output LogStream.newParser).output_lines.length =
        min lines.length 1000 ∧
      (lines.foldl LogStream.push_output LogStream.newParser).output_lines =
        lines.drop (lines.length - 1000)) ∧
    (∀ events : List LogStream.ParsedEvent,
      (events.foldl LogStream.push_event LogStream.newParser).events.length =
        min events.length 500 ∧
      (events.foldl LogStream.push_event LogStream.newParser).events =
        events.drop (events.length - 500)) ∧
    (∀ (topic : String) (inputs : List (String × Nat × String × Int)),
      ((Fleet.lookupA (RingBus.publishFold RingBus.new topic inputs).channels topic).getD
          []).length = min inputs.length 10000 ∧
      (Fleet.lookupA (RingBus.publishFold RingBus.new topic inputs).channels topic).getD [] =
        (RingBus.mintedMsgs topic 1 inputs).drop (inputs.length - 10000)) ∧
    (∀ snaps : List (List (String × Nat) × List Compound.WorkerInfo ×
        List Compound.SwarmInfo × Int),
      (snaps.foldl (fun pts i => Compound.push_snapshot pts i.1 i.2.1 i.2.2.1 i.2.2.2)
          []).length = min snaps.length 720 ∧
      snaps.foldl (fun pts i => Compound.push_snapshot pts i.1 i.2.1 i.2.2.1 i.2.2.2) [] =
        (snaps.map (fun i =>
          Compound.mkPoint (Compound.decodeSnapshotCounters i.1 i.2.1 i.2.2.1)
            i.2.2.2)).drop (snaps.length - 720)) := by
  refine ⟨fun lines => ?_, fun events => ?_, fun topic inputs => ?_, fun snaps => ?_⟩
  · rw [LogStream.foldl_push_output_lines]
    show (List.foldl (Fleet.ringPush 1000) [] lines).length = _ ∧
      List.foldl (Fleet.ringPush 1000) [] lines = _
    rw [Fleet.ringPush_foldl_length 1000 (by norm_num) lines,
      Fleet.ringPush_foldl 1000 (by norm_num) lines]
    exact ⟨rfl, rfl⟩
  · rw [LogStream.foldl_push_events]
    show (List.foldl (Fleet.ringPush 500) [] events).length = _ ∧
      List.foldl (Fleet.ringPush 500) [] events = _
    rw [Fleet.ringPush_foldl_length 500 (by norm_num) events,
      Fleet.ringPush_foldl 500 (by norm_num) events]
    exact ⟨rfl, rfl⟩
  · obtain ⟨h1, _⟩ := RingBus.publishFold_channel topic inputs RingBus.new
    rw [h1]
    show (List.foldl (Fleet.ringPush 10000) [] (RingBus.mintedMsgs topic 1 inputs)).length =
        _ ∧ List.foldl (Fleet.ringPush 10000) [] (RingBus.mintedMsgs topic 1 inputs) = _
    rw [Fleet.ringPush_foldl_length 10000 (by norm_num), Fleet.ringPush_foldl 10000
      (by norm_num), RingBus.mintedMsgs_length]
    exact ⟨rfl, rfl⟩
  · have hfun : (fun (pts : List Compound.TimeSeriesPoint)
        (i : List (String × Nat) × List Compound.WorkerInfo ×
          List Compound.SwarmInfo × Int) =>
        Compound.push_snapshot pts i.1 i.2.1 i.2.2.1 i.2.2.2) =
        (fun pts i => Fleet.ringPush Compound.MAX_POINTS pts
          (Compound.mkPoint (Compound.decodeSnapshotCounters i.1 i.2.1 i.2.2.1)
            i.2.2.2)) := rfl
    rw [hfun, ← List.foldl_map]
    show (List.foldl (Fleet.ringPush 720) [] _).length = _ ∧
      List.foldl (Fleet.ringPush 720) [] _ = _
    rw [Fleet.ringPush_foldl_length 720 (by norm_num), Fleet.ringPush_foldl 720
      (by norm_num), List.length_map]
    exact ⟨rfl, rfl⟩


namespace RingBus

theorem infix_append_right {x m : List Char} (z : List Char) (h : x <:+: m) :
    x <:+: m ++ z := by
  obtain ⟨s, t, hst⟩ := h
  exact ⟨s, t ++ z, by rw [← hst]; simp⟩

theorem markMsg_id (m : BusMessage) (h : String) : (markMsg m h).id = m.id := rfl

theorem markMsg_infix (m : BusMessage) (h : String) :
    h.toList <:+: (markMsg m h).read_by := by
  show h.toList <:+: (if m.read_by ≠ [] then m.read_by ++ [','] else m.read_by) ++ h.toList
  exact ⟨(if m.read_by ≠ [] then m.read_by ++ [','] else m.read_by), [], by simp⟩

theorem read_by_infix_mono (x : List Char) (m : BusMessage) (h : String)
    (hinf : x <:+: m.read_by) : x <:+: (markMsg m h).read_by := by
  show x <:+: (if m.read_by ≠ [] then m.read_by ++ [','] else m.read_by) ++ h.toList
  by_cases hrb : m.read_by ≠ []
  · rw [if_pos hrb, List.append_assoc]
    exact infix_append_right _ hinf
  · rw [if_neg hrb]
    exact infix_append_right _ hinf

theorem updateFirst_creates (h : String) (id : String) :
    ∀ ch : List BusMessage, (∃ m' ∈ ch, m'.id = id) →
      ∃ m'' ∈ updateFirst ch id h, m''.id = id ∧ h.toList <:+: m''.read_by := by
  intro ch
  induction ch with
  | nil => rintro ⟨m', hm', _⟩; simp at hm'
  | cons m rest ih =>
      rintro ⟨m', hm', hid⟩
      by_cases hm : m.id = id
      · refine ⟨markMsg m h, ?_, hm, markMsg_infix m h⟩
        rw [updateFirst, if_pos hm]
        exact List.mem_cons_self _ _
      · rcases List.mem_cons.mp hm' with he | he
        · subst he; exact absurd hid hm
        · obtain ⟨m'', hmem, hid'', hinf⟩ := ih ⟨m', he, hid⟩
          refine ⟨m'', ?_, hid'', hinf⟩
          rw [updateFirst, if_neg hm]
          exact List.mem_cons_of_mem m hmem

theorem updateFirst_preserves (h : String) (id' : String) :
    ∀ ch : List BusMessage, ∀ m' ∈ ch,
      ∃ m'' ∈ updateFirst ch id' h, m''.id = m'.id ∧
        (h.toList <:+: m'.read_by → h.toList <:+: m''.read_by) := by
  intro ch
  induction ch with
  | nil => intro m' hm'; simp at hm'
  | cons m rest ih =>
      intro m' hm'
      rcases List.mem_cons.mp hm' with he | he
      · subst he
        by_cases hm : m'.id = id'
        · refine ⟨markMsg m' h, ?_, markMsg_id m' h, read_by_infix_mono _ m' h⟩
          rw [updateFirst, if_pos hm]
          exact List.mem_cons_self _ _
        · refine ⟨m', ?_, rfl, fun hi => hi⟩
          rw [updateFirst, if_neg hm]
          exact List.mem_cons_self _ _
      · by_cases hm : m.id = id'
        · refine ⟨m', ?_, rfl, fun hi => hi⟩
          rw [updateFirst, if_pos hm]
          exact List.mem_cons_of_mem _ he
        · obtain ⟨m'', hmem, hid'', himp⟩ := ih m' he
          refine ⟨m'', ?_, hid'', himp⟩
          rw [updateFirst, if_neg hm]
          exact List.mem_cons_of_mem m hmem

end RingBus

namespace RingBus

theorem markStep_idPresent (handle : String) (chs : List (String × List BusMessage))
    (msg m : BusMessage) (hip : IdPresent chs m) : IdPresent (markStep handle chs msg) m := by
  obtain ⟨ch, hlook, m', hmem, hid⟩ := hip
  rw [markStep]
  cases hmt : Fleet.lookupA chs msg.topic with
  | none => exact ⟨ch, hlook, m', hmem, hid⟩
  | some channel =>
      by_cases ht : msg.topic = m.topic
      · rw [ht] at hmt
        rw [hmt] at hlook
        injection hlook with hlook
        subst hlook
        obtain ⟨m'', hmem'', hid'', _⟩ := updateFirst_preserves handle msg.id channel m' hmem
        refine ⟨updateFirst channel msg.id handle, ?_, m'', hmem'', hid''.trans hid⟩
        rw [ht]
        exact Fleet.lookupA_setA_some chs m.topic _ channel hmt
      · refine ⟨ch, ?_, m', hmem, hid⟩
        rw [Fleet.lookupA_setA_ne chs msg.topic m.topic _ ht]
        exact hlook

theorem markStep_marked (handle : String) (chs : List (String × List BusMessage))
    (msg m : BusMessage) (hm : MarkedBy handle chs m) :
    MarkedBy handle (markStep handle chs msg) m := by
  obtain ⟨ch, hlook, m', hmem, hid, hinf⟩ := hm
  rw [markStep]
  cases hmt : Fleet.lookupA chs msg.topic with
  | none => exact ⟨ch, hlook, m', hmem, hid, hinf⟩
  | some channel =>
      by_cases ht : msg.topic = m.topic
      · rw [ht] at hmt
        rw [hmt] at hlook
        injection hlook with hlook
        subst hlook
        obtain ⟨m'', hmem'', hid'', himp⟩ := updateFirst_preserves handle msg.id channel m' hmem
        refine ⟨updateFirst channel msg.id handle, ?_, m'', hmem'', hid''.trans hid, himp hinf⟩
        rw [ht]
        exact Fleet.lookupA_setA_some chs m.topic _ channel hmt
      · refine ⟨ch, ?_, m', hmem, hid, hinf⟩
        rw [Fleet.lookupA_setA_ne chs msg.topic m.topic _ ht]
        exact hlook

theorem markStep_self (handle : String) (chs : List (String × List BusMessage))
    (msg : BusMessage) (hip : IdPresent chs msg) :
    MarkedBy handle (markStep handle chs msg) msg := by
  obtain ⟨ch, hlook, m', hmem, hid⟩ := hip
  rw [markStep, hlook]
  obtain ⟨m'', hmem'', hid'', hinf''⟩ := updateFirst_creates handle msg.id ch ⟨m', hmem, hid⟩
  exact ⟨updateFirst ch msg.id handle,
    Fleet.lookupA_setA_some chs msg.topic _ ch hlook, m'', hmem'', hid'', hinf''⟩

theorem markFold_keeps_marked (handle : String) :
    ∀ (msgs : List BusMessage) (chs : List (String × List BusMessage)) (m : BusMessage),
      MarkedBy handle chs m → MarkedBy handle (msgs.foldl (markStep handle) chs) m := by
  intro msgs
  induction msgs with
  | nil => intro chs m hm; exact hm
  | cons x xs ih =>
      intro chs m hm
      simp only [List.foldl_cons]
      exact ih (markStep handle chs x) m (markStep_marked handle chs x m hm)

theorem markFold_marks (handle : String) :
    ∀ (msgs : List BusMessage) (chs : List (String × List BusMessage)),
      (∀ m ∈ msgs, IdPresent chs m) →
      (∀ m ∈ msgs, MarkedBy handle (msgs.foldl (markStep handle) chs) m) := by
  intro msgs
  induction msgs with
  | nil => intro chs _ m hm; simp at hm
  | cons m0 ms ih =>
      intro chs hip m hm
      simp only [List.foldl_cons]
      rcases List.mem_cons.mp hm with he | hin
      · subst he
        exact markFold_keeps_marked handle ms (markStep handle chs m) m
          (markStep_self handle chs m (hip m (List.mem_cons_self _ _)))
      · exact ih (markStep handle chs m0)
          (fun m' hm' => markStep_idPresent handle chs m0 m'
            (hip m' (List.mem_cons_of_mem m0 hm')))
          m hin

end RingBus

namespace Fleet

theorem lookupA_mem (m : List (String × α)) (k : String) (v : α)
    (h : lookupA m k = some v) : (k, v) ∈ m := by
  induction m with
  | nil => simp [lookupA] at h
  | cons p rest ih =>
      obtain ⟨k1, v1⟩ := p
      by_cases h1 : k1 = k
      · subst h1
        rw [lookupA, if_pos rfl] at h
        injection h with h
        subst h
        exact List.mem_cons_self _ _
      · rw [lookupA, if_neg h1] at h
        exact List.mem_cons_of_mem _ (ih h)

end Fleet

namespace RingBus

theorem collectFold_sub (handle : String) (limit : Nat) :
    ∀ (l : List BusMessage) (acc : List BusMessage) (m : BusMessage),
      m ∈ l.foldl (fun acc m =>
        if limit ≤ acc.length then acc
        else if true && readByContains m.read_by handle then acc
        else acc ++ [m]) acc →
      m ∈ acc ∨ (m ∈ l ∧ ¬ (handle.toList <:+: m.read_by)) := by
  intro l
  induction l with
  | nil => intro acc m hm; exact Or.inl hm
  | cons x xs ih =>
      intro acc m hm
      simp only [List.foldl_cons] at hm
      rcases ih _ m hm with hacc | ⟨hxs, hninf⟩
      · by_cases h1 : limit ≤ acc.length
        · rw [if_pos h1] at hacc
          exact Or.inl hacc
        · rw [if_neg h1] at hacc
          by_cases h2 : (true && readByContains x.read_by handle) = true
          · rw [if_pos h2] at hacc
            exact Or.inl hacc
          · rw [if_neg h2] at hacc
            rcases List.mem_append.mp hacc with hacc | hx
            · exact Or.inl hacc
            · simp only [List.mem_singleton] at hx
              subst hx
              right
              refine ⟨List.mem_cons_self _ _, ?_⟩
              simp only [Bool.true_and] at h2
              rw [readByContains] at h2
              simpa using h2
      · exact Or.inr ⟨List.mem_cons_of_mem x hxs, hninf⟩

theorem collectChannel_sub (handle : String) (limit : Nat) (ch : List BusMessage)
    (acc : List BusMessage) (m : BusMessage)
    (hm : m ∈ collectChannel handle true limit acc ch) :
    m ∈ acc ∨ (m ∈ ch ∧ ¬ (handle.toList <:+: m.read_by)) := by
  rcases collectFold_sub handle limit ch.reverse acc m hm with h | ⟨h1, h2⟩
  · exact Or.inl h
  · exact Or.inr ⟨List.mem_reverse.mp h1, h2⟩

theorem topicFold_sub (bus : RingBus) (handle : String) (limit : Nat) :
    ∀ (topics : List String) (acc : List BusMessage) (m : BusMessage),
      m ∈ topics.foldl (topicStep bus handle true limit) acc →
      m ∈ acc ∨ ∃ t ∈ topics, ∃ ch, Fleet.lookupA bus.channels t = some ch ∧
        m ∈ ch ∧ ¬ (handle.toList <:+: m.read_by) := by
  intro topics
  induction topics with
  | nil => intro acc m hm; exact Or.inl hm
  | cons t ts ih =>
      intro acc m hm
      simp only [List.foldl_cons] at hm
      rcases ih _ m hm with hstep | ⟨t', ht', ch, hch, hmem, hninf⟩
      · rw [topicStep] at hstep
        cases hlook : Fleet.lookupA bus.channels t with
        | none => rw [hlook] at hstep; exact Or.inl hstep
        | some channel =>
            rw [hlook] at hstep
            rcases collectChannel_sub handle limit channel acc m hstep with h | ⟨h1, h2⟩
            · exact Or.inl h
            · exact Or.inr ⟨t, List.mem_cons_self _ _, channel, hlook, h1, h2⟩
      · exact Or.inr ⟨t', List.mem_cons_of_mem t ht', ch, hch, hmem, hninf⟩

/-- C3 (amended) supporting fact: every message returned by
`read(handle, limit, unread_only := true)` was collected from a channel
of one of the handle's subscribed topics with the substring filter
passed. -/
theorem read_result_provenance (bus : RingBus) (handle : String) (limit : Nat)
    (m : BusMessage) (hm : m ∈ (read bus handle limit true).1) :
    (∃ t ∈ (Fleet.lookupA bus.subscribers handle).getD [],
      ∃ ch, Fleet.lookupA bus.channels t = some ch ∧ m ∈ ch) ∧
    ¬ (handle.toList <:+: m.read_by) := by
  have hmem1 : m ∈ List.insertionSort readLE
      (((Fleet.lookupA bus.subscribers handle).getD []).foldl
        (topicStep bus handle true limit) []) := by
    exact List.mem_of_mem_take hm
  have hmem2 : m ∈ ((Fleet.lookupA bus.subscribers handle).getD []).foldl
      (topicStep bus handle true limit) [] :=
    (List.perm_insertionSort readLE _).subset hmem1
  rcases topicFold_sub bus handle limit _ [] m hmem2 with h | ⟨t, ht, ch, hch, hmem, hninf⟩
  · simp at h
  · exact ⟨⟨t, ht, ch, hch, hmem⟩, hninf⟩

end RingBus

/-- C3 counterexample: subscribe both handle "a" and handle "ab" to
topic "t" and publish one message.  After "ab" reads it, the message's
`read_by` is "ab", whose comma-split reader list is `["ab"]` — it does
not contain "a" as a list element — yet `read("a", 50, unread_only)`
returns nothing, because the code tests `read_by.contains(&handle)`, a
substring match, and "a" is a substring of "ab".  The claim predicted
the message would be returned to "a". -/
theorem c3_substring_skip_counterexample :
    (RingBus.read (RingBus.read
        ((RingBus.publish (RingBus.subscribe (RingBus.subscribe RingBus.new "a" "t") "ab" "t")
          "t" "lead" 1 "p" 5).2) "ab" 50 true).2 "a" 50 true).1 = [] ∧
    ((Fleet.lookupA (RingBus.read
        ((RingBus.publish (RingBus.subscribe (RingBus.subscribe RingBus.new "a" "t") "ab" "t")
          "t" "lead" 1 "p" 5).2) "ab" 50 true).2.channels "t").getD []).map
      RingBus.BusMessage.read_by = [['a', 'b']] ∧
    RingBus.readersOfSpec ['a', 'b'] = [['a', 'b']] ∧
    ['a'] ∉ RingBus.readersOfSpec ['a', 'b'] := by
  decide

/-- C3 (amended): for every topic-consistent bus state, handle and
limit, `read(handle, limit, unread_only := true)` returns only messages
taken from channels of the handle's subscribed topics whose `read_by`
string does not contain the handle as a substring (not as a comma-list
element), and in the post-state the first channel entry matching each
returned message's id has the handle appended — its `read_by` contains
the handle as a substring, so it is skipped by every later unread-only
read for this handle.  A message read-marked by another handle of which
this handle is a substring is likewise skipped. -/
theorem c3_read_unread_substring_semantics (bus : RingBus.RingBus) (handle : String)
    (limit : Nat) (htc : RingBus.TopicConsistent bus) :
    (∀ m ∈ (RingBus.read bus handle limit true).1,
      (∃ t ∈ (Fleet.lookupA bus.subscribers handle).getD [],
        ∃ ch, Fleet.lookupA bus.channels t = some ch ∧ m ∈ ch) ∧
      ¬ (handle.toList <:+: m.read_by)) ∧
    (∀ m ∈ (RingBus.read bus handle limit true).1,
      RingBus.MarkedBy handle (RingBus.read bus handle limit true).2.channels m) := by
  refine ⟨fun m hm => RingBus.read_result_provenance bus handle limit m hm, fun m hm => ?_⟩
  have hip : ∀ m' ∈ (RingBus.read bus handle limit true).1, RingBus.IdPresent bus.channels m' := by
    intro m' hm'
    obtain ⟨⟨t, ht, ch, hch, hmem⟩, _⟩ := RingBus.read_result_provenance bus handle limit m' hm'
    have htop : m'.topic = t := htc (t, ch) (Fleet.lookupA_mem bus.channels t ch hch) m' hmem
    refine ⟨ch, ?_, m', hmem, rfl⟩
    rw [htop]
    exact hch
  have hchannels : (RingBus.read bus handle limit true).2.channels =
      ((RingBus.read bus handle limit true).1).foldl (RingBus.markStep handle)
        bus.channels := rfl
  rw [hchannels]
  exact RingBus.markFold_marks handle (RingBus.read bus handle limit true).1 bus.channels hip m hm

/-- C3 witness: the amended theorem applied to a concrete bus — one
subscriber "w1" of topic "t" and one published message. -/
theorem c3_read_witness :
    RingBus.TopicConsistent
      ((RingBus.publish (RingBus.subscribe RingBus.new "w1" "t") "t" "lead" 1 "p" 5).2) ∧
    ((∀ m ∈ (RingBus.read
        ((RingBus.publish (RingBus.subscribe RingBus.new "w1" "t") "t" "lead" 1 "p" 5).2)
        "w1" 10 true).1,
      (∃ t ∈ (Fleet.lookupA
          ((RingBus.publish (RingBus.subscribe RingBus.new "w1" "t") "t" "lead" 1
            "p" 5).2).subscribers "w1").getD [],
        ∃ ch, Fleet.lookupA
          ((RingBus.publish (RingBus.subscribe RingBus.new "w1" "t") "t" "lead" 1
            "p" 5).2).channels t = some ch ∧ m ∈ ch) ∧
      ¬ (("w1" : String).toList <:+: m.read_by)) ∧
    (∀ m ∈ (RingBus.read
        ((RingBus.publish (RingBus.subscribe RingBus.new "w1" "t") "t" "lead" 1 "p" 5).2)
        "w1" 10 true).1,
      RingBus.MarkedBy "w1" (RingBus.read
        ((RingBus.publish (RingBus.subscribe RingBus.new "w1" "t") "t" "lead" 1 "p" 5).2)
        "w1" 10 true).2.channels m)) :=
  ⟨by decide,
    c3_read_unread_substring_semantics
      ((RingBus.publish (RingBus.subscribe RingBus.new "w1" "t") "t" "lead" 1 "p" 5).2)
      "w1" 10 (by decide)⟩

namespace Fleet

theorem lookupA_insertOrA_self (m : List (String × α)) (k : String) (v : α) :
    lookupA (insertOrA m k v) k = some ((lookupA m k).getD v) := by
  rw [insertOrA]
  cases h : lookupA m k with
  | some w => simp [h]
  | none =>
      simp only [h, Option.getD_none]
      induction m with
      | nil => simp [lookupA]
      | cons p rest ih =>
          obtain ⟨k1, v1⟩ := p
          rw [lookupA] at h
          by_cases h1 : k1 = k
          · rw [if_pos h1] at h; exact absurd h (by simp)
          · rw [if_neg h1] at h
            rw [List.cons_append, lookupA, if_neg h1]
            exact ih h

theorem lookupA_insertOrA_ne (m : List (String × α)) (k k' : String) (v : α)
    (h : k ≠ k') : lookupA (insertOrA m k v) k' = lookupA m k' := by
  rw [insertOrA]
  cases hl : lookupA m k with
  | some w => rfl
  | none =>
      induction m with
      | nil => simp [lookupA, h]
      | cons p rest ih =>
          obtain ⟨k1, v1⟩ := p
          rw [lookupA] at hl
          by_cases h1 : k1 = k
          · rw [if_pos h1] at hl; exact absurd hl (by simp)
          · rw [if_neg h1] at hl
            rw [List.cons_append, lookupA, lookupA]
            by_cases h2 : k1 = k'
            · rw [if_pos h2, if_pos h2]
            · rw [if_neg h2, if_neg h2]
              exact ih hl

theorem lookupA_append_left (m m' : List (String × α)) (k : String) (v : α)
    (h : lookupA m k = some v) : lookupA (m ++ m') k = some v := by
  induction m with
  | nil => simp [lookupA] at h
  | cons p rest ih =>
      obtain ⟨k1, v1⟩ := p
      rw [lookupA] at h
      rw [List.cons_append, lookupA]
      by_cases h1 : k1 = k
      · rw [if_pos h1] at h ⊢; exact h
      · rw [if_neg h1] at h ⊢; exact ih h

theorem lookupA_append_none (m m' : List (String × α)) (k : String)
    (h : lookupA m k = none) : lookupA (m ++ m') k = lookupA m' k := by
  induction m with
  | nil => rfl
  | cons p rest ih =>
      obtain ⟨k1, v1⟩ := p
      rw [lookupA] at h
      by_cases h1 : k1 = k
      · rw [if_pos h1] at h; exact absurd h (by simp)
      · rw [if_neg h1] at h
        rw [List.cons_append, lookupA, if_neg h1]
        exact ih h

theorem keysOf_A_setA (m : List (String × α)) (k : String) (v : α) :
    (setA m k v).map Prod.fst = m.map Prod.fst := by
  induction m with
  | nil => rfl
  | cons p rest ih =>
      obtain ⟨k1, v1⟩ := p
      by_cases h : k1 = k
      · simp [setA, h]
      · simp only [setA, if_neg h, List.map_cons]
        rw [ih]

theorem keysOf_insertOrA (m : List (String × α)) (k : String) (v : α) :
    (insertOrA m k v).map Prod.fst = m.map Prod.fst ∨
      (insertOrA m k v).map Prod.fst = m.map Prod.fst ++ [k] := by
  rw [insertOrA]
  cases h : lookupA m k with
  | some w => exact Or.inl rfl
  | none => right; simp

theorem nodup_keys_insertOrA (m : List (String × α)) (k : String) (v : α)
    (hm : (m.map Prod.fst).Nodup) : ((insertOrA m k v).map Prod.fst).Nodup := by
  rw [insertOrA]
  cases h : lookupA m k with
  | some w => exact hm
  | none =>
      have hk : k ∉ m.map Prod.fst := (Swarm.lookupA_eq_none_iff m k).mp h
      simp only [List.map_append, List.map_cons, List.map_nil]
      rw [List.nodup_append]
      refine ⟨hm, by simp, ?_⟩
      intro a ha hb
      simp only [List.mem_singleton] at hb
      exact hk (hb ▸ ha)

theorem mem_keys_of_lookupA (m : List (String × α)) (k : String) (v : α)
    (h : lookupA m k = some v) : k ∈ m.map Prod.fst := by
  by_contra hk
  have : lookupA m k = none := (Swarm.lookupA_eq_none_iff m k).mpr hk
  rw [h] at this
  exact Option.noConfusion this

theorem lookupA_isSome_of_mem_keys (m : List (String × α)) (k : String)
    (h : k ∈ m.map Prod.fst) : ∃ v, lookupA m k = some v := by
  cases hl : lookupA m k with
  | some v => exact ⟨v, rfl⟩
  | none => exact absurd ((Swarm.lookupA_eq_none_iff m k).mp hl) (fun hn => hn h)

theorem degSum_setA (m : List (String × Nat)) (k : String) (d w : Nat)
    (h : Fleet.lookupA m k = some d) :
    ((setA m k w).map Prod.snd).sum + d = (m.map Prod.snd).sum + w := by
  induction m with
  | nil => simp [lookupA] at h
  | cons p rest ih =>
      obtain ⟨k1, v1⟩ := p
      rw [lookupA] at h
      by_cases h1 : k1 = k
      · rw [if_pos h1] at h
        injection h with h
        subst h
        simp [setA, h1]
        omega
      · rw [if_neg h1] at h
        simp only [setA, if_neg h1, List.map_cons, List.sum_cons]
        have := ih h
        omega

end Fleet

namespace Dag

/-! ### List utilities for the Kahn development -/

theorem indexOf_cons_eq (l : List String) (u a : String) :
    (a :: l).indexOf u = if a = u then 0 else l.indexOf u + 1 := by
  rw [List.indexOf_cons]
  by_cases h : a = u
  · simp [h]
  · have hb : (a == u) = false := beq_false_of_ne h
    rw [hb, if_neg h]
    rfl

theorem nodup_subset_length (l l' : List String) (hn : l.Nodup)
    (hs : ∀ x ∈ l, x ∈ l') : l.length ≤ l'.length := by
  calc l.length = l.toFinset.card := (List.toFinset_card_of_nodup hn).symm
    _ ≤ l'.toFinset.card := Finset.card_le_card (fun x hx => by
        rw [List.mem_toFinset] at hx ⊢
        exact hs x hx)
    _ ≤ l'.length := l'.toFinset_card_le

theorem le_foldl_max (l : List ℚ) : ∀ a : ℚ, a ≤ l.foldl max a := by
  induction l with
  | nil => intro a; exact le_refl a
  | cons x l ih =>
      intro a
      exact le_trans (le_max_left a x) (ih (max a x))

theorem mem_le_foldl_max (l : List ℚ) (x : ℚ) (h : x ∈ l) :
    ∀ a : ℚ, x ≤ l.foldl max a := by
  induction l with
  | nil => simp at h
  | cons y l ih =>
      intro a
      rcases List.mem_cons.mp h with h | h
      · subst h
        exact le_trans (le_max_right a x) (le_foldl_max l (max a x))
      · exact ih h (max a y)

theorem foldl_max_mem (l : List ℚ) : ∀ a : ℚ, l.foldl max a = a ∨ l.foldl max a ∈ l := by
  induction l with
  | nil => intro a; exact Or.inl rfl
  | cons x l ih =>
      intro a
      rcases ih (max a x) with h | h
      · rcases max_cases a x with ⟨hm, _⟩ | ⟨hm, _⟩
        · rw [List.foldl_cons, h, hm]
          exact Or.inl rfl
        · rw [List.foldl_cons, h, hm]
          exact Or.inr (List.mem_cons_self x l)
      · exact Or.inr (List.mem_cons_of_mem x h)

theorem foldl_flatMap (l : List α) (f : α → List β) (g : γ → β → γ) :
    ∀ a, (l.flatMap f).foldl g a = l.foldl (fun acc x => (f x).foldl g acc) a := by
  induction l with
  | nil => intro a; rfl
  | cons x l ih =>
      intro a
      simp only [List.flatMap_cons, List.foldl_append, List.foldl_cons]
      exact ih _

theorem filter_indexOf_mono (p : String → Bool) :
    ∀ (l : List String), l.Nodup → ∀ u v, u ∈ l.filter p → v ∈ l.filter p →
      l.indexOf u < l.indexOf v →
      (l.filter p).indexOf u < (l.filter p).indexOf v := by
  intro l
  induction l with
  | nil => intro _ u v hu; simp at hu
  | cons a l ih =>
      intro hn u v hu hv hlt
      rw [List.nodup_cons] at hn
      rw [List.filter_cons] at hu hv ⊢
      by_cases hpa : p a = true
      · rw [if_pos hpa] at hu hv ⊢
        by_cases hau : a = u
        · subst hau
          have hvne : v ≠ a := by
            intro he
            rw [he] at hlt
            exact lt_irrefl _ hlt
          have hvf : v ∈ l.filter p := by
            rcases List.mem_cons.mp hv with h | h
            · exact absurd h hvne
            · exact h
          rw [indexOf_cons_eq _ v a, if_neg (fun he => hvne he.symm),
            indexOf_cons_eq _ a a, if_pos rfl]
          omega
        · by_cases hav : a = v
          · subst hav
            rw [indexOf_cons_eq _ a a, if_pos rfl] at hlt
            rw [indexOf_cons_eq _ u a, if_neg hau] at hlt
            omega
          · have huf : u ∈ l.filter p := by
              rcases List.mem_cons.mp hu with h | h
              · exact absurd h.symm hau
              · exact h
            have hvf : v ∈ l.filter p := by
              rcases List.mem_cons.mp hv with h | h
              · exact absurd h.symm hav
              · exact h
            rw [indexOf_cons_eq _ u a, if_neg hau,
              indexOf_cons_eq _ v a, if_neg hav] at hlt
            have := ih hn.2 u v huf hvf (by omega)
            rw [indexOf_cons_eq _ u a, if_neg hau,
              indexOf_cons_eq _ v a, if_neg hav]
            omega
      · rw [if_neg hpa] at hu hv ⊢
        have hul : u ∈ l := (List.mem_filter.mp hu).1
        have hvl : v ∈ l := (List.mem_filter.mp hv).1
        have hau : a ≠ u := fun he => hn.1 (he ▸ hul)
        have hav : a ≠ v := fun he => hn.1 (he ▸ hvl)
        rw [indexOf_cons_eq _ u a, if_neg hau,
          indexOf_cons_eq _ v a, if_neg hav] at hlt
        exact ih hn.2 u v hu hv (by omega)

theorem map_sum_indicator (a : String) (c : Nat) (g : String → Nat) :
    ∀ (S : List String), S.Nodup →
    (S.map (fun u => (if a = u then c else 0) + g u)).sum
      = (if a ∈ S then c else 0) + (S.map g).sum := by
  intro S
  induction S with
  | nil => simp
  | cons x S ih =>
      intro hS
      rw [List.nodup_cons] at hS
      simp only [List.map_cons, List.sum_cons]
      rw [ih hS.2]
      by_cases hax : a = x
      · subst hax
        rw [if_pos rfl, if_pos (List.mem_cons_self a S), if_neg hS.1]
        omega
      · rw [if_neg hax]
        by_cases haS : a ∈ S
        · rw [if_pos haS, if_pos (List.mem_cons_of_mem x haS)]
          omega
        · rw [if_neg haS, if_neg (by
            intro h
            rcases List.mem_cons.mp h with h | h
            · exact hax h
            · exact haS h)]
          omega

/-- Count of `v` among the targets of the `u`-sourced edges of `E`, a cons
step at a time. -/
theorem countTargets_cons (e : String × String) (E : List (String × String))
    (u v : String) :
    (((e :: E).filter (fun x => x.1 == u)).map Prod.snd).count v
      = (if u = e.1 ∧ v = e.2 then 1 else 0)
        + ((E.filter (fun x => x.1 == u)).map Prod.snd).count v := by
  rw [List.filter_cons]
  by_cases h1 : e.1 = u
  · rw [if_pos (by simp [h1])]
    rw [List.map_cons]
    by_cases h2 : e.2 = v
    · rw [if_pos ⟨h1.symm, h2.symm⟩, h2]
      rw [List.count_cons_self]
      omega
    · rw [if_neg (fun hc => h2 hc.2.symm)]
      rw [List.count_cons_of_ne (fun he => h2 he.symm)]
      omega
  · rw [if_neg (by simp [h1])]
    rw [if_neg (fun hc => h1 hc.1.symm)]
    omega

theorem partition_le (v : String) :
    ∀ (E : List (String × String)) (S : List String), S.Nodup →
    (S.map (fun u => (((E.filter (fun x => x.1 == u)).map Prod.snd).count v))).sum
      ≤ E.countP (fun x => x.2 == v) := by
  intro E
  induction E with
  | nil =>
      intro S hS
      simp [List.countP_nil]
  | cons e E ih =>
      intro S hS
      have hmap : S.map
          (fun u => ((((e :: E).filter (fun x => x.1 == u)).map Prod.snd).count v))
          = S.map (fun u => (if e.1 = u then (if v = e.2 then 1 else 0) else 0)
              + (((E.filter (fun x => x.1 == u)).map Prod.snd).count v)) := by
        apply List.map_congr_left
        intro u _
        rw [countTargets_cons]
        by_cases h1 : u = e.1
        · by_cases h2 : v = e.2
          · rw [if_pos ⟨h1, h2⟩, if_pos h1.symm, if_pos h2]
          · rw [if_neg (fun hc => h2 hc.2), if_pos h1.symm, if_neg h2]
        · rw [if_neg (fun hc => h1 hc.1), if_neg (fun hc => h1 hc.symm)]
      rw [hmap, map_sum_indicator _ _ _ S hS]
      simp only [List.countP_cons, beq_iff_eq]
      have hle := ih S hS
      by_cases h2 : v = e.2
      · rw [if_pos (show e.2 = v from h2.symm), if_pos (show v = e.2 from h2)]
        by_cases hmem : e.1 ∈ S
        · rw [if_pos hmem]
          omega
        · rw [if_neg hmem]
          omega
      · rw [if_neg (show ¬(e.2 = v) from fun he => h2 he.symm),
          if_neg (show ¬(v = e.2) from h2)]
        by_cases hmem : e.1 ∈ S
        · rw [if_pos hmem]
          omega
        · rw [if_neg hmem]
          omega

theorem partition_eq (v : String) :
    ∀ (E : List (String × String)) (S : List String), S.Nodup →
    (∀ e ∈ E, e.2 = v → e.1 ∈ S) →
    (S.map (fun u => (((E.filter (fun x => x.1 == u)).map Prod.snd).count v))).sum
      = E.countP (fun x => x.2 == v) := by
  intro E
  induction E with
  | nil =>
      intro S hS _
      simp [List.countP_nil]
  | cons e E ih =>
      intro S hS hcov
      have hmap : S.map
          (fun u => ((((e :: E).filter (fun x => x.1 == u)).map Prod.snd).count v))
          = S.map (fun u => (if e.1 = u then (if v = e.2 then 1 else 0) else 0)
              + (((E.filter (fun x => x.1 == u)).map Prod.snd).count v)) := by
        apply List.map_congr_left
        intro u _
        rw [countTargets_cons]
        by_cases h1 : u = e.1
        · by_cases h2 : v = e.2
          · rw [if_pos ⟨h1, h2⟩, if_pos h1.symm, if_pos h2]
          · rw [if_neg (fun hc => h2 hc.2), if_pos h1.symm, if_neg h2]
        · rw [if_neg (fun hc => h1 hc.1), if_neg (fun hc => h1 hc.symm)]
      rw [hmap, map_sum_indicator _ _ _ S hS]
      simp only [List.countP_cons, beq_iff_eq]
      have heq := ih S hS (fun x hx hxv => hcov x (List.mem_cons_of_mem e hx) hxv)
      by_cases h2 : v = e.2
      · rw [if_pos (show e.2 = v from h2.symm), if_pos (show v = e.2 from h2)]
        have hmem : e.1 ∈ S := hcov e (List.mem_cons_self e E) h2.symm
        rw [if_pos hmem]
        omega
      · rw [if_neg (show ¬(e.2 = v) from fun he => h2 he.symm),
          if_neg (show ¬(v = e.2) from h2)]
        by_cases hmem : e.1 ∈ S
        · rw [if_pos hmem]
          omega
        · rw [if_neg hmem]
          omega

end Dag

namespace Dag

/-! ### Characterization of `build_graph` -/

theorem initInv (nodes : List DagNode) :
    ∀ (a : List (String × List String) × List (String × Nat) × List (String × DagNode))
      (S : List String),
    (∀ u, Fleet.lookupA a.1 u = if u ∈ S then some [] else none) →
    (∀ v, Fleet.lookupA a.2.1 v = if v ∈ S then some (0 : Nat) else none) →
    (Swarm.keysOf a.2.1).Nodup →
    (∀ u, Fleet.lookupA (nodes.foldl (fun maps n =>
        (Fleet.insertOrA maps.1 n.id [], Fleet.insertOrA maps.2.1 n.id 0,
          Fleet.insertRepA maps.2.2 n.id n)) a).1 u
        = if u ∈ S ++ idsOf nodes then some [] else none) ∧
    (∀ v, Fleet.lookupA (nodes.foldl (fun maps n =>
        (Fleet.insertOrA maps.1 n.id [], Fleet.insertOrA maps.2.1 n.id 0,
          Fleet.insertRepA maps.2.2 n.id n)) a).2.1 v
        = if v ∈ S ++ idsOf nodes then some (0 : Nat) else none) ∧
    (Swarm.keysOf (nodes.foldl (fun maps n =>
        (Fleet.insertOrA maps.1 n.id [], Fleet.insertOrA maps.2.1 n.id 0,
          Fleet.insertRepA maps.2.2 n.id n)) a).2.1).Nodup := by
  induction nodes with
  | nil =>
      intro a S hA hI hK
      simp only [List.foldl_nil, idsOf, List.map_nil, List.append_nil]
      exact ⟨hA, hI, hK⟩
  | cons n nodes ih =>
      intro a S hA hI hK
      simp only [List.foldl_cons]
      have hA' : ∀ u, Fleet.lookupA (Fleet.insertOrA a.1 n.id []) u
          = if u ∈ S ++ [n.id] then some [] else none := by
        intro u
        by_cases hu : n.id = u
        · subst hu
          rw [Fleet.lookupA_insertOrA_self, hA n.id]
          rw [if_pos (List.mem_append_right S (List.mem_singleton.mpr rfl))]
          by_cases hS : n.id ∈ S
          · rw [if_pos hS]
            rfl
          · rw [if_neg hS]
            rfl
        · rw [Fleet.lookupA_insertOrA_ne _ _ _ _ hu, hA u]
          by_cases hS : u ∈ S
          · rw [if_pos hS, if_pos (List.mem_append_left _ hS)]
          · rw [if_neg hS, if_neg ?_]
            intro hmem
            rcases List.mem_append.mp hmem with h | h
            · exact hS h
            · exact hu (List.mem_singleton.mp h).symm
      have hI' : ∀ v, Fleet.lookupA (Fleet.insertOrA a.2.1 n.id 0) v
          = if v ∈ S ++ [n.id] then some (0 : Nat) else none := by
        intro v
        by_cases hv : n.id = v
        · subst hv
          rw [Fleet.lookupA_insertOrA_self, hI n.id]
          rw [if_pos (List.mem_append_right S (List.mem_singleton.mpr rfl))]
          by_cases hS : n.id ∈ S
          · rw [if_pos hS]
            rfl
          · rw [if_neg hS]
            rfl
        · rw [Fleet.lookupA_insertOrA_ne _ _ _ _ hv, hI v]
          by_cases hS : v ∈ S
          · rw [if_pos hS, if_pos (List.mem_append_left _ hS)]
          · rw [if_neg hS, if_neg ?_]
            intro hmem
            rcases List.mem_append.mp hmem with h | h
            · exact hS h
            · exact hv (List.mem_singleton.mp h).symm
      have hK' : (Swarm.keysOf (Fleet.insertOrA a.2.1 n.id 0)).Nodup :=
        Fleet.nodup_keys_insertOrA _ _ _ hK
      have hres := ih (Fleet.insertOrA a.1 n.id [], Fleet.insertOrA a.2.1 n.id 0,
        Fleet.insertRepA a.2.2 n.id n) (S ++ [n.id]) hA' hI' hK'
      have hids : (S ++ [n.id]) ++ idsOf nodes = S ++ idsOf (n :: nodes) := by
        rw [List.append_assoc]
        simp [idsOf]
      rw [hids] at hres
      exact hres

theorem build_graph_edges (nodes : List DagNode) :
    build_graph nodes = (edgesList nodes).foldl
      (fun maps e => (pushAdj maps.1 e.1 e.2, bumpIndeg maps.2.1 e.2, maps.2.2))
      (nodes.foldl (fun maps n =>
        (Fleet.insertOrA maps.1 n.id [], Fleet.insertOrA maps.2.1 n.id 0,
          Fleet.insertRepA maps.2.2 n.id n)) ([], [], [])) := by
  rw [build_graph, edgesList, foldl_flatMap]
  congr 1
  funext maps n
  rw [List.foldl_map]

theorem pushAdj_some (adj : List (String × List String)) (dep id : String)
    (lst : List String) (h : Fleet.lookupA adj dep = some lst) :
    pushAdj adj dep id = Fleet.setA adj dep (lst ++ [id]) := by
  rw [pushAdj, h]

theorem pushAdj_none (adj : List (String × List String)) (dep id : String)
    (h : Fleet.lookupA adj dep = none) :
    pushAdj adj dep id = adj ++ [(dep, [id])] := by
  rw [pushAdj, h]

theorem adjL_pushAdj (adj : List (String × List String)) (dep id u : String) :
    adjL (pushAdj adj dep id) u
      = if dep = u then adjL adj u ++ [id] else adjL adj u := by
  cases h : Fleet.lookupA adj dep with
  | some lst =>
      rw [pushAdj_some _ _ _ _ h]
      by_cases hu : dep = u
      · subst hu
        rw [if_pos rfl, adjL, Fleet.lookupA_setA_some _ _ _ _ h]
        rw [adjL, h]
        rfl
      · rw [if_neg hu, adjL, Fleet.lookupA_setA_ne _ _ _ _ hu]
        rfl
  | none =>
      rw [pushAdj_none _ _ _ h]
      by_cases hu : dep = u
      · subst hu
        rw [if_pos rfl, adjL, Fleet.lookupA_append_none _ _ _ h]
        rw [adjL, h]
        simp [Fleet.lookupA]
      · rw [if_neg hu, adjL]
        cases hx : Fleet.lookupA adj u with
        | some w =>
            rw [Fleet.lookupA_append_left _ _ _ _ hx, adjL, hx]
        | none =>
            rw [Fleet.lookupA_append_none _ _ _ hx, adjL, hx]
            have : Fleet.lookupA [(dep, [id])] u = none := by
              rw [Fleet.lookupA, if_neg hu]
              rfl
            rw [this]

theorem bumpIndeg_some (ind : List (String × Nat)) (t : String) (d : Nat)
    (h : Fleet.lookupA ind t = some d) :
    bumpIndeg ind t = Fleet.setA ind t (d + 1) := by
  rw [bumpIndeg, h]

theorem lookupA_bumpIndeg (ind : List (String × Nat)) (t v : String) (d : Nat)
    (h : Fleet.lookupA ind t = some d) :
    Fleet.lookupA (bumpIndeg ind t) v
      = if t = v then some (d + 1) else Fleet.lookupA ind v := by
  rw [bumpIndeg_some _ _ _ h]
  by_cases hv : t = v
  · subst hv
    rw [if_pos rfl, Fleet.lookupA_setA_some _ _ _ _ h]
  · rw [if_neg hv, Fleet.lookupA_setA_ne _ _ _ _ hv]

theorem keysOf_bumpIndeg (ind : List (String × Nat)) (t : String) (d : Nat)
    (h : Fleet.lookupA ind t = some d) :
    Swarm.keysOf (bumpIndeg ind t) = Swarm.keysOf ind := by
  rw [bumpIndeg_some _ _ _ h]
  exact Fleet.keysOf_A_setA ind t (d + 1)

theorem edgeInv :
    ∀ (E : List (String × String))
      (a : List (String × List String) × List (String × Nat) × List (String × DagNode))
      (P : List (String × String)) (K : List String),
    (∀ u, adjL a.1 u = (P.filter (fun x => x.1 == u)).map Prod.snd) →
    (∀ v, Fleet.lookupA a.2.1 v
      = if v ∈ K then some (P.countP (fun x => x.2 == v)) else none) →
    (Swarm.keysOf a.2.1).Nodup →
    (∀ e ∈ E, e.2 ∈ K) →
    (∀ u, adjL (E.foldl (fun maps e =>
        (pushAdj maps.1 e.1 e.2, bumpIndeg maps.2.1 e.2, maps.2.2)) a).1 u
        = ((P ++ E).filter (fun x => x.1 == u)).map Prod.snd) ∧
    (∀ v, Fleet.lookupA (E.foldl (fun maps e =>
        (pushAdj maps.1 e.1 e.2, bumpIndeg maps.2.1 e.2, maps.2.2)) a).2.1 v
        = if v ∈ K then some ((P ++ E).countP (fun x => x.2 == v)) else none) ∧
    (Swarm.keysOf (E.foldl (fun maps e =>
        (pushAdj maps.1 e.1 e.2, bumpIndeg maps.2.1 e.2, maps.2.2)) a).2.1).Nodup := by
  intro E
  induction E with
  | nil =>
      intro a P K hA hI hK _
      simp only [List.foldl_nil, List.append_nil]
      exact ⟨hA, hI, hK⟩
  | cons e E ih =>
      intro a P K hA hI hK hE
      simp only [List.foldl_cons]
      have ht : e.2 ∈ K := hE e (List.mem_cons_self e E)
      have hlk : Fleet.lookupA a.2.1 e.2 = some (P.countP (fun x => x.2 == e.2)) := by
        rw [hI e.2, if_pos ht]
      have hA' : ∀ u, adjL (pushAdj a.1 e.1 e.2) u
          = ((P ++ [e]).filter (fun x => x.1 == u)).map Prod.snd := by
        intro u
        rw [adjL_pushAdj, List.filter_append, List.map_append, ← hA u]
        by_cases hu : e.1 = u
        · rw [if_pos hu]
          have : [e].filter (fun x => x.1 == u) = [e] := by
            simp [List.filter_cons, hu]
          rw [this]
          rfl
        · rw [if_neg hu]
          have : [e].filter (fun x => x.1 == u) = [] := by
            simp [List.filter_cons, hu]
          rw [this]
          simp
      have hI' : ∀ v, Fleet.lookupA (bumpIndeg a.2.1 e.2) v
          = if v ∈ K then some ((P ++ [e]).countP (fun x => x.2 == v)) else none := by
        intro v
        rw [lookupA_bumpIndeg _ _ _ _ hlk]
        by_cases hv : e.2 = v
        · subst hv
          rw [if_pos rfl, if_pos ht, List.countP_append]
          have : [e].countP (fun x => x.2 == e.2) = 1 := by
            simp [List.countP_cons]
          rw [this]
        · rw [if_neg hv, hI v]
          have : (P ++ [e]).countP (fun x => x.2 == v) = P.countP (fun x => x.2 == v) := by
            rw [List.countP_append]
            have : [e].countP (fun x => x.2 == v) = 0 := by
              simp [List.countP_cons, beq_false_of_ne hv]
            omega
          rw [this]
      have hK' : (Swarm.keysOf (bumpIndeg a.2.1 e.2)).Nodup := by
        rw [keysOf_bumpIndeg _ _ _ hlk]
        exact hK
      have hres := ih (pushAdj a.1 e.1 e.2, bumpIndeg a.2.1 e.2, a.2.2) (P ++ [e]) K
        hA' hI' hK' (fun x hx => hE x (List.mem_cons_of_mem e hx))
      have hP : (P ++ [e]) ++ E = P ++ e :: E := by
        rw [List.append_assoc]
        rfl
      rw [hP] at hres
      exact hres

end Dag

namespace Dag

theorem edges_target_mem (nodes : List DagNode) (e : String × String)
    (h : e ∈ edgesList nodes) : e.2 ∈ idsOf nodes := by
  rw [edgesList] at h
  rcases List.mem_flatMap.mp h with ⟨n, hn, he⟩
  rcases List.mem_map.mp he with ⟨d, _, hd⟩
  rw [idsOf]
  exact List.mem_map.mpr ⟨n, hn, by rw [← hd]⟩

theorem edges_source_closed (nodes : List DagNode) (hc : DepsClosed nodes)
    (e : String × String) (h : e ∈ edgesList nodes) : e.1 ∈ idsOf nodes := by
  rw [edgesList] at h
  rcases List.mem_flatMap.mp h with ⟨n, hn, he⟩
  rcases List.mem_map.mp he with ⟨d, hd, hde⟩
  have : e.1 = d := by rw [← hde]
  rw [this]
  exact hc n hn d hd

theorem mem_edgesList_iff (nodes : List DagNode) (u v : String) :
    (u, v) ∈ edgesList nodes ↔ EdgeIn nodes u v := by
  rw [edgesList, EdgeIn]
  constructor
  · intro h
    rcases List.mem_flatMap.mp h with ⟨n, hn, he⟩
    rcases List.mem_map.mp he with ⟨d, hd, hde⟩
    have h1 : d = u := congrArg Prod.fst hde
    have h2 : n.id = v := congrArg Prod.snd hde
    exact ⟨n, hn, h2, h1 ▸ hd⟩
  · intro ⟨n, hn, hid, hdep⟩
    apply List.mem_flatMap.mpr
    exact ⟨n, hn, List.mem_map.mpr ⟨u, hdep, by rw [hid]⟩⟩

theorem gAdj_spec (nodes : List DagNode) :
    (∀ u, adjL (gAdj nodes) u
      = ((edgesList nodes).filter (fun x => x.1 == u)).map Prod.snd) ∧
    (∀ v, Fleet.lookupA (gInd nodes) v
      = if v ∈ idsOf nodes then some (gTot nodes v) else none) ∧
    (Swarm.keysOf (gInd nodes)).Nodup := by
  have hinit := initInv nodes ([], [], []) []
    (fun u => by rw [Fleet.lookupA]; rw [if_neg (List.not_mem_nil u)])
    (fun v => by rw [Fleet.lookupA]; rw [if_neg (List.not_mem_nil v)])
    (by simp [Swarm.keysOf])
  simp only [List.nil_append] at hinit
  have hedge := edgeInv (edgesList nodes)
    (nodes.foldl (fun maps n =>
      (Fleet.insertOrA maps.1 n.id [], Fleet.insertOrA maps.2.1 n.id 0,
        Fleet.insertRepA maps.2.2 n.id n)) ([], [], []))
    [] (idsOf nodes)
    (fun u => by
      rw [adjL, hinit.1 u]
      by_cases h : u ∈ idsOf nodes
      · rw [if_pos h]
        rfl
      · rw [if_neg h]
        rfl)
    (fun v => by
      rw [hinit.2.1 v]
      by_cases h : v ∈ idsOf nodes
      · rw [if_pos h, if_pos h]
        rfl
      · rw [if_neg h, if_neg h])
    hinit.2.2
    (fun e he => edges_target_mem nodes e he)
  simp only [List.nil_append] at hedge
  rw [gAdj, gInd, build_graph_edges]
  refine ⟨hedge.1, fun v => ?_, hedge.2.2⟩
  rw [hedge.2.1 v, gTot]

theorem gAdjL_eq (nodes : List DagNode) (u : String) :
    adjL (gAdj nodes) u
      = ((edgesList nodes).filter (fun x => x.1 == u)).map Prod.snd :=
  (gAdj_spec nodes).1 u

theorem gInd_lookup (nodes : List DagNode) (v : String) :
    Fleet.lookupA (gInd nodes) v
      = if v ∈ idsOf nodes then some (gTot nodes v) else none :=
  (gAdj_spec nodes).2.1 v

theorem gInd_keys_nodup (nodes : List DagNode) :
    (Swarm.keysOf (gInd nodes)).Nodup :=
  (gAdj_spec nodes).2.2

theorem mem_adjL_iff (nodes : List DagNode) (u v : String) :
    v ∈ adjL (gAdj nodes) u ↔ EdgeIn nodes u v := by
  rw [gAdjL_eq, ← mem_edgesList_iff]
  constructor
  · intro h
    rcases List.mem_map.mp h with ⟨e, he, hev⟩
    have hf := List.mem_filter.mp he
    have h1 : e.1 = u := beq_iff_eq.mp hf.2
    have : e = (u, v) := by
      apply Prod.ext
      · exact h1
      · exact hev
    rw [← this]
    exact hf.1
  · intro h
    apply List.mem_map.mpr
    exact ⟨(u, v), List.mem_filter.mpr ⟨h, beq_iff_eq.mpr rfl⟩, rfl⟩

theorem gCoh (nodes : List DagNode) : Coh (gAdj nodes) (gTot nodes) := by
  intro v S hS
  rw [sumOcc]
  have hmap : S.map (fun u => occ (gAdj nodes) u v)
      = S.map (fun u =>
          (((edgesList nodes).filter (fun x => x.1 == u)).map Prod.snd).count v) := by
    apply List.map_congr_left
    intro u _
    rw [occ, gAdjL_eq]
  rw [hmap, gTot]
  exact partition_le v (edgesList nodes) S hS

theorem gInd_mem_keys (nodes : List DagNode) (v : String) :
    v ∈ Swarm.keysOf (gInd nodes) ↔ v ∈ idsOf nodes := by
  constructor
  · intro h
    rcases Fleet.lookupA_isSome_of_mem_keys _ _ h with ⟨w, hw⟩
    rw [gInd_lookup] at hw
    by_cases hm : v ∈ idsOf nodes
    · exact hm
    · rw [if_neg hm] at hw
      exact Option.noConfusion hw
  · intro h
    by_contra hk
    have : Fleet.lookupA (gInd nodes) v = none :=
      (Swarm.lookupA_eq_none_iff _ _).mpr hk
    rw [gInd_lookup, if_pos h] at this
    exact Option.noConfusion this

end Dag

namespace Dag

/-! ### The Kahn loop invariant -/

theorem sumOcc_append (adj : List (String × List String)) (S T : List String)
    (v : String) : sumOcc adj (S ++ T) v = sumOcc adj S v + sumOcc adj T v := by
  simp [sumOcc]

theorem sumOcc_singleton (adj : List (String × List String)) (u v : String) :
    sumOcc adj [u] v = occ adj u v := by
  simp [sumOcc]

theorem stepNode_eq (adj : List (String × List String))
    (st : List String × List (String × Nat) × List String) (id : String) :
    stepNode adj st id = (adjL adj id).foldl nbStep (st.1 ++ [id], st.2.1, st.2.2) := rfl

theorem nbStep_none (st : List String × List (String × Nat) × List String)
    (nb : String) (h : Fleet.lookupA st.2.1 nb = none) : nbStep st nb = st := by
  rw [nbStep, h]

theorem nbStep_some (st : List String × List (String × Nat) × List String)
    (nb : String) (d : Nat) (h : Fleet.lookupA st.2.1 nb = some d) :
    nbStep st nb = (st.1, Fleet.setA st.2.1 nb (d - 1),
      if d = 1 then st.2.2 ++ [nb] else st.2.2) := by
  rw [nbStep, h]

theorem nbStep_inv
    (adj : List (String × List String)) (tot : String → Nat) (dom : List String)
    (order : List String) (u : String) (pending pre rest : List String) (nb : String)
    (ind : List (String × Nat)) (nq : List String)
    (hcoh : Coh adj tot)
    (hord : order.Nodup) (huo : u ∉ order)
    (hpos : ∀ v ∈ order, ∀ w, v ∈ adjL adj w →
      w ∈ order ∧ order.indexOf w < order.indexOf v)
    (hadj : adjL adj u = pre ++ nb :: rest)
    (hinv : NbInv adj tot dom order u pending pre ind nq) :
    ∃ ind' nq', nbStep (order ++ [u], ind, nq) nb = (order ++ [u], ind', nq')
      ∧ NbInv adj tot dom order u pending (pre ++ [nb]) ind' nq'
      ∧ nq'.length + degSum ind' ≤ nq.length + degSum ind := by
  cases hl : Fleet.lookupA ind nb with
  | none =>
      refine ⟨ind, nq, nbStep_none _ _ hl, ?_, le_refl _⟩
      have hcount : ∀ v d, Fleet.lookupA ind v = some d →
          (pre ++ [nb]).count v = pre.count v := by
        intro v d hv
        have hne : nb ≠ v := by
          intro he
          rw [he, hv] at hl
          exact Option.noConfusion hl
        have h0 : List.count v [nb] = 0 := by
          rw [List.count_eq_zero]
          intro hm
          exact hne (List.mem_singleton.mp hm).symm
        rw [List.count_append, h0]
        omega
      exact { hinv with
        deg_eq := fun v d hv => by
          rw [hcount v d hv]
          exact hinv.deg_eq v d hv }
  | some d =>
      have hnbdom : nb ∈ dom := by
        rw [← hinv.ind_keys]
        exact Fleet.mem_keys_of_lookupA _ _ _ hl
      have hdeg := hinv.deg_eq nb d hl
      have hS : (order ++ [u]).Nodup := by
        rw [List.nodup_append]
        exact ⟨hord, List.nodup_singleton u, fun a ha hb =>
          (List.mem_singleton.mp hb ▸ huo : a ∈ order → False) ha |>.elim⟩
      have hoccu : pre.count nb + 1 ≤ occ adj u nb := by
        rw [occ, hadj, List.count_append, List.count_cons_self]
        omega
      have hd1 : 1 ≤ d := by
        have hc := hcoh nb (order ++ [u]) hS
        rw [sumOcc_append, sumOcc_singleton] at hc
        omega
      have hnbord : nb ∉ order := by
        intro hmem
        have hu2 : nb ∈ adjL adj u := by
          rw [hadj]
          exact List.mem_append_right _ (List.mem_cons_self nb rest)
        exact huo (hpos nb hmem u hu2).1
      have hnbu : nb ≠ u := by
        intro he
        rw [he, hinv.u_zero] at hl
        injection hl with hl
        omega
      have hnbpend : nb ∉ pending := by
        intro hmem
        rw [hinv.pending_zero nb hmem] at hl
        injection hl with hl
        omega
      have hnbnq : nb ∉ nq := by
        intro hmem
        rw [hinv.nq_zero nb hmem] at hl
        injection hl with hl
        omega
      refine ⟨Fleet.setA ind nb (d - 1),
        if d = 1 then nq ++ [nb] else nq,
        nbStep_some _ _ d hl, ?_, ?_⟩
      · have hkeys : Swarm.keysOf (Fleet.setA ind nb (d - 1)) = Swarm.keysOf ind :=
          Fleet.keysOf_A_setA ind nb (d - 1)
        have hlook : ∀ v, v ≠ nb →
            Fleet.lookupA (Fleet.setA ind nb (d - 1)) v = Fleet.lookupA ind v :=
          fun v hv => Fleet.lookupA_setA_ne _ _ _ _ (fun he => hv he.symm)
        have hlooknb : Fleet.lookupA (Fleet.setA ind nb (d - 1)) nb = some (d - 1) :=
          Fleet.lookupA_setA_some _ _ _ _ hl
        refine
          { ind_keys := fun v => by rw [hkeys]; exact hinv.ind_keys v
            ind_nodup := by rw [hkeys]; exact hinv.ind_nodup
            u_zero := by rw [hlook u (fun he => hnbu he.symm)]; exact hinv.u_zero
            pending_nodup := hinv.pending_nodup
            nq_nodup := ?_
            pending_order := hinv.pending_order
            nq_order := ?_
            nq_pending := ?_
            pending_dom := hinv.pending_dom
            nq_dom := ?_
            deg_eq := ?_
            pending_zero := fun v hv => by
              rw [hlook v (fun he => hnbpend (he ▸ hv))]
              exact hinv.pending_zero v hv
            nq_zero := ?_
            pending_preds := hinv.pending_preds
            nq_preds := ?_
            zero_placed := ?_ }
        · by_cases h1 : d = 1
          · rw [if_pos h1, List.nodup_append]
            exact ⟨hinv.nq_nodup, List.nodup_singleton nb, fun a ha hb =>
              (List.mem_singleton.mp hb ▸ hnbnq : a ∈ nq → False) ha |>.elim⟩
          · rw [if_neg h1]
            exact hinv.nq_nodup
        · intro v hv
          by_cases h1 : d = 1
          · rw [if_pos h1] at hv
            rcases List.mem_append.mp hv with h | h
            · exact hinv.nq_order v h
            · rw [List.mem_singleton.mp h]
              exact ⟨hnbord, hnbu⟩
          · rw [if_neg h1] at hv
            exact hinv.nq_order v hv
        · intro v hv
          by_cases h1 : d = 1
          · rw [if_pos h1] at hv
            rcases List.mem_append.mp hv with h | h
            · exact hinv.nq_pending v h
            · rw [List.mem_singleton.mp h]
              exact hnbpend
          · rw [if_neg h1] at hv
            exact hinv.nq_pending v hv
        · intro v hv
          by_cases h1 : d = 1
          · rw [if_pos h1] at hv
            rcases List.mem_append.mp hv with h | h
            · exact hinv.nq_dom v h
            · rw [List.mem_singleton.mp h]
              exact hnbdom
          · rw [if_neg h1] at hv
            exact hinv.nq_dom v hv
        · intro v d' hv
          by_cases hveq : v = nb
          · rw [hveq]
            rw [hveq, hlooknb] at hv
            injection hv with hv
            rw [← hv, List.count_append, List.count_singleton,
              if_pos (beq_self_eq_true nb)]
            omega
          · rw [hlook v hveq] at hv
            have := hinv.deg_eq v d' hv
            have h0 : List.count v [nb] = 0 := by
              rw [List.count_eq_zero]
              intro hm
              exact hveq (List.mem_singleton.mp hm)
            rw [List.count_append, h0]
            omega
        · intro v hv
          by_cases h1 : d = 1
          · rw [if_pos h1] at hv
            rcases List.mem_append.mp hv with h | h
            · rw [hlook v (fun he => hnbnq (he ▸ h))]
              exact hinv.nq_zero v h
            · rw [List.mem_singleton.mp h, hlooknb, h1]
          · rw [if_neg h1] at hv
            rw [hlook v (fun he => hnbnq (he ▸ hv))]
            exact hinv.nq_zero v hv
        · intro v hv w hw
          by_cases h1 : d = 1
          · rw [if_pos h1] at hv
            rcases List.mem_append.mp hv with h | h
            · exact hinv.nq_preds v h w hw
            · rw [List.mem_singleton.mp h] at hw
              by_contra hcon
              push_neg at hcon
              have hwo : w ∉ order := hcon.1
              have hwu : w ≠ u := hcon.2
              have hSw : ((order ++ [u]) ++ [w]).Nodup := by
                rw [List.nodup_append]
                refine ⟨hS, List.nodup_singleton w, fun a ha hb => ?_⟩
                rw [List.mem_singleton.mp hb] at ha
                rcases List.mem_append.mp ha with h' | h'
                · exact hwo h'
                · exact hwu (List.mem_singleton.mp h')
              have hc := hcoh nb ((order ++ [u]) ++ [w]) hSw
              rw [sumOcc_append, sumOcc_append, sumOcc_singleton,
                sumOcc_singleton] at hc
              have hoccw : 1 ≤ occ adj w nb := by
                rw [occ]
                exact List.count_pos_iff.mpr hw
              omega
          · rw [if_neg h1] at hv
            exact hinv.nq_preds v hv w hw
        · intro v hvdom hv
          by_cases hveq : v = nb
          · subst hveq
            rw [hlooknb] at hv
            injection hv with hv
            have h1 : d = 1 := by omega
            right; right; right
            rw [if_pos h1]
            exact List.mem_append_right _ (List.mem_singleton.mpr rfl)
          · rw [hlook v hveq] at hv
            rcases hinv.zero_placed v hvdom hv with h | h | h | h
            · exact Or.inl h
            · exact Or.inr (Or.inl h)
            · exact Or.inr (Or.inr (Or.inl h))
            · refine Or.inr (Or.inr (Or.inr ?_))
              by_cases h1 : d = 1
              · rw [if_pos h1]
                exact List.mem_append_left _ h
              · rw [if_neg h1]
                exact h
      · have hds := Fleet.degSum_setA ind nb (d - 1 + 1) (d - 1) (by
          rw [Nat.sub_add_cancel hd1]
          exact hl)
        rw [degSum, degSum]
        by_cases h1 : d = 1
        · rw [if_pos h1, List.length_append, List.length_singleton]
          omega
        · rw [if_neg h1]
          omega

end Dag

namespace Dag

theorem nbFold_inv
    (adj : List (String × List String)) (tot : String → Nat) (dom : List String)
    (order : List String) (u : String) (pending : List String)
    (hcoh : Coh adj tot)
    (hord : order.Nodup) (huo : u ∉ order)
    (hpos : ∀ v ∈ order, ∀ w, v ∈ adjL adj w →
      w ∈ order ∧ order.indexOf w < order.indexOf v) :
    ∀ (rest pre : List String) (ind : List (String × Nat)) (nq : List String),
    adjL adj u = pre ++ rest →
    NbInv adj tot dom order u pending pre ind nq →
    ∃ ind' nq', rest.foldl nbStep (order ++ [u], ind, nq) = (order ++ [u], ind', nq')
      ∧ NbInv adj tot dom order u pending (pre ++ rest) ind' nq'
      ∧ nq'.length + degSum ind' ≤ nq.length + degSum ind := by
  intro rest
  induction rest with
  | nil =>
      intro pre ind nq hadj hinv
      refine ⟨ind, nq, rfl, ?_, le_refl _⟩
      rw [List.append_nil]
      exact hinv
  | cons nb rest ih =>
      intro pre ind nq hadj hinv
      rcases nbStep_inv adj tot dom order u pending pre rest nb ind nq
        hcoh hord huo hpos hadj hinv with ⟨ind1, nq1, hstep, hinv1, hm1⟩
      have hadj' : adjL adj u = (pre ++ [nb]) ++ rest := by
        rw [hadj, List.append_assoc]
        rfl
      rcases ih (pre ++ [nb]) ind1 nq1 hadj' hinv1 with ⟨ind2, nq2, hfold, hinv2, hm2⟩
      refine ⟨ind2, nq2, ?_, ?_, le_trans hm2 hm1⟩
      · rw [List.foldl_cons, hstep, hfold]
      · have : (pre ++ [nb]) ++ rest = pre ++ nb :: rest := by
          rw [List.append_assoc]
          rfl
        rw [← this]
        exact hinv2

theorem stepNode_inv
    (adj : List (String × List String)) (tot : String → Nat) (dom : List String)
    (order : List String) (u : String) (pending : List String)
    (ind : List (String × Nat)) (nq : List String)
    (hcoh : Coh adj tot)
    (hinv : LoopInv adj tot dom order (u :: pending) ind nq) :
    ∃ ind' nq', stepNode adj (order, ind, nq) u = (order ++ [u], ind', nq')
      ∧ LoopInv adj tot dom (order ++ [u]) pending ind' nq'
      ∧ nq'.length + degSum ind' ≤ nq.length + degSum ind := by
  have humem : u ∈ u :: pending := List.mem_cons_self u pending
  have huo : u ∉ order := hinv.pending_order u humem
  have hu0 : Fleet.lookupA ind u = some 0 := hinv.pending_zero u humem
  have hupend : u ∉ pending := (List.nodup_cons.mp hinv.pending_nodup).1
  have hord' : (order ++ [u]).Nodup := by
    rw [List.nodup_append]
    exact ⟨hinv.order_nodup, List.nodup_singleton u, fun a ha hb =>
      (List.mem_singleton.mp hb ▸ huo : a ∈ order → False) ha |>.elim⟩
  have hidxu : (order ++ [u]).indexOf u = order.length := by
    rw [List.indexOf_append_of_not_mem huo]
    simp
  have hpos' : ∀ v ∈ order ++ [u], ∀ w, v ∈ adjL adj w →
      w ∈ order ++ [u] ∧ (order ++ [u]).indexOf w < (order ++ [u]).indexOf v := by
    intro v hv w hw
    rcases List.mem_append.mp hv with hvo | hvu
    · rcases hinv.order_pos v hvo w hw with ⟨hwo, hlt⟩
      refine ⟨List.mem_append_left _ hwo, ?_⟩
      rw [List.indexOf_append_of_mem hwo, List.indexOf_append_of_mem hvo]
      exact hlt
    · rw [List.mem_singleton.mp hvu] at hw ⊢
      have hwo : w ∈ order := hinv.pending_preds u humem w hw
      refine ⟨List.mem_append_left _ hwo, ?_⟩
      rw [List.indexOf_append_of_mem hwo, hidxu]
      exact List.indexOf_lt_length.mpr hwo
  have hnb0 : NbInv adj tot dom order u pending [] ind nq :=
    { ind_keys := hinv.ind_keys
      ind_nodup := hinv.ind_nodup
      u_zero := hu0
      pending_nodup := (List.nodup_cons.mp hinv.pending_nodup).2
      nq_nodup := hinv.nq_nodup
      pending_order := fun v hv =>
        ⟨hinv.pending_order v (List.mem_cons_of_mem u hv),
          fun he => hupend (he ▸ hv)⟩
      nq_order := fun v hv =>
        ⟨hinv.nq_order v hv,
          fun he => hinv.nq_pending v hv (he ▸ humem)⟩
      nq_pending := fun v hv hp =>
        hinv.nq_pending v hv (List.mem_cons_of_mem u hp)
      pending_dom := fun v hv => hinv.pending_dom v (List.mem_cons_of_mem u hv)
      nq_dom := hinv.nq_dom
      deg_eq := fun v dd hv => by
        rw [List.count_nil, Nat.add_zero]
        exact hinv.deg_eq v dd hv
      pending_zero := fun v hv => hinv.pending_zero v (List.mem_cons_of_mem u hv)
      nq_zero := hinv.nq_zero
      pending_preds := fun v hv w hw =>
        hinv.pending_preds v (List.mem_cons_of_mem u hv) w hw
      nq_preds := fun v hv w hw => Or.inl (hinv.nq_preds v hv w hw)
      zero_placed := fun v hvdom hv => by
        rcases hinv.zero_placed v hvdom hv with h | h | h
        · exact Or.inl h
        · rcases List.mem_cons.mp h with h' | h'
          · exact Or.inr (Or.inl h')
          · exact Or.inr (Or.inr (Or.inl h'))
        · exact Or.inr (Or.inr (Or.inr h)) }
  rcases nbFold_inv adj tot dom order u pending hcoh hinv.order_nodup huo
    hinv.order_pos (adjL adj u) [] ind nq (List.nil_append _).symm hnb0
    with ⟨ind', nq', hfold, hinvf, hm⟩
  refine ⟨ind', nq', ?_, ?_, hm⟩
  · rw [stepNode_eq]
    exact hfold
  · have hsum : ∀ v, sumOcc adj (order ++ [u]) v
        = sumOcc adj order v + (adjL adj u).count v := by
      intro v
      rw [sumOcc_append, sumOcc_singleton, occ]
    exact
      { ind_keys := hinvf.ind_keys
        ind_nodup := hinvf.ind_nodup
        order_nodup := hord'
        pending_nodup := hinvf.pending_nodup
        nq_nodup := hinvf.nq_nodup
        pending_order := fun v hv => by
          intro hmem
          rcases List.mem_append.mp hmem with h | h
          · exact (hinvf.pending_order v hv).1 h
          · exact (hinvf.pending_order v hv).2 (List.mem_singleton.mp h)
        nq_order := fun v hv => by
          intro hmem
          rcases List.mem_append.mp hmem with h | h
          · exact (hinvf.nq_order v hv).1 h
          · exact (hinvf.nq_order v hv).2 (List.mem_singleton.mp h)
        nq_pending := hinvf.nq_pending
        order_dom := fun v hv => by
          rcases List.mem_append.mp hv with h | h
          · exact hinv.order_dom v h
          · rw [List.mem_singleton.mp h]
            exact hinv.pending_dom u humem
        pending_dom := hinvf.pending_dom
        nq_dom := hinvf.nq_dom
        deg_eq := fun v dd hv => by
          have := hinvf.deg_eq v dd hv
          rw [List.nil_append] at this
          rw [hsum v]
          omega
        pending_zero := hinvf.pending_zero
        nq_zero := hinvf.nq_zero
        order_pos := hpos'
        pending_preds := fun v hv w hw =>
          List.mem_append_left _ (hinvf.pending_preds v hv w hw)
        nq_preds := fun v hv w hw => by
          rcases hinvf.nq_preds v hv w hw with h | h
          · exact List.mem_append_left _ h
          · rw [h]
            exact List.mem_append_right _ (List.mem_singleton.mpr rfl)
        zero_placed := fun v hvdom hv => by
          rcases hinvf.zero_placed v hvdom hv with h | h | h | h
          · exact Or.inl (List.mem_append_left _ h)
          · exact Or.inl (h ▸ List.mem_append_right _ (List.mem_singleton.mpr rfl))
          · exact Or.inr (Or.inl h)
          · exact Or.inr (Or.inr h) }

end Dag

namespace Dag

theorem kahnLoop_zero (adj : List (String × List String))
    (node_map : List (String × DagNode)) (queue : List String)
    (indeg : List (String × Nat)) (order : List String) (levels : List (List String)) :
    kahnLoop adj node_map 0 queue indeg order levels = (order, levels) := rfl

theorem kahnLoop_empty (adj : List (String × List String))
    (node_map : List (String × DagNode)) (fuel : Nat)
    (indeg : List (String × Nat)) (order : List String) (levels : List (List String)) :
    kahnLoop adj node_map (fuel + 1) [] indeg order levels = (order, levels) := by
  rw [kahnLoop, if_pos rfl]

theorem kahnLoop_succ (adj : List (String × List String))
    (node_map : List (String × DagNode)) (fuel : Nat) (queue : List String)
    (indeg : List (String × Nat)) (order : List String) (levels : List (List String))
    (h : queue ≠ []) :
    kahnLoop adj node_map (fuel + 1) queue indeg order levels =
      kahnLoop adj node_map fuel
        ((List.insertionSort (levelLE node_map) queue).foldl
          (stepNode adj) (order, indeg, [])).2.2
        ((List.insertionSort (levelLE node_map) queue).foldl
          (stepNode adj) (order, indeg, [])).2.1
        ((List.insertionSort (levelLE node_map) queue).foldl
          (stepNode adj) (order, indeg, [])).1
        (levels ++ [List.insertionSort (levelLE node_map) queue]) := by
  rw [kahnLoop, if_neg h]

theorem levelFold_inv
    (adj : List (String × List String)) (tot : String → Nat) (dom : List String)
    (hcoh : Coh adj tot) :
    ∀ (pending order : List String) (ind : List (String × Nat)) (nq : List String),
    LoopInv adj tot dom order pending ind nq →
    ∃ ind' nq', pending.foldl (stepNode adj) (order, ind, nq)
        = (order ++ pending, ind', nq')
      ∧ LoopInv adj tot dom (order ++ pending) [] ind' nq'
      ∧ nq'.length + degSum ind' ≤ nq.length + degSum ind := by
  intro pending
  induction pending with
  | nil =>
      intro order ind nq hinv
      refine ⟨ind, nq, ?_, ?_, le_refl _⟩
      · rw [List.foldl_nil, List.append_nil]
      · rw [List.append_nil]
        exact hinv
  | cons u pending ih =>
      intro order ind nq hinv
      rcases stepNode_inv adj tot dom order u pending ind nq hcoh hinv
        with ⟨ind1, nq1, hstep, hinv1, hm1⟩
      rcases ih (order ++ [u]) ind1 nq1 hinv1 with ⟨ind2, nq2, hfold, hinv2, hm2⟩
      refine ⟨ind2, nq2, ?_, ?_, le_trans hm2 hm1⟩
      · rw [List.foldl_cons, hstep, hfold, List.append_assoc]
        rfl
      · rw [List.append_assoc, List.singleton_append] at hinv2
        exact hinv2

theorem loop_to_kahn
    (adj : List (String × List String)) (tot : String → Nat) (dom : List String)
    (order : List String) (ind : List (String × Nat)) (nq : List String)
    (h : LoopInv adj tot dom order [] ind nq) : KahnInv adj tot dom order nq ind :=
  { ind_keys := h.ind_keys
    ind_nodup := h.ind_nodup
    order_nodup := h.order_nodup
    queue_nodup := h.nq_nodup
    disj := h.nq_order
    order_dom := h.order_dom
    queue_dom := h.nq_dom
    deg_eq := h.deg_eq
    queue_zero := h.nq_zero
    order_pos := h.order_pos
    queue_preds := h.nq_preds
    zero_placed := fun v hd hv => by
      rcases h.zero_placed v hd hv with h1 | h1 | h1
      · exact Or.inl h1
      · exact absurd h1 (List.not_mem_nil v)
      · exact Or.inr h1 }

theorem kahn_to_loop
    (adj : List (String × List String)) (tot : String → Nat) (dom : List String)
    (node_map : List (String × DagNode)) (order queue : List String)
    (ind : List (String × Nat))
    (h : KahnInv adj tot dom order queue ind) :
    LoopInv adj tot dom order
      (List.insertionSort (levelLE node_map) queue) ind [] := by
  have hp : (List.insertionSort (levelLE node_map) queue).Perm queue :=
    List.perm_insertionSort _ _
  have hmem : ∀ v, v ∈ List.insertionSort (levelLE node_map) queue ↔ v ∈ queue :=
    fun v => hp.mem_iff
  exact
    { ind_keys := h.ind_keys
      ind_nodup := h.ind_nodup
      order_nodup := h.order_nodup
      pending_nodup := hp.nodup_iff.mpr h.queue_nodup
      nq_nodup := List.nodup_nil
      pending_order := fun v hv => h.disj v ((hmem v).mp hv)
      nq_order := fun v hv => absurd hv (List.not_mem_nil v)
      nq_pending := fun v hv => absurd hv (List.not_mem_nil v)
      order_dom := h.order_dom
      pending_dom := fun v hv => h.queue_dom v ((hmem v).mp hv)
      nq_dom := fun v hv => absurd hv (List.not_mem_nil v)
      deg_eq := h.deg_eq
      pending_zero := fun v hv => h.queue_zero v ((hmem v).mp hv)
      nq_zero := fun v hv => absurd hv (List.not_mem_nil v)
      order_pos := h.order_pos
      pending_preds := fun v hv w hw => h.queue_preds v ((hmem v).mp hv) w hw
      nq_preds := fun v hv => absurd hv (List.not_mem_nil v)
      zero_placed := fun v hd hv => by
        rcases h.zero_placed v hd hv with h1 | h1
        · exact Or.inl h1
        · exact Or.inr (Or.inl ((hmem v).mpr h1)) }

theorem kahnLoop_inv
    (adj : List (String × List String)) (node_map : List (String × DagNode))
    (tot : String → Nat) (dom : List String) (hcoh : Coh adj tot) :
    ∀ (fuel : Nat) (queue : List String) (ind : List (String × Nat))
      (order : List String) (levels : List (List String)),
    KahnInv adj tot dom order queue ind →
    queue.length + degSum ind < fuel →
    ∃ ind', KahnInv adj tot dom
      (kahnLoop adj node_map fuel queue ind order levels).1 [] ind' := by
  intro fuel
  induction fuel with
  | zero =>
      intro queue ind order levels hinv hm
      exact absurd hm (Nat.not_lt_zero _)
  | succ fuel ih =>
      intro queue ind order levels hinv hm
      by_cases hq : queue = []
      · subst hq
        rw [kahnLoop_empty]
        exact ⟨ind, hinv⟩
      · have hloop := kahn_to_loop adj tot dom node_map order queue ind hinv
        rcases levelFold_inv adj tot dom hcoh
          (List.insertionSort (levelLE node_map) queue) order ind [] hloop
          with ⟨ind1, nq1, hfold, hinv1, hm1⟩
        have hkahn1 := loop_to_kahn adj tot dom _ ind1 nq1 hinv1
        have hlen : 1 ≤ queue.length := by
          rcases queue with _ | ⟨x, xs⟩
          · exact absurd rfl hq
          · rw [List.length_cons]
            omega
        have hm' : nq1.length + degSum ind1 < fuel := by
          rw [List.length_nil] at hm1
          omega
        have hres := ih nq1 ind1
          (order ++ List.insertionSort (levelLE node_map) queue)
          (levels ++ [List.insertionSort (levelLE node_map) queue]) hkahn1 hm'
        rw [kahnLoop_succ adj node_map fuel queue ind order levels hq, hfold]
        exact hres

end Dag

namespace Dag

theorem sumOcc_nil (adj : List (String × List String)) (v : String) :
    sumOcc adj [] v = 0 := rfl

theorem topo_inv (nodes : List DagNode) :
    ∃ ind', KahnInv (gAdj nodes) (gTot nodes) (idsOf nodes)
      (topological_sort nodes).order [] ind' := by
  have hq0 : ∀ v ∈ ((gInd nodes).filter (fun p => p.2 == 0)).map Prod.fst,
      Fleet.lookupA (gInd nodes) v = some 0 := by
    intro v hv
    rcases List.mem_map.mp hv with ⟨p, hp, hpv⟩
    have hf := List.mem_filter.mp hp
    have h2 : p.2 = 0 := beq_iff_eq.mp hf.2
    have hpm : (v, 0) ∈ gInd nodes := by
      have hpe : p = (v, 0) := by
        apply Prod.ext
        · exact hpv
        · exact h2
      rw [← hpe]
      exact hf.1
    exact Swarm.lookupA_of_mem_nodup _ _ _ hpm (gInd_keys_nodup nodes)
  have hqdom : ∀ v ∈ ((gInd nodes).filter (fun p => p.2 == 0)).map Prod.fst,
      v ∈ idsOf nodes := by
    intro v hv
    have h0 := hq0 v hv
    rw [gInd_lookup] at h0
    by_cases hm : v ∈ idsOf nodes
    · exact hm
    · rw [if_neg hm] at h0
      exact Option.noConfusion h0
  have hinit : KahnInv (gAdj nodes) (gTot nodes) (idsOf nodes) []
      (((gInd nodes).filter (fun p => p.2 == 0)).map Prod.fst) (gInd nodes) :=
    { ind_keys := gInd_mem_keys nodes
      ind_nodup := gInd_keys_nodup nodes
      order_nodup := List.nodup_nil
      queue_nodup :=
        (List.Sublist.map Prod.fst (List.filter_sublist _)).nodup (gInd_keys_nodup nodes)
      disj := fun v _ => List.not_mem_nil v
      order_dom := fun v hv => absurd hv (List.not_mem_nil v)
      queue_dom := hqdom
      deg_eq := fun v d hv => by
        rw [gInd_lookup] at hv
        by_cases hm : v ∈ idsOf nodes
        · rw [if_pos hm] at hv
          injection hv with hv
          rw [sumOcc_nil]
          omega
        · rw [if_neg hm] at hv
          exact Option.noConfusion hv
      queue_zero := hq0
      order_pos := fun v hv => absurd hv (List.not_mem_nil v)
      queue_preds := fun v hv u hw => by
        exfalso
        have h0 := hq0 v hv
        rw [gInd_lookup] at h0
        by_cases hm : v ∈ idsOf nodes
        · rw [if_pos hm] at h0
          injection h0 with h0
          have h1 := gCoh nodes v [u] (List.nodup_singleton u)
          rw [sumOcc_singleton] at h1
          have h2 : 1 ≤ occ (gAdj nodes) u v := by
            rw [occ]
            exact List.count_pos_iff.mpr hw
          omega
        · rw [if_neg hm] at h0
          exact Option.noConfusion h0
      zero_placed := fun v hm hv => by
        right
        rw [gInd_lookup, if_pos hm] at hv
        injection hv with hv
        have hlk : Fleet.lookupA (gInd nodes) v = some 0 := by
          rw [gInd_lookup, if_pos hm, hv]
        have hpm : (v, 0) ∈ gInd nodes := Fleet.lookupA_mem _ _ _ hlk
        apply List.mem_map.mpr
        exact ⟨(v, 0), List.mem_filter.mpr ⟨hpm, beq_self_eq_true 0⟩, rfl⟩ }
  rcases kahnLoop_inv (gAdj nodes) (gMap nodes) (gTot nodes) (idsOf nodes)
    (gCoh nodes)
    ((((gInd nodes).filter (fun p => p.2 == 0)).map Prod.fst).length
      + degSum (gInd nodes) + 1)
    (((gInd nodes).filter (fun p => p.2 == 0)).map Prod.fst) (gInd nodes) [] []
    hinit (by omega) with ⟨ind', hfin⟩
  exact ⟨ind', hfin⟩

end Dag

namespace Dag

/-! ### Consequences for `topological_sort` -/

theorem edgeIn_target_mem (nodes : List DagNode) (u v : String)
    (h : EdgeIn nodes u v) : v ∈ idsOf nodes := by
  rcases h with ⟨n, hn, hid, _⟩
  rw [idsOf]
  exact List.mem_map.mpr ⟨n, hn, hid⟩

theorem topo_pos (nodes : List DagNode) (u v : String)
    (he : EdgeIn nodes u v) (hv : v ∈ (topological_sort nodes).order) :
    u ∈ (topological_sort nodes).order ∧
      (topological_sort nodes).order.indexOf u
        < (topological_sort nodes).order.indexOf v := by
  rcases topo_inv nodes with ⟨ind', hinv⟩
  exact hinv.order_pos v hv u ((mem_adjL_iff nodes u v).mpr he)

theorem topo_order_nodup (nodes : List DagNode) :
    (topological_sort nodes).order.Nodup := by
  rcases topo_inv nodes with ⟨ind', hinv⟩
  exact hinv.order_nodup

theorem topo_order_dom (nodes : List DagNode) :
    ∀ v ∈ (topological_sort nodes).order, v ∈ idsOf nodes := by
  rcases topo_inv nodes with ⟨ind', hinv⟩
  exact hinv.order_dom

theorem topo_pos_trans (nodes : List DagNode) (u v : String)
    (h : Relation.TransGen (EdgeIn nodes) u v) :
    v ∈ (topological_sort nodes).order →
    u ∈ (topological_sort nodes).order ∧
      (topological_sort nodes).order.indexOf u
        < (topological_sort nodes).order.indexOf v := by
  induction h with
  | single he => exact fun hv => topo_pos nodes _ _ he hv
  | tail hab hbc ih =>
      intro hv
      rcases topo_pos nodes _ _ hbc hv with ⟨hb, hlt⟩
      rcases ih hb with ⟨hu, hlt2⟩
      exact ⟨hu, lt_trans hlt2 hlt⟩

theorem topo_valid_iff (nodes : List DagNode) :
    (topological_sort nodes).is_valid = true ↔
      (topological_sort nodes).order.length = nodes.length :=
  ⟨fun h => of_decide_eq_true h, fun h => decide_eq_true h⟩

theorem cycle_invalid (nodes : List DagNode) (hc : HasCycle nodes) :
    (topological_sort nodes).is_valid = false := by
  rcases hc with ⟨x, hx⟩
  have hxo : x ∉ (topological_sort nodes).order := by
    intro hmem
    rcases topo_pos_trans nodes x x hx hmem with ⟨_, hlt⟩
    exact lt_irrefl _ hlt
  have hxid : x ∈ idsOf nodes := by
    cases hx with
    | single h => exact edgeIn_target_mem nodes x x h
    | tail h1 h2 => exact edgeIn_target_mem nodes _ x h2
  by_cases hvalid : (topological_sort nodes).is_valid = true
  · exfalso
    have hlen : (topological_sort nodes).order.length = nodes.length :=
      (topo_valid_iff nodes).mp hvalid
    have hnodup := topo_order_nodup nodes
    have hdom := topo_order_dom nodes
    have hsub : (topological_sort nodes).order.toFinset ⊆ (idsOf nodes).toFinset := by
      intro a ha
      rw [List.mem_toFinset] at ha ⊢
      exact hdom a ha
    have hcard1 : (topological_sort nodes).order.toFinset.card = nodes.length := by
      rw [List.toFinset_card_of_nodup hnodup, hlen]
    have hcard2 : (idsOf nodes).toFinset.card ≤ nodes.length := by
      have h1 := (idsOf nodes).toFinset_card_le
      have h2 : (idsOf nodes).length = nodes.length := by
        rw [idsOf, List.length_map]
      omega
    have heq := Finset.eq_of_subset_of_card_le hsub (by omega)
    have : x ∈ (topological_sort nodes).order.toFinset := by
      rw [heq]
      exact List.mem_toFinset.mpr hxid
    exact hxo (List.mem_toFinset.mp this)
  · cases h : (topological_sort nodes).is_valid
    · rfl
    · exact absurd h hvalid

theorem invalid_cycle (nodes : List DagNode) (hn : (idsOf nodes).Nodup)
    (hc : DepsClosed nodes)
    (hv : (topological_sort nodes).is_valid = false) : HasCycle nodes := by
  rcases topo_inv nodes with ⟨ind', hinv⟩
  have hlen : (topological_sort nodes).order.length ≠ nodes.length := by
    intro h
    have := (topo_valid_iff nodes).mpr h
    rw [hv] at this
    exact Bool.noConfusion this
  have hstuck_exists : ∃ v, v ∈ idsOf nodes ∧ v ∉ (topological_sort nodes).order := by
    by_contra hno
    push_neg at hno
    have h1 : (idsOf nodes).length ≤ (topological_sort nodes).order.length :=
      nodup_subset_length _ _ hn hno
    have h2 : (topological_sort nodes).order.length ≤ (idsOf nodes).length :=
      nodup_subset_length _ _ hinv.order_nodup hinv.order_dom
    have h3 : (idsOf nodes).length = nodes.length := by
      rw [idsOf, List.length_map]
    exact hlen (by omega)
  have hstep : ∀ v, v ∈ idsOf nodes ∧ v ∉ (topological_sort nodes).order →
      ∃ u, (u ∈ idsOf nodes ∧ u ∉ (topological_sort nodes).order)
        ∧ EdgeIn nodes u v := by
    intro v hv2
    obtain ⟨hvid, hvord⟩ := hv2
    have hvk : v ∈ Swarm.keysOf ind' := (hinv.ind_keys v).mpr hvid
    rcases Fleet.lookupA_isSome_of_mem_keys _ _ hvk with ⟨d, hd⟩
    have hdeq := hinv.deg_eq v d hd
    have hdpos : 1 ≤ d := by
      rcases Nat.eq_zero_or_pos d with h0 | h0
      · subst h0
        rcases hinv.zero_placed v hvid hd with h | h
        · exact absurd h hvord
        · exact absurd h (List.not_mem_nil v)
      · exact h0
    by_contra hno
    have hcov : ∀ e ∈ edgesList nodes, e.2 = v →
        e.1 ∈ (topological_sort nodes).order := by
      intro e he hev
      by_contra heord
      apply hno
      refine ⟨e.1, ⟨edges_source_closed nodes hc e he, heord⟩, ?_⟩
      rw [← mem_edgesList_iff]
      have hee : e = (e.1, v) := by
        rw [← hev]
      rw [← hee]
      exact he
    have heq := partition_eq v (edgesList nodes) (topological_sort nodes).order
      hinv.order_nodup hcov
    have hsum : sumOcc (gAdj nodes) (topological_sort nodes).order v
        = gTot nodes v := by
      rw [sumOcc]
      have hmap : (topological_sort nodes).order.map (fun u => occ (gAdj nodes) u v)
          = (topological_sort nodes).order.map (fun u =>
              (((edgesList nodes).filter (fun x => x.1 == u)).map Prod.snd).count v) := by
        apply List.map_congr_left
        intro u _
        rw [occ, gAdjL_eq]
      rw [hmap, gTot]
      exact heq
    omega
  rcases hstuck_exists with ⟨v0, hv0⟩
  have hstep' : ∀ v : {x // x ∈ idsOf nodes ∧ x ∉ (topological_sort nodes).order},
      ∃ u : {x // x ∈ idsOf nodes ∧ x ∉ (topological_sort nodes).order},
        EdgeIn nodes u.1 v.1 := by
    intro v
    rcases hstep v.1 v.2 with ⟨u, hu, he⟩
    exact ⟨⟨u, hu⟩, he⟩
  choose f hf using hstep'
  have hg : ∀ n, f^[n + 1] ⟨v0, hv0⟩ = f (f^[n] ⟨v0, hv0⟩) :=
    fun n => Function.iterate_succ_apply' f n _
  have hchain : ∀ a b, a < b →
      Relation.TransGen (EdgeIn nodes) (f^[b] ⟨v0, hv0⟩).1 (f^[a] ⟨v0, hv0⟩).1 := by
    intro a b hab
    induction b with
    | zero => omega
    | succ b ih =>
        have h2 : EdgeIn nodes (f^[b + 1] ⟨v0, hv0⟩).1 (f^[b] ⟨v0, hv0⟩).1 := by
          rw [hg b]
          exact hf (f^[b] ⟨v0, hv0⟩)
        rcases Nat.lt_succ_iff_lt_or_eq.mp hab with h | h
        · exact Relation.TransGen.head h2 (ih h)
        · subst h
          exact Relation.TransGen.single h2
  have hmapsto : ∀ n ∈ Finset.range ((idsOf nodes).toFinset.card + 1),
      (f^[n] ⟨v0, hv0⟩).1 ∈ (idsOf nodes).toFinset :=
    fun n _ => List.mem_toFinset.mpr (f^[n] ⟨v0, hv0⟩).2.1
  have hcard : (idsOf nodes).toFinset.card
      < (Finset.range ((idsOf nodes).toFinset.card + 1)).card := by
    rw [Finset.card_range]
    omega
  rcases Finset.exists_ne_map_eq_of_card_lt_of_maps_to hcard hmapsto
    with ⟨i, hi, j, hj, hij, hgij⟩
  rcases Nat.lt_or_ge i j with h | h
  · refine ⟨(f^[j] ⟨v0, hv0⟩).1, ?_⟩
    have hch := hchain i j h
    rw [hgij] at hch
    exact hch
  · have hji : j < i := by omega
    refine ⟨(f^[i] ⟨v0, hv0⟩).1, ?_⟩
    have hch := hchain j i hji
    rw [← hgij] at hch
    exact hch

end Dag

namespace Dag

/-! ### Consequences for `critical_path` -/

theorem critical_path_cases (nodes : List DagNode) :
    critical_path nodes
      = if (topological_sort nodes).is_valid
        then Except.ok { path := (slackPass nodes).1
                         total_duration := totalDur nodes
                         slack := (slackPass nodes).2 }
        else Except.error "Graph contains cycles; cannot compute critical path" := rfl

theorem critical_path_valid (nodes : List DagNode)
    (h : (topological_sort nodes).is_valid = true) :
    critical_path nodes = Except.ok { path := (slackPass nodes).1
                                      total_duration := totalDur nodes
                                      slack := (slackPass nodes).2 } := by
  rw [critical_path_cases, if_pos h]

theorem critical_path_invalid (nodes : List DagNode)
    (h : (topological_sort nodes).is_valid = false) :
    critical_path nodes
      = Except.error "Graph contains cycles; cannot compute critical path" := by
  rw [critical_path_cases, if_neg (by rw [h]; exact Bool.false_ne_true)]

theorem critical_path_error_iff (nodes : List DagNode) :
    critical_path nodes
        = Except.error "Graph contains cycles; cannot compute critical path"
      ↔ (topological_sort nodes).is_valid = false := by
  constructor
  · intro he
    cases h : (topological_sort nodes).is_valid
    · rfl
    · rw [critical_path_valid nodes h] at he
      exact Except.noConfusion he
  · exact critical_path_invalid nodes

theorem topo_valid_complete (nodes : List DagNode)
    (hvalid : (topological_sort nodes).is_valid = true) :
    ∀ v ∈ idsOf nodes, v ∈ (topological_sort nodes).order := by
  intro v hv
  have hlen : (topological_sort nodes).order.length = nodes.length :=
    (topo_valid_iff nodes).mp hvalid
  have hnodup := topo_order_nodup nodes
  have hdom := topo_order_dom nodes
  have hsub : (topological_sort nodes).order.toFinset ⊆ (idsOf nodes).toFinset := by
    intro a ha
    rw [List.mem_toFinset] at ha ⊢
    exact hdom a ha
  have hcard1 : (topological_sort nodes).order.toFinset.card = nodes.length := by
    rw [List.toFinset_card_of_nodup hnodup, hlen]
  have hcard2 : (idsOf nodes).toFinset.card ≤ nodes.length := by
    have h1 := (idsOf nodes).toFinset_card_le
    have h2 : (idsOf nodes).length = nodes.length := by
      rw [idsOf, List.length_map]
    omega
  have heq := Finset.eq_of_subset_of_card_le hsub (by omega)
  have : v ∈ (topological_sort nodes).order.toFinset := by
    rw [heq]
    exact List.mem_toFinset.mpr hv
  exact List.mem_toFinset.mp this

theorem slackStep_foldl (es ls : List (String × ℚ)) :
    ∀ (L : List String) (p0 : List String) (s0 : List NodeSlack),
    L.foldl (slackStep es ls) (p0, s0)
      = (p0 ++ L.filter (nearCritical es ls), s0 ++ L.map (slackRec es ls)) := by
  intro L
  induction L with
  | nil =>
      intro p0 s0
      simp
  | cons x L ih =>
      intro p0 s0
      rw [List.foldl_cons]
      by_cases hc : |(Fleet.lookupA ls x).getD 0 - (Fleet.lookupA es x).getD 0|
          < 1/1000
      · have hstep : slackStep es ls (p0, s0) x = (p0 ++ [x], s0 ++ [slackRec es ls x]) := by
          rw [slackStep, if_pos hc]
          rfl
        have hfil : (x :: L).filter (nearCritical es ls)
            = x :: L.filter (nearCritical es ls) := by
          rw [List.filter_cons, if_pos (by
            rw [nearCritical]
            exact decide_eq_true hc)]
        rw [hstep, ih, hfil, List.map_cons, List.append_assoc, List.append_assoc]
        rfl
      · have hstep : slackStep es ls (p0, s0) x = (p0, s0 ++ [slackRec es ls x]) := by
          rw [slackStep, if_neg hc]
          rfl
        have hfil : (x :: L).filter (nearCritical es ls)
            = L.filter (nearCritical es ls) := by
          rw [List.filter_cons, if_neg (by
            rw [nearCritical]
            simp only [decide_eq_true_eq]
            exact hc)]
        rw [hstep, ih, hfil, List.map_cons, List.append_assoc]
        rfl

theorem slackPass_eq (nodes : List DagNode) :
    slackPass nodes
      = ((topological_sort nodes).order.filter
          (nearCritical (forwardPass nodes).1
            (backwardPass nodes (totalDur nodes)).2),
        (topological_sort nodes).order.map
          (slackRec (forwardPass nodes).1
            (backwardPass nodes (totalDur nodes)).2)) := by
  rw [slackPass, slackStep_foldl]
  rw [List.nil_append, List.nil_append]

end Dag


namespace Dag

/-- The phantom-dependency one-node input has no cycle: its only edge runs
from the absent id "ghost" to "a". -/
theorem phantom_no_cycle :
    ¬ HasCycle ([⟨"a", none, none, some ["ghost"]⟩] : List DagNode) := by
  rintro ⟨x, hx⟩
  have huv : ∀ p q : String,
      EdgeIn ([⟨"a", none, none, some ["ghost"]⟩] : List DagNode) p q →
      p = "ghost" ∧ q = "a" := by
    rintro p q ⟨n, hn, hid, hdep⟩
    have hn' : n = ⟨"a", none, none, some ["ghost"]⟩ := List.mem_singleton.mp hn
    subst hn'
    refine ⟨?_, hid.symm⟩
    simpa using hdep
  have htrans : ∀ p q : String,
      Relation.TransGen
        (EdgeIn ([⟨"a", none, none, some ["ghost"]⟩] : List DagNode)) p q →
      p = "ghost" ∧ q = "a" := by
    intro p q h
    induction h with
    | single h => exact huv _ _ h
    | tail h1 h2 ih => exact ⟨ih.1, (huv _ _ h2).2⟩
  rcases htrans x x hx with ⟨h1, h2⟩
  rw [h1] at h2
  exact absurd h2 (by decide)

end Dag

/-- C8: for every node list, in the order returned by `topological_sort`,
every dependency edge `(u, v)` whose source is listed and whose target has a
position has `position(u) < position(v)` (in particular, on a valid sort all
ids have positions and every listed edge respects them), and `is_valid` is
true if and only if the length of the order equals the number of input
nodes. -/
theorem c8_topological_order_and_validity (nodes : List Dag.DagNode) :
    (∀ u v, Dag.EdgeIn nodes u v → v ∈ (Dag.topological_sort nodes).order →
      u ∈ (Dag.topological_sort nodes).order ∧
        (Dag.topological_sort nodes).order.indexOf u
          < (Dag.topological_sort nodes).order.indexOf v)
    ∧ ((Dag.topological_sort nodes).is_valid = true →
        ∀ v ∈ Dag.idsOf nodes, v ∈ (Dag.topological_sort nodes).order)
    ∧ ((Dag.topological_sort nodes).is_valid = true ↔
        (Dag.topological_sort nodes).order.length = nodes.length) :=
  ⟨fun u v he hv => Dag.topo_pos nodes u v he hv,
    Dag.topo_valid_complete nodes,
    Dag.topo_valid_iff nodes⟩

/-- Witness for C8 at a concrete two-node graph: `b` depends on `a`, the
edge `(a, b)` gets `a` placed before `b` in the returned order. -/
theorem c8_topological_order_witness :
    Dag.EdgeIn [⟨"a", none, none, none⟩, ⟨"b", none, none, some ["a"]⟩] "a" "b"
    ∧ "b" ∈ (Dag.topological_sort
        [⟨"a", none, none, none⟩, ⟨"b", none, none, some ["a"]⟩]).order
    ∧ ("a" ∈ (Dag.topological_sort
        [⟨"a", none, none, none⟩, ⟨"b", none, none, some ["a"]⟩]).order
      ∧ (Dag.topological_sort
          [⟨"a", none, none, none⟩, ⟨"b", none, none, some ["a"]⟩]).order.indexOf "a"
        < (Dag.topological_sort
          [⟨"a", none, none, none⟩, ⟨"b", none, none, some ["a"]⟩]).order.indexOf "b") := by
  have he : Dag.EdgeIn [⟨"a", none, none, none⟩, ⟨"b", none, none, some ["a"]⟩]
      "a" "b" := by
    unfold Dag.EdgeIn
    decide
  have hb : "b" ∈ (Dag.topological_sort
      [⟨"a", none, none, none⟩, ⟨"b", none, none, some ["a"]⟩]).order := by
    decide
  exact ⟨he, hb,
    (c8_topological_order_and_validity
      [⟨"a", none, none, none⟩, ⟨"b", none, none, some ["a"]⟩]).1 "a" "b" he hb⟩

/-- C4 counterexample: a single node depending on an id absent from the node
list ("a phantom dependency") yields `is_valid = false` although the input
graph contains no directed cycle; an incomplete order is therefore not
always caused by a cycle. -/
theorem c4_phantom_dependency_counterexample :
    (Dag.topological_sort
        ([⟨"a", none, none, some ["ghost"]⟩] : List Dag.DagNode)).is_valid = false
    ∧ ¬ Dag.HasCycle ([⟨"a", none, none, some ["ghost"]⟩] : List Dag.DagNode) :=
  ⟨by decide, Dag.phantom_no_cycle⟩

/-- C4 (amended): for node lists with pairwise-distinct ids all of whose
dependencies name listed ids, `is_valid = false` holds if and only if the
input graph contains a directed cycle. -/
theorem c4_invalid_iff_cycle (nodes : List Dag.DagNode)
    (hn : (Dag.idsOf nodes).Nodup) (hc : Dag.DepsClosed nodes) :
    (Dag.topological_sort nodes).is_valid = false ↔ Dag.HasCycle nodes :=
  ⟨Dag.invalid_cycle nodes hn hc, Dag.cycle_invalid nodes⟩

/-- Witness for C4 at the two-cycle `a ↔ b`: distinct ids, closed
dependencies, an invalid sort, and the amended theorem recovers the cycle. -/
theorem c4_invalid_iff_cycle_witness :
    (Dag.idsOf [⟨"a", none, none, some ["b"]⟩, ⟨"b", none, none, some ["a"]⟩]).Nodup
    ∧ Dag.DepsClosed [⟨"a", none, none, some ["b"]⟩, ⟨"b", none, none, some ["a"]⟩]
    ∧ Dag.HasCycle [⟨"a", none, none, some ["b"]⟩, ⟨"b", none, none, some ["a"]⟩] := by
  have hn : (Dag.idsOf
      [⟨"a", none, none, some ["b"]⟩, ⟨"b", none, none, some ["a"]⟩]).Nodup := by
    decide
  have hc : Dag.DepsClosed
      [⟨"a", none, none, some ["b"]⟩, ⟨"b", none, none, some ["a"]⟩] := by
    unfold Dag.DepsClosed
    decide
  refine ⟨hn, hc, ?_⟩
  exact (c4_invalid_iff_cycle
    [⟨"a", none, none, some ["b"]⟩, ⟨"b", none, none, some ["a"]⟩] hn hc).mp
    (by decide)

/-- C7 (amended): `critical_path` returns its cycle error exactly when the
topological sort is incomplete; every cyclic input errors, and on inputs
with distinct listed ids and closed dependencies an error conversely implies
a cycle.  On success the returned path is precisely the topological order
filtered to the near-zero-slack ids (hence respects every dependency edge
between its members), the slack list is the per-id slack record of the
order, and total_duration is the maximum of 0 and the computed
earliest-finish values — an upper bound of all of them that is attained
whenever it is positive. -/
theorem c7_critical_path_amended (nodes : List Dag.DagNode) :
    (Dag.critical_path nodes
        = Except.error "Graph contains cycles; cannot compute critical path"
      ↔ (Dag.topological_sort nodes).is_valid = false)
    ∧ (Dag.HasCycle nodes →
        Dag.critical_path nodes
          = Except.error "Graph contains cycles; cannot compute critical path")
    ∧ ((Dag.idsOf nodes).Nodup → Dag.DepsClosed nodes →
        Dag.critical_path nodes
          = Except.error "Graph contains cycles; cannot compute critical path" →
        Dag.HasCycle nodes)
    ∧ (∀ r, Dag.critical_path nodes = Except.ok r →
        r.path = (Dag.topological_sort nodes).order.filter
            (Dag.nearCritical (Dag.forwardPass nodes).1
              (Dag.backwardPass nodes (Dag.totalDur nodes)).2)
        ∧ r.slack = (Dag.topological_sort nodes).order.map
            (Dag.slackRec (Dag.forwardPass nodes).1
              (Dag.backwardPass nodes (Dag.totalDur nodes)).2)
        ∧ (∀ u v, Dag.EdgeIn nodes u v → u ∈ r.path → v ∈ r.path →
            r.path.indexOf u < r.path.indexOf v)
        ∧ r.total_duration = Dag.totalDur nodes
        ∧ 0 ≤ r.total_duration
        ∧ (∀ q ∈ (Dag.forwardPass nodes).2.map Prod.snd, q ≤ r.total_duration)
        ∧ (r.total_duration = 0
            ∨ r.total_duration ∈ (Dag.forwardPass nodes).2.map Prod.snd)) := by
  refine ⟨Dag.critical_path_error_iff nodes, ?_, ?_, ?_⟩
  · intro hcyc
    exact Dag.critical_path_invalid nodes (Dag.cycle_invalid nodes hcyc)
  · intro hn hc he
    exact Dag.invalid_cycle nodes hn hc ((Dag.critical_path_error_iff nodes).mp he)
  · intro r hok
    have hval : (Dag.topological_sort nodes).is_valid = true := by
      cases h : (Dag.topological_sort nodes).is_valid
      · rw [Dag.critical_path_invalid nodes h] at hok
        exact Except.noConfusion hok
      · rfl
    rw [Dag.critical_path_valid nodes hval] at hok
    injection hok with hok
    subst hok
    have hpath : (Dag.slackPass nodes).1
        = (Dag.topological_sort nodes).order.filter
            (Dag.nearCritical (Dag.forwardPass nodes).1
              (Dag.backwardPass nodes (Dag.totalDur nodes)).2) := by
      rw [Dag.slackPass_eq]
    have hslack : (Dag.slackPass nodes).2
        = (Dag.topological_sort nodes).order.map
            (Dag.slackRec (Dag.forwardPass nodes).1
              (Dag.backwardPass nodes (Dag.totalDur nodes)).2) := by
      rw [Dag.slackPass_eq]
    refine ⟨hpath, hslack, ?_, rfl, ?_, ?_, ?_⟩
    · intro u v he hu hv
      have hu' := hu
      have hv' := hv
      rw [hpath] at hu' hv'
      have hvord : v ∈ (Dag.topological_sort nodes).order :=
        (List.mem_filter.mp hv').1
      rcases Dag.topo_pos nodes u v he hvord with ⟨huord, hlt⟩
      have := Dag.filter_indexOf_mono
        (Dag.nearCritical (Dag.forwardPass nodes).1
          (Dag.backwardPass nodes (Dag.totalDur nodes)).2)
        (Dag.topological_sort nodes).order (Dag.topo_order_nodup nodes)
        u v hu' hv' hlt
      rw [hpath]
      exact this
    · show (0 : ℚ) ≤ Dag.totalDur nodes
      rw [Dag.totalDur]
      exact Dag.le_foldl_max _ 0
    · intro q hq
      show q ≤ Dag.totalDur nodes
      rw [Dag.totalDur]
      exact Dag.mem_le_foldl_max _ q hq 0
    · show Dag.totalDur nodes = 0
        ∨ Dag.totalDur nodes ∈ (Dag.forwardPass nodes).2.map Prod.snd
      rw [Dag.totalDur]
      exact Dag.foldl_max_mem _ 0

/-- C7 counterexample: (1) the phantom-dependency input is acyclic yet
`critical_path` returns the cycle error, so errors are not exactly the
cyclic inputs; (2) on a single node of estimated duration −5 the forward
pass computes earliest finish −5, but the returned total_duration is 0, not
the maximum earliest-finish time. -/
theorem c7_critical_path_counterexample :
    (¬ Dag.HasCycle ([⟨"a", none, none, some ["ghost"]⟩] : List Dag.DagNode)
      ∧ Dag.critical_path ([⟨"a", none, none, some ["ghost"]⟩] : List Dag.DagNode)
          = Except.error "Graph contains cycles; cannot compute critical path")
    ∧ ((Dag.forwardPass ([⟨"a", none, some (-5), none⟩] : List Dag.DagNode)).2 = [("a", (-5 : ℚ))]
      ∧ Dag.critical_path ([⟨"a", none, some (-5), none⟩] : List Dag.DagNode)
          = Except.ok { path := []
                        total_duration := 0
                        slack := [{ id := "a", slack := 5, earliest_start := 0, latest_start := 5 }] }
      ∧ ((-5 : ℚ) ≠ 0)) := by
  have hval : (Dag.topological_sort ([⟨"a", none, some (-5), none⟩] : List Dag.DagNode)).is_valid = true := by decide
  have hord : (Dag.topological_sort ([⟨"a", none, some (-5), none⟩] : List Dag.DagNode)).order = ["a"] := by decide
  have hadj : (Dag.build_graph ([⟨"a", none, some (-5), none⟩] : List Dag.DagNode)).1 = [("a", [])] := by decide
  have hdur : Dag.durOf (Dag.build_graph ([⟨"a", none, some (-5), none⟩] : List Dag.DagNode)).2.2 "a" = (-5 : ℚ) := by decide
  have hfw : Dag.forwardPass ([⟨"a", none, some (-5), none⟩] : List Dag.DagNode) = ([("a", (0 : ℚ))], [("a", (-5 : ℚ))]) := by
    rw [Dag.forwardPass, hord, hadj]
    simp only [List.foldl_cons, List.foldl_nil, Dag.forwardStep, hdur,
      Fleet.insertOrA, Fleet.insertRepA, Fleet.lookupA, Option.getD,
      List.nil_append, String.reduceEq, if_true, if_false]
    norm_num
  have htd : Dag.totalDur ([⟨"a", none, some (-5), none⟩] : List Dag.DagNode) = 0 := by
    rw [Dag.totalDur, hfw]
    simp only [List.map_cons, List.map_nil, List.foldl_cons, List.foldl_nil]
    exact max_eq_left (by norm_num)
  have hbw : Dag.backwardPass ([⟨"a", none, some (-5), none⟩] : List Dag.DagNode) 0 = ([("a", (0 : ℚ))], [("a", (5 : ℚ))]) := by
    rw [Dag.backwardPass, hord, hadj]
    simp only [List.reverse_cons, List.reverse_nil, List.nil_append,
      List.foldl_cons, List.foldl_nil, Dag.backwardStep, hdur,
      Fleet.insertOrA, Fleet.insertRepA, Fleet.lookupA, Option.getD,
      String.reduceEq, if_true, if_false]
    norm_num
  have hsp : Dag.slackPass ([⟨"a", none, some (-5), none⟩] : List Dag.DagNode)
      = ([], [{ id := "a", slack := 5, earliest_start := 0, latest_start := 5 }]) := by
    rw [Dag.slackPass, hord, hfw, htd, hbw]
    simp only [List.foldl_cons, List.foldl_nil, Dag.slackStep,
      Fleet.lookupA, Option.getD, String.reduceEq, if_true, if_false]
    rw [if_neg (by norm_num)]
    norm_num
  refine ⟨⟨Dag.phantom_no_cycle, Dag.critical_path_invalid _ (by decide)⟩,
    hfw ▸ rfl, ?_, by norm_num⟩
  rw [Dag.critical_path_valid _ hval, hsp, htd]

/-- Witness for C7 at the two-cycle `a ↔ b`: the cycle is exhibited
explicitly, and the amended theorem maps it to the cycle error. -/
theorem c7_critical_path_witness :
    Dag.HasCycle [⟨"a", none, none, some ["b"]⟩, ⟨"b", none, none, some ["a"]⟩]
    ∧ Dag.critical_path [⟨"a", none, none, some ["b"]⟩, ⟨"b", none, none, some ["a"]⟩]
        = Except.error "Graph contains cycles; cannot compute critical path" := by
  have he1 : Dag.EdgeIn [⟨"a", none, none, some ["b"]⟩, ⟨"b", none, none, some ["a"]⟩] "a" "b" := by
    unfold Dag.EdgeIn
    decide
  have he2 : Dag.EdgeIn [⟨"a", none, none, some ["b"]⟩, ⟨"b", none, none, some ["a"]⟩] "b" "a" := by
    unfold Dag.EdgeIn
    decide
  have hcyc : Dag.HasCycle [⟨"a", none, none, some ["b"]⟩, ⟨"b", none, none, some ["a"]⟩] :=
    ⟨"a", Relation.TransGen.head he1 (Relation.TransGen.single he2)⟩
  exact ⟨hcyc, (c7_critical_path_amended [⟨"a", none, none, some ["b"]⟩, ⟨"b", none, none, some ["a"]⟩]).2.1 hcyc⟩
